import Mathlib

/-!
Verification of the rCore kernel (yang-le/rCore) against its specification.

This file shallowly embeds the kernel subsystems the claims are about:

* the signal subsystem (`call_kernel_signal_handler`, `call_user_signal_handler`,
  `sys_kill`, `sys_sigreturn`) from `src/os/src/task/mod.rs` and
  `src/os/src/syscall/process.rs`;
* the user-trap path for environment calls (`trap_handler`) from
  `src/os/src/trap/mod.rs`;
* `sys_waitpid` from `src/os/src/syscall/process.rs`;
* the blocking mutex and condition variable from `src/os/src/sync/mutex.rs`
  and `src/os/src/sync/condvar.rs`, and the semaphore (whose source file is
  not in the tree; it is modelled from the specification);
* the stack frame allocator from `src/os/src/mm/frame_allocator.rs`;
* SV39 page tables, map areas and memory sets from `src/os/src/mm/page_table.rs`
  and `src/os/src/mm/memory_set.rs`.

Machine integers (`usize`) are modelled as `Nat` with explicit wrapping where
the width matters; Rust panics (`panic!`, `assert!`, `unwrap`) are modelled by
`Option`, with `none` denoting the fatal case; `Vec` used as a stack is
modelled by `List` with the head as the top of the stack.
-/

namespace RCore

/-! ## Signal flags

`task/signal.rs` is absent from the source tree; only its users are present.
The bit layout below is modelled from the spec. -/

/-- Modelled from the spec: `task/signal.rs` (the `SignalFlags` bitflags) is
missing from the tree.  Signal numbers 0..31 are aligned with Linux
(SIGHUP(1)..SIGSYS(31)) plus SIGDEF = 0; a `SignalFlags` value is a 32-bit
mask with bit `n` standing for signal `n`. -/
def sigBit (n : Nat) : Nat := 1 <<< n

def SIGDEF : Nat := sigBit 0
def SIGILL : Nat := sigBit 4
def SIGKILL : Nat := sigBit 9
def SIGSEGV : Nat := sigBit 11
def SIGCONT : Nat := sigBit 18
def SIGSTOP : Nat := sigBit 19

/-- Maximal signal number (`MAX_SIG`), per the spec signal numbers run 0..31. -/
def MAX_SIG : Nat := 31

/-- Bitflags `contains`: all bits of `flag` are set in `s`. -/
def flagsContains (s flag : Nat) : Bool := s &&& flag == flag

/-- The signal-relevant slice of `ProcessControlBlockInner`
(`src/os/src/task/process.rs`): the pending mask `signal_recv`, the
process-wide `signal_mask`, the `frozen` and `killed` flags and the index of
the signal being handled. -/
structure ProcSignalState where
  signal_recv : Nat
  signal_mask : Nat
  frozen : Bool
  killed : Bool
  handling_sig : Int
  deriving DecidableEq, Repr

/-- Embedding of `call_kernel_signal_handler` (`src/os/src/task/mod.rs`,
lines 200-216): SIGSTOP sets `frozen` and xors the SIGSTOP bit out of
`signal_recv`; SIGCONT clears `frozen` and xors the SIGCONT bit; every other
kernel signal (SIGKILL, SIGDEF) only sets `killed`. -/
def call_kernel_signal_handler (p : ProcSignalState) (signal : Nat) : ProcSignalState :=
  if signal = SIGSTOP then
    { p with frozen := true, signal_recv := p.signal_recv ^^^ SIGSTOP }
  else if signal = SIGCONT then
    { p with frozen := false, signal_recv := p.signal_recv ^^^ SIGCONT }
  else
    { p with killed := true }

/-! ## sys_kill -/

/-- Association-list view of the `pid2process` map: pid to the process's
pending-signal mask `signal_recv`. -/
def pidLookup (procs : List (Nat × Nat)) (pid : Nat) : Option Nat :=
  match procs with
  | [] => none
  | (q, recv) :: rest => if q = pid then some recv else pidLookup rest pid

def pidUpdate (procs : List (Nat × Nat)) (pid : Nat) (recv : Nat) : List (Nat × Nat) :=
  match procs with
  | [] => []
  | (q, r) :: rest =>
    if q = pid then (q, recv) :: rest else (q, r) :: pidUpdate rest pid recv

/-- Embedding of `sys_kill` (`src/os/src/syscall/process.rs`, lines 125-140).
`SignalFlags::from_bits(1 << signum)` succeeds exactly when the bit is one of
the 32 defined flags, i.e. `signum < 32` (bit layout modelled from the spec).
If the target exists and the flag is valid: a flag already contained in
`signal_recv` yields `-1` and no change, otherwise the flag is inserted and
the result is `0`. -/
def sys_kill (procs : List (Nat × Nat)) (pid : Nat) (signum : Nat) :
    Int × List (Nat × Nat) :=
  match pidLookup procs pid with
  | none => (-1, procs)
  | some recv =>
    if signum < 32 then
      let flag := sigBit signum
      if flagsContains recv flag then (-1, procs)
      else (0, pidUpdate procs pid (recv ||| flag))
    else (-1, procs)

/-! ## Trap context and the environment-call trap path -/

/-- Modelled from the spec: `trap/context.rs` is missing from the tree.
Per §3 a trap context holds registers x0-x31, `sstatus`, `sepc`, the kernel
satp, the kernel stack pointer and the trap-handler entry.  The register file
is a 32-element list. -/
structure TrapContext where
  x : List Nat
  sstatus : Nat
  sepc : Nat
  kernel_satp : Nat
  kernel_sp : Nat
  trap_handler_va : Nat
  deriving DecidableEq, Repr

def TrapContext.getX (cx : TrapContext) (i : Nat) : Nat := cx.x.getD i 0

def TrapContext.setX (cx : TrapContext) (i : Nat) (v : Nat) : TrapContext :=
  { cx with x := cx.x.set i v }

/-- Conversion `result as usize` of the `isize` syscall result. -/
def intAsUsize (r : Int) : Nat := (r % (2 ^ 64)).toNat

/-- State visible to the `UserEnvCall` arm of `trap_handler`: the current
thread's stored trap context and the S-mode interrupt-enable bit. -/
structure TrapPathState where
  cx : TrapContext
  sie : Bool
  deriving DecidableEq, Repr

/-- Embedding of the `UserEnvCall` arm of `trap_handler`
(`src/os/src/trap/mod.rs`, lines 115-126).  `sysfn` abstracts
`syscall(id, args)`; it receives the id from x17, the arguments from
x10..x12, and the trap context stored at call time, and returns the result
together with the (possibly replaced, e.g. by `sys_exec`) stored trap
context, which the handler re-reads.  The handler advances `sepc` by 4,
enables S-mode interrupts, and finally stores the result in `x[12]` of the
re-read context. -/
def trap_handler_user_env_call
    (sysfn : Nat → List Nat → TrapContext → Int × TrapContext)
    (st : TrapPathState) : TrapPathState :=
  let cx0 := { st.cx with sepc := st.cx.sepc + 4 }
  let st1 : TrapPathState := { cx := cx0, sie := true }
  let r := sysfn (cx0.getX 17) [cx0.getX 10, cx0.getX 11, cx0.getX 12] cx0
  let cx1 := r.2
  { st1 with cx := cx1.setX 12 (intAsUsize r.1) }

/-! ## Signal handler entry and sigreturn -/

/-- A signal action: handler address and per-action mask
(shape per the spec, `SignalAction` lives in the missing `task/signal.rs`). -/
structure SignalAction where
  handler : Nat
  mask : Nat
  deriving DecidableEq, Repr

/-- Process state touched by user-signal delivery and `sys_sigreturn`:
the main thread's stored trap context, the backup slot, the pending set and
the handling index, plus the action table. -/
structure SigDeliveryState where
  cx : TrapContext
  trap_ctx_backup : Option TrapContext
  signal_recv : Nat
  handling_sig : Int
  signal_actions : Nat → SignalAction

/-- Embedding of `call_user_signal_handler` (`src/os/src/task/mod.rs`, lines
218-234): if the action's handler is nonzero, record `handling_sig`, xor the
signal bit out of the pending set, back up the current trap context, point
`sepc` at the handler and pass the signal number in x10; otherwise do
nothing (default action). -/
def call_user_signal_handler (p : SigDeliveryState) (sig : Nat) : SigDeliveryState :=
  let handler := (p.signal_actions sig).handler
  if handler ≠ 0 then
    { p with
      handling_sig := (sig : Int)
      signal_recv := p.signal_recv ^^^ sigBit sig
      trap_ctx_backup := some p.cx
      cx := { p.cx with sepc := handler, x := p.cx.x.set 10 sig } }
  else p

/-- Embedding of `sys_sigreturn` (`src/os/src/syscall/process.rs`, lines
142-151): reset `handling_sig` to -1, restore the stored trap context from
`trap_ctx_backup` (`unwrap`, fatal when absent) and return 0. -/
def sys_sigreturn (p : SigDeliveryState) : Option (Int × SigDeliveryState) :=
  match p.trap_ctx_backup with
  | none => none
  | some backup => some (0, { p with handling_sig := -1, cx := backup })

/-- The trap that the user handler's `sigreturn` environment call goes
through, following `trap_handler` (`src/os/src/trap/mod.rs`, lines 115-126):
on trap entry the handler's live registers `hcx` overwrite the stored trap
context; the handler advances `sepc` by 4, runs `sys_sigreturn`, re-reads the
stored context and stores the result in `x[12]`. -/
def sigreturn_trap (p : SigDeliveryState) (hcx : TrapContext) : Option SigDeliveryState :=
  let p0 := { p with cx := { hcx with sepc := hcx.sepc + 4 } }
  match sys_sigreturn p0 with
  | none => none
  | some (r, p1) => some { p1 with cx := p1.cx.setX 12 (intAsUsize r) }

/-! ## sys_waitpid -/

/-- The slice of a child `ProcessControlBlock` that `sys_waitpid` reads. -/
structure ChildProc where
  pid : Nat
  is_zombie : Bool
  exit_code : Int
  deriving DecidableEq, Repr

/-- The pid match `pid == -1 || pid as usize == p.getpid()`. -/
def pidMatches (pid : Int) (child : ChildProc) : Bool :=
  pid == -1 || intAsUsize pid == child.pid

/-- Embedding of `sys_waitpid` (`src/os/src/syscall/process.rs`, lines
65-88).  Returns the result, the updated children list, and the exit code
written through `exit_code_ptr` (if any).  If no child matches the pid the
result is -1; else the first matching zombie child is removed, its exit code
written out and its pid returned; else -2. -/
def sys_waitpid (children : List ChildProc) (pid : Int) :
    Int × List ChildProc × Option Int :=
  if ¬ children.any (fun p => pidMatches pid p) then
    (-1, children, none)
  else
    match children.findIdx? (fun p => p.is_zombie && pidMatches pid p) with
    | some idx =>
      match children[idx]? with
      | some child => ((child.pid : Int), children.eraseIdx idx, some child.exit_code)
      | none => (-2, children, none)
    | none => (-2, children, none)

/-! ## Blocking mutex, semaphore, condition variable -/

/-- `MutexBlockingInner` (`src/os/src/sync/mutex.rs`): the locked flag and
the FIFO wait queue of blocked tasks (tasks are identified by id). -/
structure MutexBlockingInner where
  locked : Bool
  wait_queue : List Nat
  deriving DecidableEq, Repr

/-- Embedding of `MutexBlocking::lock` (`src/os/src/sync/mutex.rs`, lines
70-78) for task `t`: when locked, push `t` at the back of the wait queue and
block (`true`); when free, take the lock (`false`). -/
def MutexBlocking.lock (s : MutexBlockingInner) (t : Nat) : MutexBlockingInner × Bool :=
  if s.locked then
    ({ s with wait_queue := s.wait_queue ++ [t] }, true)
  else
    ({ s with locked := true }, false)

/-- Embedding of `MutexBlocking::unlock` (`src/os/src/sync/mutex.rs`, lines
82-90): `assert!(locked)` is fatal when the mutex is free (`none`); else pop
the front of the wait queue and wake it (second component), leaving `locked`
untouched; when the queue is empty clear `locked`. -/
def MutexBlocking.unlock (s : MutexBlockingInner) :
    Option (MutexBlockingInner × Option Nat) :=
  if s.locked then
    match s.wait_queue with
    | w :: rest => some ({ s with wait_queue := rest }, some w)
    | [] => some ({ s with locked := false }, none)
  else none

/-- Modelled from the spec: the semaphore's source file (`sync/semaphore.rs`)
is missing from the tree (only its callers in `src/os/src/syscall/sync.rs`
remain).  Per §4.9: an integer counter plus a FIFO wait queue. -/
structure Semaphore where
  count : Int
  wait_queue : List Nat
  deriving DecidableEq, Repr

/-- Modelled from the spec (§4.9): `down` decrements the counter; if the
result is negative the caller is enqueued at the back and blocks. -/
def Semaphore.down (s : Semaphore) (t : Nat) : Semaphore × Bool :=
  let count := s.count - 1
  if count < 0 then
    ({ count := count, wait_queue := s.wait_queue ++ [t] }, true)
  else
    ({ s with count := count }, false)

/-- Modelled from the spec (§4.9): `up` increments the counter; if the prior
count was negative the head of the wait queue is popped and woken. -/
def Semaphore.up (s : Semaphore) : Semaphore × Option Nat :=
  let prior := s.count
  let count := s.count + 1
  if prior < 0 then
    match s.wait_queue with
    | w :: rest => ({ count := count, wait_queue := rest }, some w)
    | [] => ({ s with count := count }, none)
  else ({ s with count := count }, none)

/-- `CondvarInner` (`src/os/src/sync/condvar.rs`): the FIFO wait queue. -/
structure CondvarInner where
  wait_queue : List Nat
  deriving DecidableEq, Repr

/-- Embedding of `Condvar::signal` (`src/os/src/sync/condvar.rs`, lines
29-34): pop the front of the wait queue and wake it; no-op when empty. -/
def Condvar.signal (s : CondvarInner) : CondvarInner × Option Nat :=
  match s.wait_queue with
  | w :: rest => ({ wait_queue := rest }, some w)
  | [] => (s, none)

/-- Embedding of the enqueue step shared by `Condvar::wait_no_sched` and
`Condvar::wait_with_mutex` (`src/os/src/sync/condvar.rs`): push the current
task at the back of the wait queue before blocking. -/
def Condvar.waitEnqueue (s : CondvarInner) (t : Nat) : CondvarInner :=
  { wait_queue := s.wait_queue ++ [t] }

/-! ### Wait-queue traces

To state the FIFO claim we run each primitive on a list of events and record
the order in which tasks enter the wait queue (`enq`) and the order in which
wake-ups leave it (`woken`). -/

inductive MutexEvent where
  | lock (t : Nat)
  | unlock
  deriving DecidableEq, Repr

/-- Run a blocking mutex over a list of events, accumulating the order in
which tasks blocked into the wait queue and the order in which they were
woken.  `none` when some `unlock` hits an unlocked mutex (fatal assert). -/
def mutexRun (s : MutexBlockingInner) (enq woken : List Nat) :
    List MutexEvent → Option (MutexBlockingInner × List Nat × List Nat)
  | [] => some (s, enq, woken)
  | MutexEvent.lock t :: es =>
    let r := MutexBlocking.lock s t
    mutexRun r.1 (if r.2 then enq ++ [t] else enq) woken es
  | MutexEvent.unlock :: es =>
    match MutexBlocking.unlock s with
    | none => none
    | some (s1, some w) => mutexRun s1 enq (woken ++ [w]) es
    | some (s1, none) => mutexRun s1 enq woken es

inductive SemEvent where
  | down (t : Nat)
  | up
  deriving DecidableEq, Repr

/-- Run a semaphore over a list of events, accumulating blocked and woken
orders. -/
def semRun (s : Semaphore) (enq woken : List Nat) :
    List SemEvent → Semaphore × List Nat × List Nat
  | [] => (s, enq, woken)
  | SemEvent.down t :: es =>
    let r := Semaphore.down s t
    semRun r.1 (if r.2 then enq ++ [t] else enq) woken es
  | SemEvent.up :: es =>
    match Semaphore.up s with
    | (s1, some w) => semRun s1 enq (woken ++ [w]) es
    | (s1, none) => semRun s1 enq woken es

inductive CondEvent where
  | wait (t : Nat)
  | signal
  deriving DecidableEq, Repr

/-- Run a condition variable over a list of events, accumulating blocked and
woken orders. -/
def condRun (s : CondvarInner) (enq woken : List Nat) :
    List CondEvent → CondvarInner × List Nat × List Nat
  | [] => (s, enq, woken)
  | CondEvent.wait t :: es =>
    condRun (Condvar.waitEnqueue s t) (enq ++ [t]) woken es
  | CondEvent.signal :: es =>
    match Condvar.signal s with
    | (s1, some w) => condRun s1 enq (woken ++ [w]) es
    | (s1, none) => condRun s1 enq woken es

/-! ## Stack frame allocator -/

/-- `StackFrameAllocator` (`src/os/src/mm/frame_allocator.rs`): watermark
`current`, end of the pool `endp`, and the recycle stack (a `Vec` used as a
stack; modelled as a list with the head as the top). -/
structure StackFrameAllocator where
  current : Nat
  endp : Nat
  recycled : List Nat
  deriving DecidableEq, Repr

/-- `StackFrameAllocator::new` followed by `init(l, r)`
(`src/os/src/mm/frame_allocator.rs`, lines 84-88): `current = l`, `end = r`,
recycle stack empty. -/
def StackFrameAllocator.init (l r : Nat) : StackFrameAllocator :=
  { current := l, endp := r, recycled := [] }

/-- Embedding of `StackFrameAllocator::alloc`
(`src/os/src/mm/frame_allocator.rs`, lines 48-56): pop the recycle stack if
possible; else fail when the watermark reached the end; else bump the
watermark. -/
def StackFrameAllocator.alloc (a : StackFrameAllocator) :
    Option (StackFrameAllocator × Nat) :=
  match a.recycled with
  | p :: rest => some ({ a with recycled := rest }, p)
  | [] =>
    if a.current = a.endp then none
    else some ({ a with current := a.current + 1 }, a.current)

/-- Embedding of `StackFrameAllocator::dealloc`
(`src/os/src/mm/frame_allocator.rs`, lines 67-75): validity check
`ppn >= current || recycled contains ppn` panics (`none`); otherwise push
onto the recycle stack. -/
def StackFrameAllocator.dealloc (a : StackFrameAllocator) (ppn : Nat) :
    Option StackFrameAllocator :=
  if a.current ≤ ppn ∨ ppn ∈ a.recycled then none
  else some { a with recycled := ppn :: a.recycled }

/-! ## Wait-queue FIFO lemmas -/

/-- Generalized run invariant for the blocking mutex: the tasks woken so far
followed by the current wait queue equal the initial woken list, initial wait
queue and the newly blocked tasks in order. -/
theorem mutexRun_fifo_aux (es : List MutexEvent) :
    ∀ s enq woken st enq2 woken2,
      mutexRun s enq woken es = some (st, enq2, woken2) →
      ∃ nb, enq2 = enq ++ nb ∧
        woken2 ++ st.wait_queue = woken ++ s.wait_queue ++ nb := by
  induction es with
  | nil =>
    intro s enq woken st enq2 woken2 h
    simp only [mutexRun, Option.some.injEq, Prod.mk.injEq] at h
    obtain ⟨h1, h2, h3⟩ := h
    exact ⟨[], by simp [← h1, ← h2, ← h3]⟩
  | cons e es ih =>
    intro s enq woken st enq2 woken2 h
    cases e with
    | lock t =>
      simp only [mutexRun, MutexBlocking.lock] at h
      by_cases hl : s.locked
      · simp only [hl, if_true] at h
        obtain ⟨nb, hnb1, hnb2⟩ := ih _ _ _ _ _ _ h
        refine ⟨t :: nb, ?_, ?_⟩
        · simpa using hnb1
        · simpa using hnb2
      · simp only [hl, if_false] at h
        obtain ⟨nb, hnb1, hnb2⟩ := ih _ _ _ _ _ _ h
        exact ⟨nb, hnb1, hnb2⟩
    | unlock =>
      simp only [mutexRun, MutexBlocking.unlock] at h
      by_cases hl : s.locked
      · simp only [hl, if_true] at h
        cases hq : s.wait_queue with
        | nil =>
          simp only [hq] at h
          obtain ⟨nb, hnb1, hnb2⟩ := ih _ _ _ _ _ _ h
          exact ⟨nb, hnb1, by simpa [hq] using hnb2⟩
        | cons w rest =>
          simp only [hq] at h
          obtain ⟨nb, hnb1, hnb2⟩ := ih _ _ _ _ _ _ h
          exact ⟨nb, hnb1, by simpa [hq] using hnb2⟩
      · simp [hl] at h


/-- Generalized run invariant for the semaphore: woken tasks followed by the
current wait queue equal the initial woken list, initial queue and the newly
blocked tasks in order. -/
theorem semRun_fifo_aux (es : List SemEvent) :
    ∀ s enq woken,
      ∃ nb, (semRun s enq woken es).2.1 = enq ++ nb ∧
        (semRun s enq woken es).2.2 ++ (semRun s enq woken es).1.wait_queue =
          woken ++ s.wait_queue ++ nb := by
  induction es with
  | nil =>
    intro s enq woken
    exact ⟨[], by simp [semRun]⟩
  | cons e es ih =>
    intro s enq woken
    cases e with
    | down t =>
      by_cases hc : s.count - 1 < 0
      · have hstep : semRun s enq woken (SemEvent.down t :: es) =
            semRun { count := s.count - 1, wait_queue := s.wait_queue ++ [t] }
              (enq ++ [t]) woken es := by
          simp [semRun, Semaphore.down, hc]
        rw [hstep]
        obtain ⟨nb, hnb1, hnb2⟩ := ih { count := s.count - 1, wait_queue := s.wait_queue ++ [t] }
          (enq ++ [t]) woken
        exact ⟨t :: nb, by simpa using hnb1, by simpa using hnb2⟩
      · have hstep : semRun s enq woken (SemEvent.down t :: es) =
            semRun { s with count := s.count - 1 } enq woken es := by
          simp [semRun, Semaphore.down, hc]
        rw [hstep]
        exact ih _ enq woken
    | up =>
      by_cases hc : s.count < 0
      · cases hq : s.wait_queue with
        | nil =>
          have hstep : semRun s enq woken (SemEvent.up :: es) =
              semRun { s with count := s.count + 1 } enq woken es := by
            simp [semRun, Semaphore.up, hc, hq]
          rw [hstep]
          obtain ⟨nb, hnb1, hnb2⟩ := ih { s with count := s.count + 1 } enq woken
          exact ⟨nb, hnb1, by simpa [hq] using hnb2⟩
        | cons w rest =>
          have hstep : semRun s enq woken (SemEvent.up :: es) =
              semRun { count := s.count + 1, wait_queue := rest } enq (woken ++ [w]) es := by
            simp [semRun, Semaphore.up, hc, hq]
          rw [hstep]
          obtain ⟨nb, hnb1, hnb2⟩ := ih { count := s.count + 1, wait_queue := rest }
            enq (woken ++ [w])
          exact ⟨nb, hnb1, by simpa [hq] using hnb2⟩
      · have hstep : semRun s enq woken (SemEvent.up :: es) =
            semRun { s with count := s.count + 1 } enq woken es := by
          simp [semRun, Semaphore.up, hc]
        rw [hstep]
        obtain ⟨nb, hnb1, hnb2⟩ := ih { s with count := s.count + 1 } enq woken
        exact ⟨nb, hnb1, hnb2⟩

/-- Generalized run invariant for the condition variable: woken tasks
followed by the current wait queue equal the initial woken list, initial
queue and the newly enqueued waiters in order. -/
theorem condRun_fifo_aux (es : List CondEvent) :
    ∀ s enq woken,
      ∃ nb, (condRun s enq woken es).2.1 = enq ++ nb ∧
        (condRun s enq woken es).2.2 ++ (condRun s enq woken es).1.wait_queue =
          woken ++ s.wait_queue ++ nb := by
  induction es with
  | nil =>
    intro s enq woken
    exact ⟨[], by simp [condRun]⟩
  | cons e es ih =>
    intro s enq woken
    cases e with
    | wait t =>
      have hstep : condRun s enq woken (CondEvent.wait t :: es) =
          condRun (Condvar.waitEnqueue s t) (enq ++ [t]) woken es := by
        simp [condRun]
      rw [hstep]
      obtain ⟨nb, hnb1, hnb2⟩ := ih (Condvar.waitEnqueue s t) (enq ++ [t]) woken
      exact ⟨t :: nb, by simpa using hnb1, by simpa [Condvar.waitEnqueue] using hnb2⟩
    | signal =>
      cases hq : s.wait_queue with
      | nil =>
        have hstep : condRun s enq woken (CondEvent.signal :: es) =
            condRun s enq woken es := by
          simp [condRun, Condvar.signal, hq]
        rw [hstep]
        obtain ⟨nb, hnb1, hnb2⟩ := ih s enq woken
        exact ⟨nb, hnb1, by simpa [hq] using hnb2⟩
      | cons w rest =>
        have hstep : condRun s enq woken (CondEvent.signal :: es) =
            condRun { wait_queue := rest } enq (woken ++ [w]) es := by
          simp [condRun, Condvar.signal, hq]
        rw [hstep]
        obtain ⟨nb, hnb1, hnb2⟩ := ih { wait_queue := rest } enq (woken ++ [w])
        exact ⟨nb, hnb1, by simpa [hq] using hnb2⟩

/-- `MutexBlocking::new` (`src/os/src/sync/mutex.rs`): unlocked, empty queue. -/
def MutexBlocking.new : MutexBlockingInner := { locked := false, wait_queue := [] }

/-- Modelled from the spec (§4.9): a semaphore is created with counter
`res_count` and an empty wait queue. -/
def Semaphore.new (resCount : Nat) : Semaphore := { count := (resCount : Int), wait_queue := [] }

/-- `Condvar::new` (`src/os/src/sync/condvar.rs`): empty wait queue. -/
def Condvar.new : CondvarInner := { wait_queue := [] }

/-! ## Claim theorems -/

/-- C1: evaluation of the `UserEnvCall` arm of `trap_handler` at a concrete
environment call whose syscall returns 42 with x10 = 7 before the trap.  The
handler advances `sepc` by 4, enables S-mode interrupts and passes id x17 and
arguments x10..x12 to the syscall, but it stores the result in register
x[12], not x[10]: x10 still holds 7 and x12 holds 42 afterwards.  This
contradicts the claim (and the code's own `sys_fork`, which places the
child's return value in `x[10]`). -/
theorem c1_result_lands_in_x12 :
    (trap_handler_user_env_call
        (fun _ _ c => ((42 : Int), c))
        { cx := { x := ((((List.replicate 32 0).set 10 7).set 11 8).set 12 9).set 17 64,
                  sstatus := 0, sepc := 100, kernel_satp := 0, kernel_sp := 0,
                  trap_handler_va := 0 },
          sie := false }).cx.sepc = 104 ∧
    (trap_handler_user_env_call
        (fun _ _ c => ((42 : Int), c))
        { cx := { x := ((((List.replicate 32 0).set 10 7).set 11 8).set 12 9).set 17 64,
                  sstatus := 0, sepc := 100, kernel_satp := 0, kernel_sp := 0,
                  trap_handler_va := 0 },
          sie := false }).sie = true ∧
    (trap_handler_user_env_call
        (fun _ _ c => ((42 : Int), c))
        { cx := { x := ((((List.replicate 32 0).set 10 7).set 11 8).set 12 9).set 17 64,
                  sstatus := 0, sepc := 100, kernel_satp := 0, kernel_sp := 0,
                  trap_handler_va := 0 },
          sie := false }).cx.getX 10 = 7 ∧
    (trap_handler_user_env_call
        (fun _ _ c => ((42 : Int), c))
        { cx := { x := ((((List.replicate 32 0).set 10 7).set 11 8).set 12 9).set 17 64,
                  sstatus := 0, sepc := 100, kernel_satp := 0, kernel_sp := 0,
                  trap_handler_va := 0 },
          sie := false }).cx.getX 12 = 42 := by
  decide

/-- C2: a run of signal delivery followed by the handler's `sigreturn` trap,
at a concrete interrupted context whose x12 is 5.  `call_user_signal_handler`
backs up the interrupted context C; the handler then issues `sigreturn`;
`sys_sigreturn` restores C into the stored trap context and returns 0, after
which `trap_handler` stores that 0 into x[12] of the restored context.  The
final context therefore differs from C (x12 is 0, not 5), refuting the claim
that the trap context after `sigreturn` equals the value saved at handler
entry. -/
theorem c2_sigreturn_clobbers_x12 :
    (call_user_signal_handler
        { cx := { x := (List.replicate 32 0).set 12 5, sstatus := 0, sepc := 200,
                  kernel_satp := 0, kernel_sp := 0, trap_handler_va := 0 },
          trap_ctx_backup := none, signal_recv := sigBit 10, handling_sig := -1,
          signal_actions := fun _ => { handler := 4096, mask := 0 } }
        10).trap_ctx_backup =
      some { x := (List.replicate 32 0).set 12 5, sstatus := 0, sepc := 200,
             kernel_satp := 0, kernel_sp := 0, trap_handler_va := 0 } ∧
    (sigreturn_trap
        (call_user_signal_handler
          { cx := { x := (List.replicate 32 0).set 12 5, sstatus := 0, sepc := 200,
                    kernel_satp := 0, kernel_sp := 0, trap_handler_va := 0 },
            trap_ctx_backup := none, signal_recv := sigBit 10, handling_sig := -1,
            signal_actions := fun _ => { handler := 4096, mask := 0 } }
          10)
        { x := (List.replicate 32 0).set 17 139, sstatus := 0, sepc := 4200,
          kernel_satp := 0, kernel_sp := 0, trap_handler_va := 0 }).map
        (fun q => q.cx) =
      some (TrapContext.setX
        { x := (List.replicate 32 0).set 12 5, sstatus := 0, sepc := 200,
          kernel_satp := 0, kernel_sp := 0, trap_handler_va := 0 } 12 0) ∧
    TrapContext.setX
        { x := (List.replicate 32 0).set 12 5, sstatus := 0, sepc := 200,
          kernel_satp := 0, kernel_sp := 0, trap_handler_va := 0 } 12 0 ≠
      { x := (List.replicate 32 0).set 12 5, sstatus := 0, sepc := 200,
        kernel_satp := 0, kernel_sp := 0, trap_handler_va := 0 } := by
  decide

/-- C3 counterexample: handling SIGKILL in the kernel sets `killed` but does
not clear the SIGKILL bit from the pending set, refuting the claim that the
pending bit is cleared in all four kernel-signal cases. -/
theorem c3_sigkill_bit_not_cleared :
    (call_kernel_signal_handler
        { signal_recv := SIGKILL, signal_mask := 0, frozen := false,
          killed := false, handling_sig := -1 } SIGKILL).killed = true ∧
    flagsContains
        (call_kernel_signal_handler
          { signal_recv := SIGKILL, signal_mask := 0, frozen := false,
            killed := false, handling_sig := -1 } SIGKILL).signal_recv
        SIGKILL = true := by
  decide

/-- C3 (amended): in the kernel-signal handler SIGSTOP sets `frozen` and
clears its pending bit, SIGCONT clears `frozen` and clears its pending bit,
while SIGKILL and SIGDEF set `killed` and leave the pending set unchanged. -/
theorem c3_kernel_signal_handler (p : ProcSignalState) :
    ((call_kernel_signal_handler p SIGSTOP).frozen = true ∧
      (flagsContains p.signal_recv SIGSTOP = true →
        flagsContains (call_kernel_signal_handler p SIGSTOP).signal_recv SIGSTOP
          = false) ∧
      (call_kernel_signal_handler p SIGSTOP).killed = p.killed) ∧
    ((call_kernel_signal_handler p SIGCONT).frozen = false ∧
      (flagsContains p.signal_recv SIGCONT = true →
        flagsContains (call_kernel_signal_handler p SIGCONT).signal_recv SIGCONT
          = false) ∧
      (call_kernel_signal_handler p SIGCONT).killed = p.killed) ∧
    (∀ s, s = SIGKILL ∨ s = SIGDEF →
      (call_kernel_signal_handler p s).killed = true ∧
      (call_kernel_signal_handler p s).signal_recv = p.signal_recv ∧
      (call_kernel_signal_handler p s).frozen = p.frozen) := by
  have hclear : ∀ (recv f : Nat), flagsContains recv f = true →
      flagsContains (recv ^^^ f) f = (0 == f) := by
    intro recv f h
    have h2 : recv &&& f = f := by simpa [flagsContains] using h
    simp only [flagsContains, Nat.and_xor_distrib_right, h2, Nat.and_self,
      Nat.xor_self]
  refine ⟨⟨?_, ?_, ?_⟩, ⟨?_, ?_, ?_⟩, ?_⟩
  · simp [call_kernel_signal_handler]
  · intro h
    have := hclear p.signal_recv SIGSTOP h
    simp only [call_kernel_signal_handler, if_pos rfl]
    simpa [show (0 == SIGSTOP) = false by decide] using this
  · simp [call_kernel_signal_handler]
  · simp [call_kernel_signal_handler, show SIGCONT ≠ SIGSTOP by decide]
  · intro h
    have := hclear p.signal_recv SIGCONT h
    simp only [call_kernel_signal_handler,
      if_neg (show ¬ SIGCONT = SIGSTOP by decide), if_pos rfl]
    simpa [show (0 == SIGCONT) = false by decide] using this
  · simp [call_kernel_signal_handler, show SIGCONT ≠ SIGSTOP by decide]
  · rintro s (rfl | rfl) <;>
      simp [call_kernel_signal_handler,
        show ¬ SIGKILL = SIGSTOP by decide, show ¬ SIGKILL = SIGCONT by decide,
        show ¬ SIGDEF = SIGSTOP by decide, show ¬ SIGDEF = SIGCONT by decide]

/-- C3 witness: the amended theorem applied at a concrete process state with
both SIGSTOP and SIGCONT pending. -/
theorem c3_kernel_signal_handler_witness :
    flagsContains (SIGSTOP ||| SIGCONT) SIGSTOP = true ∧
    flagsContains
      (call_kernel_signal_handler
        { signal_recv := SIGSTOP ||| SIGCONT, signal_mask := 0, frozen := false,
          killed := false, handling_sig := -1 } SIGSTOP).signal_recv SIGSTOP = false ∧
    (call_kernel_signal_handler
        { signal_recv := SIGSTOP ||| SIGCONT, signal_mask := 0, frozen := false,
          killed := false, handling_sig := -1 } SIGKILL).killed = true :=
  ⟨by decide,
   (c3_kernel_signal_handler
      { signal_recv := SIGSTOP ||| SIGCONT, signal_mask := 0, frozen := false,
        killed := false, handling_sig := -1 }).1.2.1 (by decide),
   ((c3_kernel_signal_handler
      { signal_recv := SIGSTOP ||| SIGCONT, signal_mask := 0, frozen := false,
        killed := false, handling_sig := -1 }).2.2 SIGKILL (Or.inl rfl)).1⟩

/-- C6 counterexample: a freshly initialized allocator over `[5, 10)` has
issued no frame at all, yet deallocating ppn 3 (outside any issued range) is
accepted and pushed onto the recycle stack instead of being fatal, because
the validity check only compares against the watermark. -/
theorem c6_dealloc_below_range_accepted :
    StackFrameAllocator.dealloc (StackFrameAllocator.init 5 10) 3 =
      some { current := 5, endp := 10, recycled := [3] } := by
  decide

/-- C6 (amended): `dealloc(ppn)` is fatal exactly when `ppn` is at or above
the watermark `current` or already on the recycle stack; any other ppn —
including one below the initialized lower bound that was never issued — is
accepted and pushed onto the recycle stack. -/
theorem c6_dealloc_validity (a : StackFrameAllocator) (ppn : Nat) :
    (a.current ≤ ppn ∨ ppn ∈ a.recycled →
      StackFrameAllocator.dealloc a ppn = none) ∧
    (ppn < a.current → ppn ∉ a.recycled →
      StackFrameAllocator.dealloc a ppn =
        some { a with recycled := ppn :: a.recycled }) := by
  constructor
  · intro h
    simp [StackFrameAllocator.dealloc, h]
  · intro h1 h2
    have : ¬ (a.current ≤ ppn ∨ ppn ∈ a.recycled) := by
      push_neg
      exact ⟨by omega, h2⟩
    simp [StackFrameAllocator.dealloc, this]

/-- C6 witness: the amended theorem applied to a concrete allocator: a
double free of ppn 6 is fatal, and recycling the issued ppn 7 succeeds. -/
theorem c6_dealloc_validity_witness :
    StackFrameAllocator.dealloc { current := 8, endp := 10, recycled := [6] } 6
      = none ∧
    StackFrameAllocator.dealloc { current := 8, endp := 10, recycled := [6] } 7
      = some { current := 8, endp := 10, recycled := [7, 6] } :=
  ⟨(c6_dealloc_validity { current := 8, endp := 10, recycled := [6] } 6).1
      (Or.inr (by decide)),
   (c6_dealloc_validity { current := 8, endp := 10, recycled := [6] } 7).2
      (by decide) (by decide)⟩

/-- C7: `sys_waitpid` returns -1 when no child matches the pid; returns -2
when some child matches but no matching child is a zombie; and when the scan
finds the first matching zombie at index `idx`, that child is a matching
zombie, exactly one child is removed, its exit code is written out and its
pid returned. -/
theorem c7_sys_waitpid (children : List ChildProc) (pid : Int) :
    ((∀ c ∈ children, pidMatches pid c = false) →
      sys_waitpid children pid = (-1, children, none)) ∧
    ((∃ c ∈ children, pidMatches pid c = true) →
      (∀ c ∈ children, pidMatches pid c = true → c.is_zombie = false) →
      sys_waitpid children pid = (-2, children, none)) ∧
    (∀ idx child,
      children.findIdx? (fun p => p.is_zombie && pidMatches pid p) = some idx →
      children[idx]? = some child →
      child.is_zombie = true ∧ pidMatches pid child = true ∧
      (children.eraseIdx idx).length + 1 = children.length ∧
      sys_waitpid children pid =
        ((child.pid : Int), children.eraseIdx idx, some child.exit_code)) := by
  refine ⟨?_, ?_, ?_⟩
  · intro h
    have hany : children.any (fun p => pidMatches pid p) = false :=
      List.any_eq_false.mpr (fun c hc => by simp [h c hc])
    simp [sys_waitpid, hany]
  · intro hex hnz
    obtain ⟨c, hc, hcm⟩ := hex
    have hany : children.any (fun p => pidMatches pid p) = true :=
      List.any_eq_true.mpr ⟨c, hc, hcm⟩
    have hfind : children.findIdx? (fun p => p.is_zombie && pidMatches pid p)
        = none := by
      rw [List.findIdx?_eq_none_iff]
      intro d hd
      by_cases hm : pidMatches pid d = true
      · simp [hnz d hd hm]
      · simp [Bool.eq_false_iff.mpr hm]
    simp [sys_waitpid, hany, hfind]
  · intro idx child hfind hget
    have hidx := List.findIdx?_eq_some_iff_findIdx_eq.mp hfind
    have hpred : (child.is_zombie && pidMatches pid child) = true := by
      have h9 := @List.findIdx_of_getElem?_eq_some ChildProc
        (fun p => p.is_zombie && pidMatches pid p) child children
      exact h9 (by rw [hidx.2]; exact hget)
    have hsplit : child.is_zombie = true ∧ pidMatches pid child = true := by
      simpa using hpred
    have hz : child.is_zombie = true := hsplit.1
    have hm : pidMatches pid child = true := hsplit.2
    have hmem : child ∈ children := List.getElem?_mem hget
    have hany : children.any (fun p => pidMatches pid p) = true :=
      List.any_eq_true.mpr ⟨child, hmem, hm⟩
    have hlen : (children.eraseIdx idx).length + 1 = children.length := by
      have := List.length_eraseIdx_of_lt hidx.1
      omega
    refine ⟨hz, hm, hlen, ?_⟩
    simp [sys_waitpid, hany, hfind, hget]

/-- C7 witness: the theorem applied to a concrete children list: pid 5 is an
unknown child (-1); pid 9 names a live, non-zombie child (-2); waiting for
any child (-1) reaps the first zombie, child 7 with exit code 3. -/
theorem c7_sys_waitpid_witness :
    sys_waitpid [{ pid := 9, is_zombie := false, exit_code := 0 },
      { pid := 7, is_zombie := true, exit_code := 3 }] 5 =
      (-1, [{ pid := 9, is_zombie := false, exit_code := 0 },
        { pid := 7, is_zombie := true, exit_code := 3 }], none) ∧
    sys_waitpid [{ pid := 9, is_zombie := false, exit_code := 0 }] 9 =
      (-2, [{ pid := 9, is_zombie := false, exit_code := 0 }], none) ∧
    sys_waitpid [{ pid := 9, is_zombie := false, exit_code := 0 },
      { pid := 7, is_zombie := true, exit_code := 3 }] (-1) =
      (7, [{ pid := 9, is_zombie := false, exit_code := 0 }], some 3) :=
  ⟨(c7_sys_waitpid [{ pid := 9, is_zombie := false, exit_code := 0 },
      { pid := 7, is_zombie := true, exit_code := 3 }] 5).1 (by decide),
   (c7_sys_waitpid [{ pid := 9, is_zombie := false, exit_code := 0 }] 9).2.1
      ⟨{ pid := 9, is_zombie := false, exit_code := 0 }, by decide, by decide⟩
      (by decide),
   by
    have h := (c7_sys_waitpid [{ pid := 9, is_zombie := false, exit_code := 0 },
      { pid := 7, is_zombie := true, exit_code := 3 }] (-1)).2.2 1
      { pid := 7, is_zombie := true, exit_code := 3 } (by decide) (by decide)
    simpa using h.2.2.2⟩

/-- C9: `sys_kill` on a live target pid and a valid signal number: if the
signal bit is already pending the call fails with -1 and the map is
unchanged; otherwise the bit is inserted into the target's pending set and
the call returns 0. -/
theorem c9_sys_kill (procs : List (Nat × Nat)) (pid signum recv : Nat)
    (hlive : pidLookup procs pid = some recv) (hvalid : signum < 32) :
    (flagsContains recv (sigBit signum) = true →
      sys_kill procs pid signum = (-1, procs)) ∧
    (flagsContains recv (sigBit signum) = false →
      sys_kill procs pid signum =
        (0, pidUpdate procs pid (recv ||| sigBit signum))) := by
  constructor
  · intro h
    simp [sys_kill, hlive, hvalid, h]
  · intro h
    simp [sys_kill, hlive, hvalid, h]

/-- C9 witness: the theorem applied to a one-process map: a second SIGUSR1
(signal 10) to pid 3 while the first is still pending fails with -1; sending
it when not pending sets the bit and returns 0. -/
theorem c9_sys_kill_witness :
    sys_kill [(3, sigBit 10)] 3 10 = (-1, [(3, sigBit 10)]) ∧
    sys_kill [(3, 0)] 3 10 = (0, pidUpdate [(3, 0)] 3 (0 ||| sigBit 10)) :=
  ⟨(c9_sys_kill [(3, sigBit 10)] 3 10 (sigBit 10) rfl (by decide)).1 (by decide),
   (c9_sys_kill [(3, 0)] 3 10 0 rfl (by decide)).2 (by decide)⟩

/-- C10: `MutexBlocking::unlock` panics when the mutex is not locked; when
it is locked and the wait queue is nonempty it pops and wakes the queue head
and leaves the locked flag set (ownership transfer); when the queue is empty
it clears the locked flag. -/
theorem c10_mutex_unlock (s : MutexBlockingInner) :
    (s.locked = false → MutexBlocking.unlock s = none) ∧
    (∀ t rest, s.locked = true → s.wait_queue = t :: rest →
      MutexBlocking.unlock s =
        some ({ locked := true, wait_queue := rest }, some t)) ∧
    (s.locked = true → s.wait_queue = [] →
      MutexBlocking.unlock s =
        some ({ locked := false, wait_queue := [] }, none)) := by
  refine ⟨?_, ?_, ?_⟩
  · intro h
    simp [MutexBlocking.unlock, h]
  · intro t rest h hq
    cases s
    subst h hq
    simp [MutexBlocking.unlock]
  · intro h hq
    cases s
    subst h hq
    simp [MutexBlocking.unlock]

/-- C10 witness: the theorem applied at concrete mutex states: unlocking an
unlocked mutex is fatal; unlocking with waiters 4, 5 wakes 4 and keeps the
mutex locked; unlocking with no waiters frees the mutex. -/
theorem c10_mutex_unlock_witness :
    MutexBlocking.unlock { locked := false, wait_queue := [] } = none ∧
    MutexBlocking.unlock { locked := true, wait_queue := [4, 5] } =
      some ({ locked := true, wait_queue := [5] }, some 4) ∧
    MutexBlocking.unlock { locked := true, wait_queue := [] } =
      some ({ locked := false, wait_queue := [] }, none) :=
  ⟨(c10_mutex_unlock { locked := false, wait_queue := [] }).1 rfl,
   (c10_mutex_unlock { locked := true, wait_queue := [4, 5] }).2.1 4 [5] rfl rfl,
   (c10_mutex_unlock { locked := true, wait_queue := [] }).2.2 rfl rfl⟩

/-- C8: each wait queue is FIFO.  Running a freshly created blocking mutex,
semaphore, or condition variable over any event trace, the sequence of woken
tasks is a prefix of the sequence of tasks that blocked: whenever task A
blocks before task B, every wake-up of B is preceded by the wake-up of A. -/
theorem c8_wait_queues_fifo :
    (∀ es st enq woken,
      mutexRun MutexBlocking.new [] [] es = some (st, enq, woken) →
      ∃ rest, enq = woken ++ rest) ∧
    (∀ n es, ∃ rest,
      (semRun (Semaphore.new n) [] [] es).2.1 =
        (semRun (Semaphore.new n) [] [] es).2.2 ++ rest) ∧
    (∀ es, ∃ rest,
      (condRun Condvar.new [] [] es).2.1 =
        (condRun Condvar.new [] [] es).2.2 ++ rest) := by
  refine ⟨?_, ?_, ?_⟩
  · intro es st enq woken h
    obtain ⟨nb, hnb1, hnb2⟩ := mutexRun_fifo_aux es _ _ _ _ _ _ h
    refine ⟨st.wait_queue, ?_⟩
    simp only [MutexBlocking.new] at hnb2
    simp only [hnb1]
    simpa using hnb2.symm
  · intro n es
    obtain ⟨nb, hnb1, hnb2⟩ := semRun_fifo_aux es (Semaphore.new n) [] []
    refine ⟨(semRun (Semaphore.new n) [] [] es).1.wait_queue, ?_⟩
    simp only [Semaphore.new] at hnb2
    simp only [hnb1]
    simpa using hnb2.symm
  · intro es
    obtain ⟨nb, hnb1, hnb2⟩ := condRun_fifo_aux es Condvar.new [] []
    refine ⟨(condRun Condvar.new [] [] es).1.wait_queue, ?_⟩
    simp only [Condvar.new] at hnb2
    simp only [hnb1]
    simpa using hnb2.symm

/-- C8 witness: the FIFO theorem applied to concrete traces.  Mutex: 1 takes
the lock, then 2 and 3 block in that order; two unlocks wake 2 then 3 (the
woken order [2, 3] extends to the blocked order [2, 3]).  Semaphore and
condvar traces behave likewise. -/
theorem c8_wait_queues_fifo_witness :
    (∃ rest, [2, 3] = [2, 3] ++ rest) ∧
    (∃ rest,
      (semRun (Semaphore.new 1) [] []
        [SemEvent.down 1, SemEvent.down 2, SemEvent.down 3, SemEvent.up]).2.1 =
      (semRun (Semaphore.new 1) [] []
        [SemEvent.down 1, SemEvent.down 2, SemEvent.down 3, SemEvent.up]).2.2
        ++ rest) ∧
    (∃ rest,
      (condRun Condvar.new [] []
        [CondEvent.wait 4, CondEvent.wait 5, CondEvent.signal]).2.1 =
      (condRun Condvar.new [] []
        [CondEvent.wait 4, CondEvent.wait 5, CondEvent.signal]).2.2 ++ rest) :=
  ⟨c8_wait_queues_fifo.1
      [MutexEvent.lock 1, MutexEvent.lock 2, MutexEvent.lock 3,
        MutexEvent.unlock, MutexEvent.unlock]
      { locked := true, wait_queue := [] } [2, 3] [2, 3]
      (by decide),
   c8_wait_queues_fifo.2.1 1
      [SemEvent.down 1, SemEvent.down 2, SemEvent.down 3, SemEvent.up],
   c8_wait_queues_fifo.2.2
      [CondEvent.wait 4, CondEvent.wait 5, CondEvent.signal]⟩

/-! ## SV39 page tables, map areas, memory sets

Physical memory is modelled as two views of each physical page: `ptes p i`
is the i-th of the 512 page-table entries of page `p`
(`PhysPageNum::get_pte_array`) and `bytes p i` its i-th byte
(`PhysPageNum::get_bytes_array`).  The global frame allocator is part of the
machine state. -/

def PAGE_SIZE : Nat := 4096

/-- The three 9-bit levels of a virtual page number
(`VirtPageNum::indexes`, `src/os/src/mm/address.rs`). -/
def idx0 (vpn : Nat) : Nat := (vpn >>> 18) &&& 511

def idx1 (vpn : Nat) : Nat := (vpn >>> 9) &&& 511

def idx2 (vpn : Nat) : Nat := vpn &&& 511

/-- `PTEFlags::V`. -/
def pteV : Nat := 1

/-- `PTEFlags::R | PTEFlags::X`, the trampoline permissions. -/
def pteRX : Nat := 2 ||| 8

/-- `PageTableEntry::new(ppn, flags)`: bits = ppn << 10 | flags, flags a u8
(`src/os/src/mm/page_table.rs`). -/
def mkPte (ppn flags : Nat) : Nat := (ppn <<< 10) ||| (flags % 256)

/-- `PageTableEntry::ppn()`: bits [53:10], masked to the 44-bit PPN width by
`From<usize> for PhysPageNum`. -/
def ptePpn (e : Nat) : Nat := (e >>> 10) &&& (2 ^ 44 - 1)

/-- `PageTableEntry::is_valid()`. -/
def pteValid (e : Nat) : Bool := e &&& pteV == pteV

/-- Physical memory plus the global frame allocator. -/
structure Machine where
  ptes : Nat → Nat → Nat
  bytes : Nat → Nat → Nat
  fa : StackFrameAllocator

/-- `frame_alloc()` followed by `FrameTracker::new`, which zeroes the page
(`src/os/src/mm/frame_allocator.rs`): `none` is out-of-memory (`unwrap`
panics at the callers modelled here). -/
def frame_alloc (m : Machine) : Option (Machine × Nat) :=
  match StackFrameAllocator.alloc m.fa with
  | none => none
  | some (fa2, f) =>
    some ({ ptes := fun q i => if q = f then 0 else m.ptes q i,
            bytes := fun q i => if q = f then 0 else m.bytes q i,
            fa := fa2 }, f)

/-- Store page-table entry `v` at entry `i` of physical page `p`. -/
def writePte (m : Machine) (p i v : Nat) : Machine :=
  { m with ptes := fun q j => if q = p ∧ j = i then v else m.ptes q j }

/-- `PageTable` (`src/os/src/mm/page_table.rs`): the root page and the frames
backing the tables it created. -/
structure PageTable where
  root_ppn : Nat
  frames : List Nat
  deriving DecidableEq, Repr

/-- `PageTable::new()`: allocate and own a zeroed root frame. -/
def PageTable.new (m : Machine) : Option (Machine × PageTable) :=
  match frame_alloc m with
  | none => none
  | some (m1, f) => some (m1, { root_ppn := f, frames := [f] })

/-- Embedding of `PageTable::find_pte_create` (`src/os/src/mm/page_table.rs`,
lines 129-147) with the three-level loop unrolled: walk levels 0 and 1,
allocating and installing a fresh zeroed table page whenever the entry is
invalid, and return the location (page, index) of the level-2 entry. -/
def fpcStep0 (m : Machine) (pt : PageTable) (vpn : Nat) :
    Option (Machine × PageTable × Nat) :=
  if pteValid (m.ptes pt.root_ppn (idx0 vpn)) then
    some (m, pt, ptePpn (m.ptes pt.root_ppn (idx0 vpn)))
  else
    match frame_alloc m with
    | none => none
    | some (m1, f) =>
      some (writePte m1 pt.root_ppn (idx0 vpn) (mkPte f pteV),
        { pt with frames := pt.frames ++ [f] }, f)

def fpcStep1 (vpn : Nat) : Machine × PageTable × Nat →
    Option (Machine × PageTable × Nat × Nat)
  | (m1, pt1, p1) =>
    if pteValid (m1.ptes p1 (idx1 vpn)) then
      some (m1, pt1, ptePpn (m1.ptes p1 (idx1 vpn)), idx2 vpn)
    else
      match frame_alloc m1 with
      | none => none
      | some (m2, f) =>
        some (writePte m2 p1 (idx1 vpn) (mkPte f pteV),
          { pt1 with frames := pt1.frames ++ [f] }, f, idx2 vpn)

def find_pte_create (m : Machine) (pt : PageTable) (vpn : Nat) :
    Option (Machine × PageTable × Nat × Nat) :=
  match fpcStep0 m pt vpn with
  | none => none
  | some r => fpcStep1 vpn r

/-- Embedding of `PageTable::find_pte` (`src/os/src/mm/page_table.rs`, lines
155-171): a read-only walk returning the location of the level-2 entry,
regardless of that entry's own validity; `none` when a level-0 or level-1
entry is invalid. -/
def find_pte (m : Machine) (pt : PageTable) (vpn : Nat) : Option (Nat × Nat) :=
  if pteValid (m.ptes pt.root_ppn (idx0 vpn)) then
    if pteValid (m.ptes (ptePpn (m.ptes pt.root_ppn (idx0 vpn))) (idx1 vpn)) then
      some (ptePpn (m.ptes (ptePpn (m.ptes pt.root_ppn (idx0 vpn))) (idx1 vpn)),
        idx2 vpn)
    else none
  else none

/-- `PageTable::translate(vpn)`: the level-2 entry found by `find_pte`. -/
def PageTable.translate (m : Machine) (pt : PageTable) (vpn : Nat) : Option Nat :=
  (find_pte m pt vpn).map (fun loc => m.ptes loc.1 loc.2)

/-- Embedding of `PageTable::map(vpn, ppn, flags)`
(`src/os/src/mm/page_table.rs`, lines 105-109): find or create the level-2
entry, assert it is not already valid (fatal otherwise) and store
`PageTableEntry::new(ppn, flags | V)`. -/
def PageTable.map (m : Machine) (pt : PageTable) (vpn ppn flags : Nat) :
    Option (Machine × PageTable) :=
  match find_pte_create m pt vpn with
  | none => none
  | some (m1, pt1, p2, c) =>
    if pteValid (m1.ptes p2 c) then none
    else some (writePte m1 p2 c (mkPte ppn (flags ||| pteV)), pt1)

/-- `MapType` (`src/os/src/mm/memory_set.rs`). -/
inductive MapType where
  | identical
  | framed
  deriving DecidableEq, Repr

/-- `MapArea` (`src/os/src/mm/memory_set.rs`): the half-open VPN range, the
owned data frames (the `BTreeMap` is modelled as an association list in
insertion order), the map type and the permissions. -/
structure MapArea where
  vpn_start : Nat
  vpn_end : Nat
  data_frames : List (Nat × Nat)
  map_type : MapType
  map_perm : Nat
  deriving DecidableEq, Repr

/-- `MapArea::new(start_va, end_va, map_type, map_perm)`: floor/ceil the
addresses to page numbers; `SimpleRange::new` asserts start ≤ end (fatal
otherwise). -/
def MapArea.new (start_va end_va : Nat) (mt : MapType) (perm : Nat) :
    Option MapArea :=
  let s := start_va / PAGE_SIZE
  let e := (end_va + PAGE_SIZE - 1) / PAGE_SIZE
  if s ≤ e then
    some { vpn_start := s, vpn_end := e, data_frames := [],
           map_type := mt, map_perm := perm }
  else none

/-- `MapArea::from_another` (`src/os/src/mm/memory_set.rs`, lines 444-451):
same range, type and permissions, but no data frames. -/
def MapArea.from_another (a : MapArea) : MapArea :=
  { vpn_start := a.vpn_start, vpn_end := a.vpn_end, data_frames := [],
    map_type := a.map_type, map_perm := a.map_perm }

/-- Embedding of `MapArea::map_one` (`src/os/src/mm/memory_set.rs`, lines
415-429): identical mapping uses ppn = vpn; framed mapping allocates a fresh
frame, records it in `data_frames` and maps to it. -/
def MapArea.map_one (m : Machine) (pt : PageTable) (area : MapArea) (vpn : Nat) :
    Option (Machine × PageTable × MapArea) :=
  match area.map_type with
  | MapType.identical =>
    match PageTable.map m pt vpn vpn area.map_perm with
    | none => none
    | some (m1, pt1) => some (m1, pt1, area)
  | MapType.framed =>
    match frame_alloc m with
    | none => none
    | some (m1, f) =>
      match PageTable.map m1 pt vpn f area.map_perm with
      | none => none
      | some (m2, pt2) =>
        some (m2, pt2, { area with data_frames := area.data_frames ++ [(vpn, f)] })

/-- The loop of `MapArea::map`: map each vpn of `[vpn, vpn + cnt)` in order. -/
def MapArea.mapRange (m : Machine) (pt : PageTable) (area : MapArea)
    (vpn : Nat) : Nat → Option (Machine × PageTable × MapArea)
  | 0 => some (m, pt, area)
  | cnt + 1 =>
    match MapArea.map_one m pt area vpn with
    | none => none
    | some (m1, pt1, a1) => MapArea.mapRange m1 pt1 a1 (vpn + 1) cnt

/-- `MapArea::map(page_table)`: map every page of the area's range. -/
def MapArea.map (m : Machine) (pt : PageTable) (area : MapArea) :
    Option (Machine × PageTable × MapArea) :=
  MapArea.mapRange m pt area area.vpn_start (area.vpn_end - area.vpn_start)

/-- Copy `src` into the first `src.length` bytes of physical page `p`
(`copy_from_slice` in `MapArea::copy_data`). -/
def writeBytesPage (m : Machine) (p : Nat) (src : List Nat) : Machine :=
  { m with bytes := fun q i =>
      if q = p ∧ i < src.length then src.getD i 0 else m.bytes q i }

/-- The loop of `MapArea::copy_data` (`src/os/src/mm/memory_set.rs`, lines
388-407): copy page-sized chunks of `data` into the pages the page table
translates the area's vpns to; the translate `unwrap` is fatal.  The loop
runs at least once and stops once `start` passes the data length; `fuel`
bounds the recursion and is chosen by the caller to cover every iteration. -/
def copyDataLoop (m : Machine) (pt : PageTable) (data : List Nat) :
    Nat → Nat → Nat → Option Machine
  | _, _, 0 => none
  | vpn, start, fuel + 1 =>
    match find_pte m pt vpn with
    | none => none
    | some loc =>
      let src := (data.drop start).take PAGE_SIZE
      let m1 := writeBytesPage m (ptePpn (m.ptes loc.1 loc.2)) src
      if data.length ≤ start + PAGE_SIZE then some m1
      else copyDataLoop m1 pt data (vpn + 1) (start + PAGE_SIZE) fuel

/-- `MapArea::copy_data(page_table, data)`: asserts the area is framed, then
runs the copy loop from the start of the range. -/
def MapArea.copy_data (m : Machine) (pt : PageTable) (area : MapArea)
    (data : List Nat) : Option Machine :=
  match area.map_type with
  | MapType.framed =>
    copyDataLoop m pt data area.vpn_start 0 (data.length / PAGE_SIZE + 1)
  | MapType.identical => none

/-- `MemorySet` (`src/os/src/mm/memory_set.rs`): a page table plus areas. -/
structure MemorySet where
  page_table : PageTable
  areas : List MapArea

/-- `MemorySet::new_bare()`. -/
def MemorySet.new_bare (m : Machine) : Option (Machine × MemorySet) :=
  match PageTable.new m with
  | none => none
  | some (m1, pt) => some (m1, { page_table := pt, areas := [] })

/-- Embedding of `MemorySet::push(map_area, data)`
(`src/os/src/mm/memory_set.rs`, lines 90-96): map the area, optionally copy
`data` into it, and append it to `areas`. -/
def MemorySet.push (m : Machine) (ms : MemorySet) (area : MapArea)
    (data : Option (List Nat)) : Option (Machine × MemorySet) :=
  match MapArea.map m ms.page_table area with
  | none => none
  | some (m1, pt1, a1) =>
    match data with
    | none => some (m1, { page_table := pt1, areas := ms.areas ++ [a1] })
    | some d =>
      match MapArea.copy_data m1 pt1 a1 d with
      | none => none
      | some m2 => some (m2, { page_table := pt1, areas := ms.areas ++ [a1] })

/-- The virtual page of the trampoline: `TRAMPOLINE = usize::MAX - PAGE_SIZE
+ 1` truncated to the 39-bit SV39 address space and divided by the page
size, i.e. the highest virtual page. -/
def TRAMPOLINE_VPN : Nat := 2 ^ 27 - 1

/-- Embedding of `MemorySet::map_trampoline` (`src/os/src/mm/memory_set.rs`,
lines 296-306): a direct page-table mapping (no area) of the trampoline page
to the physical page of the trampoline section, R+X. -/
def MemorySet.map_trampoline (m : Machine) (ms : MemorySet)
    (strampoline : Nat) : Option (Machine × MemorySet) :=
  match PageTable.map m ms.page_table TRAMPOLINE_VPN strampoline pteRX with
  | none => none
  | some (m1, pt1) => some (m1, { ms with page_table := pt1 })

/-- `MemorySet::translate(vpn)` (`src/os/src/mm/memory_set.rs`, lines
322-324): delegate to the page table. -/
def MemorySet.translate (m : Machine) (ms : MemorySet) (vpn : Nat) : Option Nat :=
  PageTable.translate m ms.page_table vpn

/-- Whether some `MapArea` of the memory set covers `vpn`. -/
def MemorySet.covers (ms : MemorySet) (vpn : Nat) : Prop :=
  ∃ area ∈ ms.areas, area.vpn_start ≤ vpn ∧ vpn < area.vpn_end

/-- One push operation of a memory-set construction: the arguments of
`MapArea::new` plus the optional data to copy (`MemorySet::push`). -/
structure BuildOp where
  start_va : Nat
  end_va : Nat
  map_type : MapType
  map_perm : Nat
  data : Option (List Nat)

def buildPush (m : Machine) (ms : MemorySet) (op : BuildOp) :
    Option (Machine × MemorySet) :=
  match MapArea.new op.start_va op.end_va op.map_type op.map_perm with
  | none => none
  | some area => MemorySet.push m ms area op.data

def buildFrom (m : Machine) (ms : MemorySet) :
    List BuildOp → Option (Machine × MemorySet)
  | [] => some (m, ms)
  | op :: ops =>
    match buildPush m ms op with
    | none => none
    | some (m1, ms1) => buildFrom m1 ms1 ops

/-- A memory set as the kernel constructs one (`new_kernel`, `from_elf`,
`from_existed_user` and subsequent `insert_framed_area` calls all follow
this shape): `new_bare`, then `map_trampoline`, then a sequence of pushes. -/
def buildUser (m : Machine) (strampoline : Nat) (ops : List BuildOp) :
    Option (Machine × MemorySet) :=
  match MemorySet.new_bare m with
  | none => none
  | some (m1, ms1) =>
    match MemorySet.map_trampoline m1 ms1 strampoline with
    | none => none
    | some (m2, ms2) => buildFrom m2 ms2 ops

/-- Copy the 4096 bytes of physical page `src` onto physical page `dst`
(the `copy_from_slice` of `MemorySet::from_existed_user`). -/
def copyPage (m : Machine) (src dst : Nat) : Machine :=
  { m with bytes := fun q i =>
      if q = dst ∧ i < PAGE_SIZE then m.bytes src i else m.bytes q i }

/-- The inner loop of `MemorySet::from_existed_user`: for each vpn of the
area's range, translate in both spaces (`unwrap` fatal) and copy the backing
page of the parent onto the child's. -/
def copyRange (m : Machine) (userSpace newMs : MemorySet) :
    Nat → Nat → Option Machine
  | _, 0 => some m
  | vpn, cnt + 1 =>
    match MemorySet.translate m userSpace vpn with
    | none => none
    | some esrc =>
      match MemorySet.translate m newMs vpn with
      | none => none
      | some edst =>
        copyRange (copyPage m (ptePpn esrc) (ptePpn edst)) userSpace newMs
          (vpn + 1) cnt

/-- The area loop of `MemorySet::from_existed_user`
(`src/os/src/mm/memory_set.rs`, lines 272-289): clone each area's metadata,
push it (mapping fresh frames), then copy the parent's bytes page by page. -/
def feuAreas (m : Machine) (userSpace : MemorySet) (ms : MemorySet) :
    List MapArea → Option (Machine × MemorySet)
  | [] => some (m, ms)
  | area :: rest =>
    match MemorySet.push m ms (MapArea.from_another area) none with
    | none => none
    | some (m1, ms1) =>
      match copyRange m1 userSpace ms1 area.vpn_start
          (area.vpn_end - area.vpn_start) with
      | none => none
      | some m2 => feuAreas m2 userSpace ms1 rest

/-- Embedding of `MemorySet::from_existed_user(user_space)`
(`src/os/src/mm/memory_set.rs`, lines 272-289): fresh bare space, map the
trampoline, then clone and copy every area. -/
def MemorySet.from_existed_user (m : Machine) (strampoline : Nat)
    (userSpace : MemorySet) : Option (Machine × MemorySet) :=
  match MemorySet.new_bare m with
  | none => none
  | some (m1, ms1) =>
    match MemorySet.map_trampoline m1 ms1 strampoline with
    | none => none
    | some (m2, ms2) => feuAreas m2 userSpace ms2 userSpace.areas

/-- Modelled from the spec: a user-mode store of byte `v` at offset `off` of
virtual page `vpn` goes through the SV39 translation of the active memory
set and writes the byte of the backing physical page (§3, §4.3). -/
def userStoreByte (m : Machine) (ms : MemorySet) (vpn off v : Nat) :
    Option Machine :=
  match MemorySet.translate m ms vpn with
  | none => none
  | some e =>
    some { m with bytes := fun q i =>
      if q = ptePpn e ∧ i = off then v else m.bytes q i }

/-! ## Page-table walk abstraction and invariants -/

/-- A physical page is live when it is below the allocator watermark and not
on the recycle stack: exactly the pages currently owned by some tracker. -/
def live (m : Machine) (p : Nat) : Prop :=
  p < m.fa.current ∧ p ∉ m.fa.recycled

/-- Allocator sanity: the recycle stack holds distinct pages below the
watermark, and the pool lies within the 44-bit PPN space. -/
def MachOk (m : Machine) : Prop :=
  m.fa.recycled.Nodup ∧ (∀ p ∈ m.fa.recycled, p < m.fa.current) ∧
    m.fa.current ≤ m.fa.endp ∧ m.fa.endp ≤ 2 ^ 44

/-- Level-0 entry of the walk at index `a`. -/
def l0 (m : Machine) (pt : PageTable) (a : Nat) : Nat := m.ptes pt.root_ppn a

/-- Level-1 table page reached through index `a`. -/
def t1v (m : Machine) (pt : PageTable) (a : Nat) : Nat := ptePpn (l0 m pt a)

/-- Level-1 entry at indices `a, b`. -/
def l1 (m : Machine) (pt : PageTable) (a b : Nat) : Nat :=
  m.ptes (t1v m pt a) b

/-- Level-2 table page reached through indices `a, b`. -/
def t2v (m : Machine) (pt : PageTable) (a b : Nat) : Nat :=
  ptePpn (l1 m pt a b)

/-- Level-2 (leaf) entry at indices `a, b, c`. -/
def l2 (m : Machine) (pt : PageTable) (a b c : Nat) : Nat :=
  m.ptes (t2v m pt a b) c

/-- The read-only walk for `(a, b)` passes levels 0 and 1. -/
def walkOk (m : Machine) (pt : PageTable) (a b : Nat) : Prop :=
  pteValid (l0 m pt a) = true ∧ pteValid (l1 m pt a b) = true

theorem find_pte_eq_some {m : Machine} {pt : PageTable} {vpn : Nat}
    (h : walkOk m pt (idx0 vpn) (idx1 vpn)) :
    find_pte m pt vpn = some (t2v m pt (idx0 vpn) (idx1 vpn), idx2 vpn) := by
  unfold find_pte
  rw [show m.ptes pt.root_ppn (idx0 vpn) = l0 m pt (idx0 vpn) from rfl, h.1]
  simp only [if_true]
  rw [show m.ptes (ptePpn (l0 m pt (idx0 vpn))) (idx1 vpn) =
    l1 m pt (idx0 vpn) (idx1 vpn) from rfl, h.2]
  rfl

theorem find_pte_eq_none {m : Machine} {pt : PageTable} {vpn : Nat}
    (h : ¬ walkOk m pt (idx0 vpn) (idx1 vpn)) :
    find_pte m pt vpn = none := by
  unfold find_pte walkOk at *
  by_cases h0 : pteValid (l0 m pt (idx0 vpn)) = true
  · rw [show m.ptes pt.root_ppn (idx0 vpn) = l0 m pt (idx0 vpn) from rfl, h0]
    simp only [if_true]
    have h1 : ¬ pteValid (l1 m pt (idx0 vpn) (idx1 vpn)) = true := fun hh =>
      h ⟨h0, hh⟩
    rw [show m.ptes (ptePpn (l0 m pt (idx0 vpn))) (idx1 vpn) =
      l1 m pt (idx0 vpn) (idx1 vpn) from rfl]
    simp [h1]
  · rw [show m.ptes pt.root_ppn (idx0 vpn) = l0 m pt (idx0 vpn) from rfl]
    simp [h0]

theorem translate_isSome_iff {m : Machine} {pt : PageTable} {vpn : Nat} :
    (PageTable.translate m pt vpn).isSome = true ↔
      walkOk m pt (idx0 vpn) (idx1 vpn) := by
  constructor
  · intro h
    by_contra hw
    rw [PageTable.translate, find_pte_eq_none hw] at h
    simp at h
  · intro hw
    rw [PageTable.translate, find_pte_eq_some hw]
    rfl

/-- The walk-distinctness invariant maintained by every operation used to
build a memory set: all table pages are live, the root holds no other role,
each level-1 and level-2 table belongs to exactly one path, and distinct
paths use distinct tables. -/
structure StructInv (m : Machine) (pt : PageTable) : Prop where
  mok : MachOk m
  rootLive : live m pt.root_ppn
  t1Live : ∀ a, pteValid (l0 m pt a) = true → live m (t1v m pt a)
  t1NeRoot : ∀ a, pteValid (l0 m pt a) = true → t1v m pt a ≠ pt.root_ppn
  t1Inj : ∀ a a2, pteValid (l0 m pt a) = true → pteValid (l0 m pt a2) = true →
    t1v m pt a = t1v m pt a2 → a = a2
  t2Live : ∀ a b, walkOk m pt a b → live m (t2v m pt a b)
  t2NeRoot : ∀ a b, walkOk m pt a b → t2v m pt a b ≠ pt.root_ppn
  t2NeT1 : ∀ a b a2, walkOk m pt a b → pteValid (l0 m pt a2) = true →
    t2v m pt a b ≠ t1v m pt a2
  t2Inj : ∀ a b a2 b2, walkOk m pt a b → walkOk m pt a2 b2 →
    t2v m pt a b = t2v m pt a2 b2 → a = a2 ∧ b = b2

/-- Monotone evolution of the allocator state: the watermark only grows and
the recycle stack only shrinks (no deallocation happens while building). -/
structure Evolves (m m2 : Machine) : Prop where
  curLe : m.fa.current ≤ m2.fa.current
  recSub : ∀ p, p ∈ m2.fa.recycled → p ∈ m.fa.recycled

theorem Evolves.refl (m : Machine) : Evolves m m :=
  ⟨Nat.le_refl _, fun _ h => h⟩

theorem Evolves.trans {m1 m2 m3 : Machine} (h1 : Evolves m1 m2)
    (h2 : Evolves m2 m3) : Evolves m1 m3 :=
  ⟨Nat.le_trans h1.curLe h2.curLe, fun p hp => h1.recSub p (h2.recSub p hp)⟩

theorem Evolves.liveMono {m m2 : Machine} (h : Evolves m m2) {p : Nat}
    (hp : live m p) : live m2 p :=
  ⟨Nat.lt_of_lt_of_le hp.1 h.curLe, fun hr => hp.2 (h.recSub p hr)⟩

theorem Evolves.notLiveBack {m m2 : Machine} (h : Evolves m m2) {p : Nat}
    (hp : ¬ live m2 p) : ¬ live m p := fun hl => hp (h.liveMono hl)

/-! ## Bit-level helper lemmas -/

theorem pteValid_eq (e : Nat) : pteValid e = (e % 2 == 1) := by
  unfold pteValid pteV
  rw [Nat.and_one_is_mod]

theorem pteValid_mkPte_or (p fl : Nat) :
    pteValid (mkPte p (fl ||| pteV)) = true := by
  rw [pteValid_eq]
  have h1 : (mkPte p (fl ||| pteV)).testBit 0 = true := by
    unfold mkPte pteV
    rw [Nat.testBit_or]
    have hmod : ((fl ||| 1) % 256).testBit 0 = (fl ||| 1).testBit 0 := by
      rw [show (256 : Nat) = 2 ^ 8 from rfl, Nat.testBit_mod_two_pow]
      simp
    rw [hmod, Nat.testBit_or]
    simp
  rw [Nat.testBit_zero] at h1
  simpa using h1

theorem pteValid_mkPteV (p : Nat) : pteValid (mkPte p pteV) = true := by
  have := pteValid_mkPte_or p 0
  simpa using this

theorem pteValid_zero : pteValid 0 = false := by decide

theorem ptePpn_mkPte (p fl : Nat) (hp : p < 2 ^ 44) : ptePpn (mkPte p fl) = p := by
  unfold ptePpn mkPte
  have hsh : ((p <<< 10 ||| fl % 256) >>> 10) = p := by
    apply Nat.eq_of_testBit_eq
    intro j
    rw [Nat.testBit_shiftRight, Nat.testBit_or, Nat.testBit_shiftLeft]
    have hfl : (fl % 256).testBit (10 + j) = false := by
      apply Nat.testBit_lt_two_pow
      calc fl % 256 < 256 := Nat.mod_lt _ (by norm_num)
        _ ≤ 2 ^ (10 + j) := by
            have : (256 : Nat) = 2 ^ 8 := rfl
            rw [this]
            exact Nat.pow_le_pow_right (by norm_num) (by omega)
    rw [hfl]
    simp [Nat.add_sub_cancel_left]
  rw [hsh, Nat.and_pow_two_sub_one_eq_mod, Nat.mod_eq_of_lt hp]

/-! ## Operation specifications -/

theorem frame_alloc_spec {m m2 : Machine} {f : Nat} (hok : MachOk m)
    (h : frame_alloc m = some (m2, f)) :
    MachOk m2 ∧ live m2 f ∧ ¬ live m f ∧ f < 2 ^ 44 ∧ Evolves m m2 ∧
    (∀ p, p ≠ f → ∀ i, m2.ptes p i = m.ptes p i) ∧
    (∀ p, p ≠ f → ∀ i, m2.bytes p i = m.bytes p i) ∧
    (∀ i, m2.ptes f i = 0) ∧ (∀ i, m2.bytes f i = 0) := by
  unfold frame_alloc StackFrameAllocator.alloc at h
  obtain ⟨hnd, hlt, hce2, h44⟩ := hok
  cases hrec : m.fa.recycled with
  | cons q rest =>
    rw [hrec] at h
    simp only [Option.some.injEq] at h
    injection h with h1 h2
    subst h1
    subst h2
    have hfin : q ∈ m.fa.recycled := by rw [hrec]; exact List.mem_cons_self _ _
    have hfcur : q < m.fa.current := hlt q hfin
    have hnotin : q ∉ rest := by
      rw [hrec] at hnd
      exact (List.nodup_cons.mp hnd).1
    refine ⟨⟨?_, ?_, ?_, ?_⟩, ⟨?_, ?_⟩, ?_, ?_, ⟨?_, ?_⟩, ?_, ?_, ?_, ?_⟩
    · show rest.Nodup
      rw [hrec] at hnd
      exact (List.nodup_cons.mp hnd).2
    · intro p hp
      exact hlt p (by rw [hrec]; exact List.mem_cons_of_mem _ hp)
    · exact hce2
    · exact h44
    · exact hfcur
    · exact hnotin
    · intro hl
      exact hl.2 hfin
    · exact Nat.lt_of_lt_of_le hfcur (Nat.le_trans hce2 h44)
    · exact Nat.le_refl _
    · intro p hp
      rw [hrec]
      exact List.mem_cons_of_mem _ hp
    · intro p hp i
      simp [hp]
    · intro p hp i
      simp [hp]
    · intro i
      simp
    · intro i
      simp
  | nil =>
    rw [hrec] at h
    by_cases hce : m.fa.current = m.fa.endp
    · simp [hce] at h
    · simp only [hce, if_false, Option.some.injEq] at h
      injection h with h1 h2
      subst h1
      subst h2
      have hculx : m.fa.current < m.fa.endp := Nat.lt_of_le_of_ne hce2 hce
      have hnl : ¬ live m m.fa.current := fun hl => Nat.lt_irrefl _ hl.1
      refine ⟨⟨?_, ?_, ?_, ?_⟩, ⟨?_, ?_⟩, hnl, ?_, ⟨?_, ?_⟩, ?_, ?_, ?_, ?_⟩
      · exact List.nodup_nil
      · intro p hp
        exact absurd hp (List.not_mem_nil _)
      · exact hculx
      · exact h44
      · exact Nat.lt_succ_self _
      · exact List.not_mem_nil _
      · exact Nat.lt_of_lt_of_le hculx h44
      · exact Nat.le_succ _
      · intro p hp
        exact absurd hp (List.not_mem_nil _)
      · intro p hp i
        simp [hp]
      · intro p hp i
        simp [hp]
      · intro i
        simp
      · intro i
        simp

theorem writePte_fa (m : Machine) (p i v : Nat) : (writePte m p i v).fa = m.fa :=
  rfl

theorem writePte_bytes (m : Machine) (p i v : Nat) :
    (writePte m p i v).bytes = m.bytes := rfl

theorem writePte_ptes (m : Machine) (p i v q j : Nat) :
    (writePte m p i v).ptes q j =
      if q = p ∧ j = i then v else m.ptes q j := rfl

theorem live_fa_eq {m m2 : Machine} (h : m2.fa = m.fa) (p : Nat) :
    live m2 p ↔ live m p := by
  unfold live
  rw [h]

/-- Effects of allocating a fresh zeroed page `f` and installing a child
pointer to it at entry `i` of live table page `P`. -/
theorem installFresh {m m1 : Machine} {f : Nat} (P i : Nat) (hok : MachOk m)
    (hal : frame_alloc m = some (m1, f)) :
    MachOk (writePte m1 P i (mkPte f pteV)) ∧
    Evolves m (writePte m1 P i (mkPte f pteV)) ∧
    live (writePte m1 P i (mkPte f pteV)) f ∧ ¬ live m f ∧ f < 2 ^ 44 ∧
    (∀ q j, (writePte m1 P i (mkPte f pteV)).ptes q j =
      if q = P ∧ j = i then mkPte f pteV
      else if q = f then 0 else m.ptes q j) ∧
    (∀ q j, (writePte m1 P i (mkPte f pteV)).bytes q j =
      if q = f then 0 else m.bytes q j) ∧
    (∀ q, live m q → live (writePte m1 P i (mkPte f pteV)) q) := by
  obtain ⟨hok1, hlivef, hnlive, h44, hev, hother, hbother, hzero, hbzero⟩ :=
    frame_alloc_spec hok hal
  have hfa : (writePte m1 P i (mkPte f pteV)).fa = m1.fa := writePte_fa ..
  have hokW : MachOk (writePte m1 P i (mkPte f pteV)) := by
    unfold MachOk at hok1 ⊢
    rw [hfa]
    exact hok1
  have hevW : Evolves m (writePte m1 P i (mkPte f pteV)) := by
    refine ⟨?_, ?_⟩
    · rw [hfa]
      exact hev.curLe
    · intro p hp
      rw [hfa] at hp
      exact hev.recSub p hp
  refine ⟨hokW, hevW, ?_, hnlive, h44, ?_, ?_, ?_⟩
  · rw [live_fa_eq hfa]
    exact hlivef
  · intro q j
    rw [writePte_ptes]
    by_cases hcase : q = P ∧ j = i
    · simp [hcase]
    · simp only [hcase, if_false]
      by_cases hqf : q = f
      · subst hqf
        simp [hzero j]
      · simp [hqf, hother q hqf j]
  · intro q j
    rw [writePte_bytes]
    by_cases hqf : q = f
    · subst hqf
      simp [hbzero j]
    · simp [hqf, hbother q hqf j]
  · intro q hq
    rw [live_fa_eq hfa]
    exact hev.liveMono hq

/-- The conclusions of `find_pte_create_spec`: invariants are preserved, the
walk for `vpn` is complete, existing walks and leaves are untouched, and
pages unrelated to the table structure keep their contents. -/
structure FpcSpec (m : Machine) (pt : PageTable) (vpn : Nat)
    (m2 : Machine) (pt2 : PageTable) (p2 c : Nat) : Prop where
  inv : StructInv m2 pt2
  root : pt2.root_ppn = pt.root_ppn
  evol : Evolves m m2
  cEq : c = idx2 vpn
  newWalk : walkOk m2 pt2 (idx0 vpn) (idx1 vpn)
  p2Eq : p2 = t2v m2 pt2 (idx0 vpn) (idx1 vpn)
  t1Mono : ∀ a, pteValid (l0 m pt a) = true →
    pteValid (l0 m2 pt2 a) = true ∧ t1v m2 pt2 a = t1v m pt a
  walkMono : ∀ a b, walkOk m pt a b → walkOk m2 pt2 a b
  t2Mono : ∀ a b, walkOk m pt a b → t2v m2 pt2 a b = t2v m pt a b
  walkNew : ∀ a b, walkOk m2 pt2 a b →
    walkOk m pt a b ∨ (a = idx0 vpn ∧ b = idx1 vpn)
  leafPres : ∀ a b c2, walkOk m pt a b → l2 m2 pt2 a b c2 = l2 m pt a b c2
  leafNew : walkOk m pt (idx0 vpn) (idx1 vpn) ∨
    (∀ c2, l2 m2 pt2 (idx0 vpn) (idx1 vpn) c2 = 0)
  t1New : ∀ a, pteValid (l0 m2 pt2 a) = true →
    (pteValid (l0 m pt a) = true ∧ t1v m2 pt2 a = t1v m pt a) ∨
      ¬ live m (t1v m2 pt2 a)
  t2New : ∀ a b, walkOk m2 pt2 a b →
    (walkOk m pt a b ∧ t2v m2 pt2 a b = t2v m pt a b) ∨
      ¬ live m (t2v m2 pt2 a b)
  p2New : ¬ walkOk m pt (idx0 vpn) (idx1 vpn) → ¬ live m p2
  extPtes : ∀ p, live m p → p ≠ pt.root_ppn →
    (∀ a, pteValid (l0 m pt a) = true → p ≠ t1v m pt a) →
    ∀ i, m2.ptes p i = m.ptes p i
  extBytes : ∀ p, live m p → ∀ i, m2.bytes p i = m.bytes p i

theorem fpc_caseA {m : Machine} {pt : PageTable} {vpn : Nat}
    (hs : StructInv m pt)
    (hv0 : pteValid (l0 m pt (idx0 vpn)) = true)
    (hv1 : pteValid (l1 m pt (idx0 vpn) (idx1 vpn)) = true) :
    FpcSpec m pt vpn m pt (t2v m pt (idx0 vpn) (idx1 vpn)) (idx2 vpn) where
  inv := hs
  root := rfl
  evol := Evolves.refl m
  cEq := rfl
  newWalk := ⟨hv0, hv1⟩
  p2Eq := rfl
  t1Mono := fun _ h => ⟨h, rfl⟩
  walkMono := fun _ _ h => h
  t2Mono := fun _ _ _ => rfl
  walkNew := fun _ _ h => Or.inl h
  leafPres := fun _ _ _ _ => rfl
  leafNew := Or.inl ⟨hv0, hv1⟩
  t1New := fun _ h => Or.inl ⟨h, rfl⟩
  t2New := fun _ _ h => Or.inl ⟨h, rfl⟩
  p2New := fun hn => absurd ⟨hv0, hv1⟩ hn
  extPtes := fun _ _ _ _ _ => rfl
  extBytes := fun _ _ _ => rfl

theorem fpc_caseB {m m1 : Machine} {pt : PageTable} {vpn f : Nat}
    (hs : StructInv m pt)
    (hv0 : pteValid (l0 m pt (idx0 vpn)) = true)
    (hv1 : ¬ pteValid (l1 m pt (idx0 vpn) (idx1 vpn)) = true)
    (hal : frame_alloc m = some (m1, f)) :
    FpcSpec m pt vpn
      (writePte m1 (t1v m pt (idx0 vpn)) (idx1 vpn) (mkPte f pteV))
      { pt with frames := pt.frames ++ [f] } f (idx2 vpn) := by
  obtain ⟨hokW, hevW, hlivef, hnlivef, h44f, hptes, hbytes, hliveMono⟩ :=
    installFresh (t1v m pt (idx0 vpn)) (idx1 vpn) hs.mok hal
  set m2 := writePte m1 (t1v m pt (idx0 vpn)) (idx1 vpn) (mkPte f pteV) with hm2
  set pt2 : PageTable := { pt with frames := pt.frames ++ [f] } with hpt2
  have hfne : ∀ q, live m q → q ≠ f := fun q hq hh => hnlivef (hh ▸ hq)
  have hrootne : pt.root_ppn ≠ f := hfne _ hs.rootLive
  have hp1live : live m (t1v m pt (idx0 vpn)) := hs.t1Live _ hv0
  have hp1ne_root : t1v m pt (idx0 vpn) ≠ pt.root_ppn := hs.t1NeRoot _ hv0
  have hl0 : ∀ a, l0 m2 pt2 a = l0 m pt a := by
    intro a
    show m2.ptes pt.root_ppn a = m.ptes pt.root_ppn a
    rw [hptes]
    rw [if_neg (fun hh => hp1ne_root hh.1.symm), if_neg hrootne]
  have ht1 : ∀ a, t1v m2 pt2 a = t1v m pt a := by
    intro a
    unfold t1v
    rw [hl0]
  have hl1old : ∀ a b, pteValid (l0 m pt a) = true →
      ¬(a = idx0 vpn ∧ b = idx1 vpn) → l1 m2 pt2 a b = l1 m pt a b := by
    intro a b hva hne
    show m2.ptes (t1v m2 pt2 a) b = l1 m pt a b
    rw [ht1, hptes]
    have h1 : ¬(t1v m pt a = t1v m pt (idx0 vpn) ∧ b = idx1 vpn) := by
      rintro ⟨heq, rfl⟩
      exact hne ⟨hs.t1Inj a _ hva hv0 heq, rfl⟩
    rw [if_neg h1, if_neg (hfne _ (hs.t1Live a hva))]
    rfl
  have hl1new : l1 m2 pt2 (idx0 vpn) (idx1 vpn) = mkPte f pteV := by
    show m2.ptes (t1v m2 pt2 (idx0 vpn)) (idx1 vpn) = mkPte f pteV
    rw [ht1, hptes]
    simp
  have ht2new : t2v m2 pt2 (idx0 vpn) (idx1 vpn) = f := by
    unfold t2v
    rw [hl1new]
    exact ptePpn_mkPte f pteV h44f
  have hwalknotnew : ∀ a b, walkOk m pt a b → ¬(a = idx0 vpn ∧ b = idx1 vpn) := by
    rintro a b hw ⟨rfl, rfl⟩
    exact hv1 hw.2
  have hwalkMono : ∀ a b, walkOk m pt a b → walkOk m2 pt2 a b := by
    intro a b hw
    refine ⟨by rw [hl0]; exact hw.1, ?_⟩
    rw [hl1old a b hw.1 (hwalknotnew a b hw)]
    exact hw.2
  have ht2Mono : ∀ a b, walkOk m pt a b → t2v m2 pt2 a b = t2v m pt a b := by
    intro a b hw
    unfold t2v
    rw [hl1old a b hw.1 (hwalknotnew a b hw)]
  have hwalkNew : ∀ a b, walkOk m2 pt2 a b →
      walkOk m pt a b ∨ (a = idx0 vpn ∧ b = idx1 vpn) := by
    intro a b hw2
    have hva : pteValid (l0 m pt a) = true := by rw [← hl0]; exact hw2.1
    by_cases hab : a = idx0 vpn ∧ b = idx1 vpn
    · exact Or.inr hab
    · left
      refine ⟨hva, ?_⟩
      rw [← hl1old a b hva hab]
      exact hw2.2
  have hnewWalk : walkOk m2 pt2 (idx0 vpn) (idx1 vpn) := by
    refine ⟨by rw [hl0]; exact hv0, ?_⟩
    rw [hl1new]
    exact pteValid_mkPteV f
  refine
    { inv := ?_
      root := rfl
      evol := hevW
      cEq := rfl
      newWalk := hnewWalk
      p2Eq := ht2new.symm
      t1Mono := fun a h => ⟨by rw [hl0]; exact h, ht1 a⟩
      walkMono := hwalkMono
      t2Mono := ht2Mono
      walkNew := hwalkNew
      leafPres := ?_
      leafNew := ?_
      t1New := fun a h => Or.inl ⟨by rw [← hl0]; exact h, ht1 a⟩
      t2New := ?_
      p2New := fun _ => hnlivef
      extPtes := ?_
      extBytes := ?_ }
  · -- StructInv m2 pt2
    refine
      { mok := hokW
        rootLive := hliveMono _ hs.rootLive
        t1Live := ?_
        t1NeRoot := ?_
        t1Inj := ?_
        t2Live := ?_
        t2NeRoot := ?_
        t2NeT1 := ?_
        t2Inj := ?_ }
    · intro a hva
      rw [hl0] at hva
      rw [ht1]
      exact hliveMono _ (hs.t1Live a hva)
    · intro a hva
      rw [hl0] at hva
      rw [ht1]
      exact hs.t1NeRoot a hva
    · intro a a2 hva hva2 heq
      rw [hl0] at hva hva2
      rw [ht1, ht1] at heq
      exact hs.t1Inj a a2 hva hva2 heq
    · intro a b hw2
      rcases hwalkNew a b hw2 with hw | ⟨rfl, rfl⟩
      · rw [ht2Mono a b hw]
        exact hliveMono _ (hs.t2Live a b hw)
      · rw [ht2new]
        exact hlivef
    · intro a b hw2
      rcases hwalkNew a b hw2 with hw | ⟨rfl, rfl⟩
      · rw [ht2Mono a b hw]
        exact hs.t2NeRoot a b hw
      · rw [ht2new]
        exact fun hh => hrootne hh.symm
    · intro a b a2 hw2 hva2
      rw [hl0] at hva2
      rw [ht1]
      rcases hwalkNew a b hw2 with hw | ⟨rfl, rfl⟩
      · rw [ht2Mono a b hw]
        exact hs.t2NeT1 a b a2 hw hva2
      · rw [ht2new]
        exact fun hh => hfne _ (hs.t1Live a2 hva2) hh.symm
    · intro a b a2 b2 hw2 hw2b heq
      rcases hwalkNew a b hw2 with hw | ⟨rfl, rfl⟩ <;>
        rcases hwalkNew a2 b2 hw2b with hwb | ⟨rfl, rfl⟩
      · rw [ht2Mono a b hw, ht2Mono a2 b2 hwb] at heq
        exact hs.t2Inj a b a2 b2 hw hwb heq
      · rw [ht2Mono a b hw, ht2new] at heq
        exact absurd heq (hfne _ (hs.t2Live a b hw))
      · rw [ht2new, ht2Mono a2 b2 hwb] at heq
        exact absurd heq.symm (hfne _ (hs.t2Live a2 b2 hwb))
      · exact ⟨rfl, rfl⟩
  · -- leafPres
    intro a b c2 hw
    show m2.ptes (t2v m2 pt2 a b) c2 = m.ptes (t2v m pt a b) c2
    rw [ht2Mono a b hw, hptes]
    rw [if_neg (fun hh => hs.t2NeT1 a b (idx0 vpn) hw hv0 hh.1),
      if_neg (hfne _ (hs.t2Live a b hw))]
  · -- leafNew
    right
    intro c2
    show m2.ptes (t2v m2 pt2 (idx0 vpn) (idx1 vpn)) c2 = 0
    rw [ht2new, hptes]
    rw [if_neg (fun hh => hfne _ hp1live hh.1.symm), if_pos rfl]
  · -- t2New
    intro a b hw2
    rcases hwalkNew a b hw2 with hw | ⟨rfl, rfl⟩
    · exact Or.inl ⟨hw, ht2Mono a b hw⟩
    · right
      rw [ht2new]
      exact hnlivef
  · -- extPtes
    intro p hp hne hn1 i
    rw [hptes]
    rw [if_neg (fun hh => hn1 (idx0 vpn) hv0 hh.1), if_neg (hfne p hp)]
  · -- extBytes
    intro p hp i
    rw [hbytes]
    rw [if_neg (hfne p hp)]

theorem fpc_caseC {m m1 mb : Machine} {pt : PageTable} {vpn f0 f1 : Nat}
    (hs : StructInv m pt)
    (hv0 : ¬ pteValid (l0 m pt (idx0 vpn)) = true)
    (hal0 : frame_alloc m = some (m1, f0))
    (hal1 : frame_alloc
      (writePte m1 pt.root_ppn (idx0 vpn) (mkPte f0 pteV)) = some (mb, f1)) :
    FpcSpec m pt vpn
      (writePte mb f0 (idx1 vpn) (mkPte f1 pteV))
      { pt with frames := (pt.frames ++ [f0]) ++ [f1] } f1 (idx2 vpn) := by
  obtain ⟨hokA, hevA, hlivef0a, hnlive0, h44f0, hptesA, hbytesA, hliveMonoA⟩ :=
    installFresh pt.root_ppn (idx0 vpn) hs.mok hal0
  obtain ⟨hokB, hevB, hlivef1, hnlive1, h44f1, hptesB, hbytesB, hliveMonoB⟩ :=
    installFresh f0 (idx1 vpn) hokA hal1
  set ma := writePte m1 pt.root_ppn (idx0 vpn) (mkPte f0 pteV) with hma
  set m2 := writePte mb f0 (idx1 vpn) (mkPte f1 pteV) with hm2
  set pt2 : PageTable := { pt with frames := (pt.frames ++ [f0]) ++ [f1] } with hpt2
  have hfne0 : ∀ q, live m q → q ≠ f0 := fun q hq hh => hnlive0 (hh ▸ hq)
  have hfne1 : ∀ q, live m q → q ≠ f1 := fun q hq hh =>
    hnlive1 (hh ▸ hliveMonoA q hq)
  have hf0ne1 : f0 ≠ f1 := fun hh => hnlive1 (hh ▸ hlivef0a)
  have hrootne0 : pt.root_ppn ≠ f0 := hfne0 _ hs.rootLive
  have hrootne1 : pt.root_ppn ≠ f1 := hfne1 _ hs.rootLive
  have hliveM : ∀ q, live m q → live m2 q := fun q hq =>
    hliveMonoB q (hliveMonoA q hq)
  have hlivef0 : live m2 f0 := hliveMonoB f0 hlivef0a
  have hev : Evolves m m2 := hevA.trans hevB
  have ha_ne : ∀ a, pteValid (l0 m pt a) = true → a ≠ idx0 vpn := by
    intro a hva hh
    exact hv0 (hh ▸ hva)
  have hl0 : ∀ a, l0 m2 pt2 a =
      if a = idx0 vpn then mkPte f0 pteV else l0 m pt a := by
    intro a
    show m2.ptes pt.root_ppn a = _
    rw [hptesB]
    rw [if_neg (fun hh => hrootne0 hh.1), if_neg hrootne1, hptesA]
    by_cases hc : a = idx0 vpn
    · subst hc
      rw [if_pos ⟨rfl, rfl⟩, if_pos rfl]
    · rw [if_neg (fun hh => hc hh.2), if_neg hc, if_neg hrootne0]
      rfl
  have hl0old : ∀ a, a ≠ idx0 vpn → l0 m2 pt2 a = l0 m pt a := by
    intro a hne
    rw [hl0, if_neg hne]
  have hl0new : l0 m2 pt2 (idx0 vpn) = mkPte f0 pteV := by
    rw [hl0, if_pos rfl]
  have ht1old : ∀ a, a ≠ idx0 vpn → t1v m2 pt2 a = t1v m pt a := by
    intro a hne
    unfold t1v
    rw [hl0old a hne]
  have ht1new : t1v m2 pt2 (idx0 vpn) = f0 := by
    unfold t1v
    rw [hl0new]
    exact ptePpn_mkPte f0 pteV h44f0
  have hl1old : ∀ a b, pteValid (l0 m pt a) = true →
      l1 m2 pt2 a b = l1 m pt a b := by
    intro a b hva
    have hane := ha_ne a hva
    show m2.ptes (t1v m2 pt2 a) b = l1 m pt a b
    rw [ht1old a hane, hptesB]
    have ht1l : live m (t1v m pt a) := hs.t1Live a hva
    rw [if_neg (fun hh => hfne0 _ ht1l hh.1), if_neg (hfne1 _ ht1l), hptesA]
    rw [if_neg (fun hh => hs.t1NeRoot a hva hh.1), if_neg (hfne0 _ ht1l)]
    rfl
  have hl1new : ∀ b, l1 m2 pt2 (idx0 vpn) b =
      if b = idx1 vpn then mkPte f1 pteV else 0 := by
    intro b
    show m2.ptes (t1v m2 pt2 (idx0 vpn)) b = _
    rw [ht1new, hptesB]
    by_cases hc : b = idx1 vpn
    · subst hc
      rw [if_pos ⟨rfl, rfl⟩, if_pos rfl]
    · rw [if_neg (fun hh => hc hh.2), if_neg hf0ne1, hptesA]
      rw [if_neg (fun hh => hrootne0 hh.1.symm), if_pos rfl, if_neg hc]
  have hwalkMono : ∀ a b, walkOk m pt a b → walkOk m2 pt2 a b := by
    intro a b hw
    refine ⟨by rw [hl0old a (ha_ne a hw.1)]; exact hw.1, ?_⟩
    rw [hl1old a b hw.1]
    exact hw.2
  have ht2Mono : ∀ a b, walkOk m pt a b → t2v m2 pt2 a b = t2v m pt a b := by
    intro a b hw
    unfold t2v
    rw [hl1old a b hw.1]
  have hwalkNew : ∀ a b, walkOk m2 pt2 a b →
      walkOk m pt a b ∨ (a = idx0 vpn ∧ b = idx1 vpn) := by
    intro a b hw2
    by_cases hc : a = idx0 vpn
    · subst hc
      right
      refine ⟨rfl, ?_⟩
      by_contra hbne
      have := hw2.2
      rw [hl1new b, if_neg hbne] at this
      rw [pteValid_zero] at this
      exact Bool.false_ne_true this
    · left
      have hva : pteValid (l0 m pt a) = true := by
        rw [← hl0old a hc]
        exact hw2.1
      refine ⟨hva, ?_⟩
      rw [← hl1old a b hva]
      exact hw2.2
  have hnewWalk : walkOk m2 pt2 (idx0 vpn) (idx1 vpn) := by
    refine ⟨?_, ?_⟩
    · rw [hl0new]
      exact pteValid_mkPteV f0
    · rw [hl1new, if_pos rfl]
      exact pteValid_mkPteV f1
  have ht2new : t2v m2 pt2 (idx0 vpn) (idx1 vpn) = f1 := by
    unfold t2v
    rw [hl1new, if_pos rfl]
    exact ptePpn_mkPte f1 pteV h44f1
  refine
    { inv := ?_
      root := rfl
      evol := hev
      cEq := rfl
      newWalk := hnewWalk
      p2Eq := ht2new.symm
      t1Mono := fun a h => ⟨by rw [hl0old a (ha_ne a h)]; exact h,
        ht1old a (ha_ne a h)⟩
      walkMono := hwalkMono
      t2Mono := ht2Mono
      walkNew := hwalkNew
      leafPres := ?_
      leafNew := ?_
      t1New := ?_
      t2New := ?_
      p2New := fun _ hl => hnlive1 (hliveMonoA _ hl)
      extPtes := ?_
      extBytes := ?_ }
  · refine
      { mok := hokB
        rootLive := hliveM _ hs.rootLive
        t1Live := ?_
        t1NeRoot := ?_
        t1Inj := ?_
        t2Live := ?_
        t2NeRoot := ?_
        t2NeT1 := ?_
        t2Inj := ?_ }
    · intro a hva
      by_cases hc : a = idx0 vpn
      · subst hc
        rw [ht1new]
        exact hlivef0
      · rw [hl0old a hc] at hva
        rw [ht1old a hc]
        exact hliveM _ (hs.t1Live a hva)
    · intro a hva
      by_cases hc : a = idx0 vpn
      · subst hc
        rw [ht1new]
        exact fun hh => hrootne0 hh.symm
      · rw [hl0old a hc] at hva
        rw [ht1old a hc]
        exact hs.t1NeRoot a hva
    · intro a a2 hva hva2 heq
      by_cases hc : a = idx0 vpn <;> by_cases hc2 : a2 = idx0 vpn
      · rw [hc, hc2]
      · rw [hl0old a2 hc2] at hva2
        rw [hc] at heq
        rw [ht1new, ht1old a2 hc2] at heq
        exact absurd heq.symm (hfne0 _ (hs.t1Live a2 hva2))
      · rw [hl0old a hc] at hva
        rw [hc2] at heq
        rw [ht1old a hc, ht1new] at heq
        exact absurd heq (hfne0 _ (hs.t1Live a hva))
      · rw [hl0old a hc] at hva
        rw [hl0old a2 hc2] at hva2
        rw [ht1old a hc, ht1old a2 hc2] at heq
        exact hs.t1Inj a a2 hva hva2 heq
    · intro a b hw2
      rcases hwalkNew a b hw2 with hw | ⟨rfl, rfl⟩
      · rw [ht2Mono a b hw]
        exact hliveM _ (hs.t2Live a b hw)
      · rw [ht2new]
        exact hlivef1
    · intro a b hw2
      rcases hwalkNew a b hw2 with hw | ⟨rfl, rfl⟩
      · rw [ht2Mono a b hw]
        exact hs.t2NeRoot a b hw
      · rw [ht2new]
        exact fun hh => hrootne1 hh.symm
    · intro a b a2 hw2 hva2
      rcases hwalkNew a b hw2 with hw | ⟨rfl, rfl⟩ <;> by_cases hc2 : a2 = idx0 vpn
      · rw [ht2Mono a b hw, hc2, ht1new]
        exact hfne0 _ (hs.t2Live a b hw)
      · rw [hl0old a2 hc2] at hva2
        rw [ht2Mono a b hw, ht1old a2 hc2]
        exact hs.t2NeT1 a b a2 hw hva2
      · rw [ht2new, hc2, ht1new]
        exact fun hh => hf0ne1 hh.symm
      · rw [hl0old a2 hc2] at hva2
        rw [ht2new, ht1old a2 hc2]
        exact fun hh => hfne1 _ (hs.t1Live a2 hva2) hh.symm
    · intro a b a2 b2 hw2 hw2b heq
      rcases hwalkNew a b hw2 with hw | ⟨rfl, rfl⟩ <;>
        rcases hwalkNew a2 b2 hw2b with hwb | ⟨rfl, rfl⟩
      · rw [ht2Mono a b hw, ht2Mono a2 b2 hwb] at heq
        exact hs.t2Inj a b a2 b2 hw hwb heq
      · rw [ht2Mono a b hw, ht2new] at heq
        exact absurd heq (hfne1 _ (hs.t2Live a b hw))
      · rw [ht2new, ht2Mono a2 b2 hwb] at heq
        exact absurd heq.symm (hfne1 _ (hs.t2Live a2 b2 hwb))
      · exact ⟨rfl, rfl⟩
  · -- leafPres
    intro a b c2 hw
    show m2.ptes (t2v m2 pt2 a b) c2 = m.ptes (t2v m pt a b) c2
    have ht2l : live m (t2v m pt a b) := hs.t2Live a b hw
    rw [ht2Mono a b hw, hptesB]
    rw [if_neg (fun hh => hfne0 _ ht2l hh.1), if_neg (hfne1 _ ht2l), hptesA]
    rw [if_neg (fun hh => hs.t2NeRoot a b hw hh.1), if_neg (hfne0 _ ht2l)]
  · -- leafNew
    right
    intro c2
    show m2.ptes (t2v m2 pt2 (idx0 vpn) (idx1 vpn)) c2 = 0
    rw [ht2new, hptesB]
    rw [if_neg (fun hh => hf0ne1 hh.1.symm), if_pos rfl]
  · -- t1New
    intro a h
    by_cases hc : a = idx0 vpn
    · right
      rw [hc, ht1new]
      exact hnlive0
    · rw [hl0old a hc] at h
      exact Or.inl ⟨h, ht1old a hc⟩
  · -- t2New
    intro a b hw2
    rcases hwalkNew a b hw2 with hw | ⟨rfl, rfl⟩
    · exact Or.inl ⟨hw, ht2Mono a b hw⟩
    · right
      rw [ht2new]
      exact fun hl => hnlive1 (hliveMonoA _ hl)
  · -- extPtes
    intro p hp hne hn1 i
    rw [hptesB]
    rw [if_neg (fun hh => hfne0 p hp hh.1), if_neg (hfne1 p hp), hptesA]
    rw [if_neg (fun hh => hne hh.1), if_neg (hfne0 p hp)]
  · -- extBytes
    intro p hp i
    rw [hbytesB]
    rw [if_neg (hfne1 p hp), hbytesA]
    rw [if_neg (hfne0 p hp)]

theorem find_pte_create_spec {m m2 : Machine} {pt pt2 : PageTable}
    {vpn p2 c : Nat} (hs : StructInv m pt)
    (h : find_pte_create m pt vpn = some (m2, pt2, p2, c)) :
    FpcSpec m pt vpn m2 pt2 p2 c := by
  unfold find_pte_create at h
  by_cases hv0 : pteValid (m.ptes pt.root_ppn (idx0 vpn)) = true
  · have h0 : fpcStep0 m pt vpn =
        some (m, pt, ptePpn (m.ptes pt.root_ppn (idx0 vpn))) := by
      unfold fpcStep0
      rw [if_pos hv0]
    rw [h0] at h
    simp only [fpcStep1] at h
    by_cases hv1 : pteValid
        (m.ptes (ptePpn (m.ptes pt.root_ppn (idx0 vpn))) (idx1 vpn)) = true
    · rw [if_pos hv1] at h
      simp only [Option.some.injEq, Prod.mk.injEq] at h
      obtain ⟨rfl, rfl, rfl, rfl⟩ := h
      exact fpc_caseA hs hv0 hv1
    · rw [if_neg hv1] at h
      cases hal : frame_alloc m with
      | none =>
        rw [hal] at h
        simp at h
      | some r =>
        obtain ⟨m1, f⟩ := r
        rw [hal] at h
        simp only [Option.some.injEq, Prod.mk.injEq] at h
        obtain ⟨rfl, rfl, rfl, rfl⟩ := h
        exact fpc_caseB hs hv0 hv1 hal
  · have h0 : ∀ m1 f, frame_alloc m = some (m1, f) →
        fpcStep0 m pt vpn =
          some (writePte m1 pt.root_ppn (idx0 vpn) (mkPte f pteV),
            { pt with frames := pt.frames ++ [f] }, f) := by
      intro m1 f hal
      unfold fpcStep0
      rw [if_neg hv0, hal]
    cases hal0 : frame_alloc m with
    | none =>
      have hnone : fpcStep0 m pt vpn = none := by
        unfold fpcStep0
        rw [if_neg hv0, hal0]
      rw [hnone] at h
      simp at h
    | some r =>
      obtain ⟨m1, f0⟩ := r
      rw [h0 m1 f0 hal0] at h
      simp only [fpcStep1] at h
      have hval : pteValid
          ((writePte m1 pt.root_ppn (idx0 vpn) (mkPte f0 pteV)).ptes f0
            (idx1 vpn)) = false := by
        obtain ⟨_, _, _, hnlive0, _, hptesA, _, _⟩ :=
          installFresh pt.root_ppn (idx0 vpn) hs.mok hal0
        rw [hptesA]
        rw [if_neg (fun hh : f0 = pt.root_ppn ∧ idx1 vpn = idx0 vpn =>
          hnlive0 (hh.1 ▸ hs.rootLive)), if_pos rfl]
        exact pteValid_zero
      rw [if_neg (by rw [hval]; exact Bool.false_ne_true)] at h
      cases hal1 : frame_alloc
          (writePte m1 pt.root_ppn (idx0 vpn) (mkPte f0 pteV)) with
      | none =>
        rw [hal1] at h
        simp at h
      | some r2 =>
        obtain ⟨mb, f1⟩ := r2
        rw [hal1] at h
        simp only [Option.some.injEq, Prod.mk.injEq] at h
        obtain ⟨rfl, rfl, rfl, rfl⟩ := h
        exact fpc_caseC hs hv0 hal0 hal1

/-- The functional abstraction of a page table: `tbl` is the list of
(vpn, leaf ppn) pairs installed so far.  The walk succeeds exactly on the
paths of recorded vpns, and each recorded vpn's leaf entry is valid and
points at its recorded ppn. -/
structure AbsInv (m : Machine) (pt : PageTable) (tbl : List (Nat × Nat)) :
    Prop where
  walkTbl : ∀ a b, walkOk m pt a b ↔
    ∃ e ∈ tbl, idx0 e.1 = a ∧ idx1 e.1 = b
  leafOk : ∀ e ∈ tbl,
    pteValid (l2 m pt (idx0 e.1) (idx1 e.1) (idx2 e.1)) = true ∧
    ptePpn (l2 m pt (idx0 e.1) (idx1 e.1) (idx2 e.1)) = e.2

/-- The pages storing the three levels of the page table. -/
def tablePage (m : Machine) (pt : PageTable) (p : Nat) : Prop :=
  p = pt.root_ppn ∨ (∃ a, pteValid (l0 m pt a) = true ∧ p = t1v m pt a) ∨
    (∃ a b, walkOk m pt a b ∧ p = t2v m pt a b)

theorem tablePage_live {m : Machine} {pt : PageTable} (hs : StructInv m pt)
    {p : Nat} (hp : tablePage m pt p) : live m p := by
  rcases hp with rfl | ⟨a, hva, rfl⟩ | ⟨a, b, hw, rfl⟩
  · exact hs.rootLive
  · exact hs.t1Live a hva
  · exact hs.t2Live a b hw

/-- Allocating a fresh frame does not disturb the page-table structure: the
fresh page is not reachable from any live table. -/
theorem frame_alloc_pt {m m1 : Machine} {f : Nat} {pt : PageTable}
    {tbl : List (Nat × Nat)} (hs : StructInv m pt) (habs : AbsInv m pt tbl)
    (hal : frame_alloc m = some (m1, f)) :
    StructInv m1 pt ∧ AbsInv m1 pt tbl ∧
    (∀ p, tablePage m1 pt p ↔ tablePage m pt p) ∧ Evolves m m1 := by
  obtain ⟨hok1, hlivef, hnlivef, h44, hev, hother, hbother, hzero, hbzero⟩ :=
    frame_alloc_spec hs.mok hal
  have hfne : ∀ q, live m q → q ≠ f := fun q hq hh => hnlivef (hh ▸ hq)
  have hl0 : ∀ a, l0 m1 pt a = l0 m pt a := fun a =>
    hother _ (hfne _ hs.rootLive) a
  have ht1 : ∀ a, t1v m1 pt a = t1v m pt a := fun a => by
    unfold t1v
    rw [hl0]
  have hl1 : ∀ a b, pteValid (l0 m pt a) = true →
      l1 m1 pt a b = l1 m pt a b := by
    intro a b hva
    show m1.ptes (t1v m1 pt a) b = l1 m pt a b
    rw [ht1]
    exact hother _ (hfne _ (hs.t1Live a hva)) b
  have hwalk : ∀ a b, walkOk m1 pt a b ↔ walkOk m pt a b := by
    intro a b
    constructor
    · intro hw
      have hva : pteValid (l0 m pt a) = true := by rw [← hl0]; exact hw.1
      exact ⟨hva, by rw [← hl1 a b hva]; exact hw.2⟩
    · intro hw
      exact ⟨by rw [hl0]; exact hw.1, by rw [hl1 a b hw.1]; exact hw.2⟩
  have ht2 : ∀ a b, walkOk m pt a b → t2v m1 pt a b = t2v m pt a b := by
    intro a b hw
    unfold t2v
    rw [hl1 a b hw.1]
  have hl2 : ∀ a b c2, walkOk m pt a b → l2 m1 pt a b c2 = l2 m pt a b c2 := by
    intro a b c2 hw
    show m1.ptes (t2v m1 pt a b) c2 = l2 m pt a b c2
    rw [ht2 a b hw]
    exact hother _ (hfne _ (hs.t2Live a b hw)) c2
  refine ⟨?_, ?_, ?_, hev⟩
  · refine
      { mok := hok1
        rootLive := hev.liveMono hs.rootLive
        t1Live := ?_
        t1NeRoot := ?_
        t1Inj := ?_
        t2Live := ?_
        t2NeRoot := ?_
        t2NeT1 := ?_
        t2Inj := ?_ }
    · intro a hva
      rw [hl0] at hva
      rw [ht1]
      exact hev.liveMono (hs.t1Live a hva)
    · intro a hva
      rw [hl0] at hva
      rw [ht1]
      exact hs.t1NeRoot a hva
    · intro a a2 hva hva2 heq
      rw [hl0] at hva hva2
      rw [ht1, ht1] at heq
      exact hs.t1Inj a a2 hva hva2 heq
    · intro a b hw
      rw [hwalk] at hw
      rw [ht2 a b hw]
      exact hev.liveMono (hs.t2Live a b hw)
    · intro a b hw
      rw [hwalk] at hw
      rw [ht2 a b hw]
      exact hs.t2NeRoot a b hw
    · intro a b a2 hw hva2
      rw [hwalk] at hw
      rw [hl0] at hva2
      rw [ht2 a b hw, ht1]
      exact hs.t2NeT1 a b a2 hw hva2
    · intro a b a2 b2 hw hwb heq
      rw [hwalk] at hw hwb
      rw [ht2 a b hw, ht2 a2 b2 hwb] at heq
      exact hs.t2Inj a b a2 b2 hw hwb heq
  · refine ⟨?_, ?_⟩
    · intro a b
      rw [hwalk]
      exact habs.walkTbl a b
    · intro e he
      have hw : walkOk m pt (idx0 e.1) (idx1 e.1) :=
        (habs.walkTbl _ _).mpr ⟨e, he, rfl, rfl⟩
      rw [hl2 _ _ _ hw]
      exact habs.leafOk e he
  · intro p
    constructor
    · rintro (rfl | ⟨a, hva, rfl⟩ | ⟨a, b, hw, rfl⟩)
      · exact Or.inl rfl
      · rw [hl0] at hva
        rw [ht1]
        exact Or.inr (Or.inl ⟨a, hva, rfl⟩)
      · rw [hwalk] at hw
        rw [ht2 a b hw]
        exact Or.inr (Or.inr ⟨a, b, hw, rfl⟩)
    · rintro (rfl | ⟨a, hva, rfl⟩ | ⟨a, b, hw, rfl⟩)
      · exact Or.inl rfl
      · exact Or.inr (Or.inl ⟨a, by rw [hl0]; exact hva, (ht1 a).symm⟩)
      · exact Or.inr (Or.inr ⟨a, b, (hwalk a b).mpr hw, (ht2 a b hw).symm⟩)

/-- The conclusions shared by every mapping operation: both invariants are
preserved (the abstraction gaining the new entry), the root is unchanged,
the allocator evolves monotonically, new table pages only replace dead ones,
and pages outside the table structure keep their contents. -/
structure MapSpec (m : Machine) (pt : PageTable) (vpn ppn : Nat)
    (tbl : List (Nat × Nat)) (m2 : Machine) (pt2 : PageTable) : Prop where
  inv : StructInv m2 pt2
  abs : AbsInv m2 pt2 ((vpn, ppn) :: tbl)
  root : pt2.root_ppn = pt.root_ppn
  evol : Evolves m m2
  tableMono : ∀ p, tablePage m2 pt2 p → tablePage m pt p ∨ ¬ live m p
  extPtes : ∀ p, live m p → ¬ tablePage m pt p → ∀ i, m2.ptes p i = m.ptes p i
  extBytes : ∀ p, live m p → ∀ i, m2.bytes p i = m.bytes p i

theorem ptMap_spec {m m2 : Machine} {pt pt2 : PageTable} {vpn ppn flags : Nat}
    {tbl : List (Nat × Nat)} (hs : StructInv m pt) (habs : AbsInv m pt tbl)
    (hppn : ppn < 2 ^ 44)
    (h : PageTable.map m pt vpn ppn flags = some (m2, pt2)) :
    MapSpec m pt vpn ppn tbl m2 pt2 := by
  unfold PageTable.map at h
  cases hfpc : find_pte_create m pt vpn with
  | none =>
    rw [hfpc] at h
    simp at h
  | some r =>
    obtain ⟨m1, pt1, p2, c⟩ := r
    rw [hfpc] at h
    have h2 : (if pteValid (m1.ptes p2 c) = true then none
        else some (writePte m1 p2 c (mkPte ppn (flags ||| pteV)), pt1)) =
        some (m2, pt2) := h
    by_cases hlv : pteValid (m1.ptes p2 c) = true
    · rw [if_pos hlv] at h2
      simp at h2
    · rw [if_neg hlv] at h2
      simp only [Option.some.injEq, Prod.mk.injEq] at h2
      obtain ⟨rfl, rfl⟩ := h2
      have F := find_pte_create_spec hs hfpc
      have hcEq := F.cEq
      subst hcEq
      have hL : ∀ q j,
          (writePte m1 p2 (idx2 vpn) (mkPte ppn (flags ||| pteV))).ptes q j =
            if q = p2 ∧ j = idx2 vpn then mkPte ppn (flags ||| pteV)
            else m1.ptes q j := fun q j => writePte_ptes ..
      set m2 := writePte m1 p2 (idx2 vpn) (mkPte ppn (flags ||| pteV)) with hm2
      have hfa : m2.fa = m1.fa := rfl
      have hliveEq : ∀ q, live m2 q ↔ live m1 q := live_fa_eq hfa
      have hevW : Evolves m1 m2 := ⟨Nat.le_refl _, fun _ hp => hp⟩
      have np2root : p2 ≠ pt1.root_ppn := by
        rw [F.p2Eq]
        exact F.inv.t2NeRoot _ _ F.newWalk
      have np2t1 : ∀ a, pteValid (l0 m1 pt1 a) = true →
          p2 ≠ t1v m1 pt1 a := by
        intro a hva
        rw [F.p2Eq]
        exact F.inv.t2NeT1 _ _ a F.newWalk hva
      have hl0 : ∀ a, l0 m2 pt1 a = l0 m1 pt1 a := by
        intro a
        show m2.ptes pt1.root_ppn a = _
        rw [hL]
        rw [if_neg (fun hh => np2root hh.1.symm)]
        rfl
      have ht1 : ∀ a, t1v m2 pt1 a = t1v m1 pt1 a := by
        intro a
        unfold t1v
        rw [hl0]
      have hl1 : ∀ a b, pteValid (l0 m1 pt1 a) = true →
          l1 m2 pt1 a b = l1 m1 pt1 a b := by
        intro a b hva
        show m2.ptes (t1v m2 pt1 a) b = _
        rw [ht1, hL]
        rw [if_neg (fun hh => np2t1 a hva hh.1.symm)]
        rfl
      have hwalk : ∀ a b, walkOk m2 pt1 a b ↔ walkOk m1 pt1 a b := by
        intro a b
        constructor
        · intro hw
          have hva : pteValid (l0 m1 pt1 a) = true := by
            rw [← hl0]; exact hw.1
          exact ⟨hva, by rw [← hl1 a b hva]; exact hw.2⟩
        · intro hw
          exact ⟨by rw [hl0]; exact hw.1, by rw [hl1 a b hw.1]; exact hw.2⟩
      have ht2 : ∀ a b, walkOk m1 pt1 a b → t2v m2 pt1 a b = t2v m1 pt1 a b := by
        intro a b hw
        unfold t2v
        rw [hl1 a b hw.1]
      have hleaf : ∀ a b c2, walkOk m1 pt1 a b →
          ¬(a = idx0 vpn ∧ b = idx1 vpn ∧ c2 = idx2 vpn) →
          l2 m2 pt1 a b c2 = l2 m1 pt1 a b c2 := by
        intro a b c2 hw hne
        show m2.ptes (t2v m2 pt1 a b) c2 = _
        rw [ht2 a b hw, hL]
        have hcond : ¬(t2v m1 pt1 a b = p2 ∧ c2 = idx2 vpn) := by
          rintro ⟨heq, rfl⟩
          rw [F.p2Eq] at heq
          obtain ⟨rfl, rfl⟩ := F.inv.t2Inj _ _ _ _ hw F.newWalk heq
          exact hne ⟨rfl, rfl, rfl⟩
        rw [if_neg hcond]
        rfl
      have hnewleaf : l2 m2 pt1 (idx0 vpn) (idx1 vpn) (idx2 vpn) =
          mkPte ppn (flags ||| pteV) := by
        show m2.ptes (t2v m2 pt1 (idx0 vpn) (idx1 vpn)) (idx2 vpn) = _
        rw [ht2 _ _ F.newWalk, ← F.p2Eq, hL]
        rw [if_pos ⟨rfl, rfl⟩]
      refine
        { inv := ?_
          abs := ?_
          root := F.root
          evol := F.evol.trans hevW
          tableMono := ?_
          extPtes := ?_
          extBytes := ?_ }
      · refine
          { mok := by
              have : MachOk m2 ↔ MachOk m1 := by unfold MachOk; rw [hfa]
              exact this.mpr F.inv.mok
            rootLive := (hliveEq _).mpr F.inv.rootLive
            t1Live := ?_
            t1NeRoot := ?_
            t1Inj := ?_
            t2Live := ?_
            t2NeRoot := ?_
            t2NeT1 := ?_
            t2Inj := ?_ }
        · intro a hva
          rw [hl0] at hva
          rw [ht1, hliveEq]
          exact F.inv.t1Live a hva
        · intro a hva
          rw [hl0] at hva
          rw [ht1]
          exact F.inv.t1NeRoot a hva
        · intro a a2 hva hva2 heq
          rw [hl0] at hva hva2
          rw [ht1, ht1] at heq
          exact F.inv.t1Inj a a2 hva hva2 heq
        · intro a b hw
          rw [hwalk] at hw
          rw [ht2 a b hw, hliveEq]
          exact F.inv.t2Live a b hw
        · intro a b hw
          rw [hwalk] at hw
          rw [ht2 a b hw]
          exact F.inv.t2NeRoot a b hw
        · intro a b a2 hw hva2
          rw [hwalk] at hw
          rw [hl0] at hva2
          rw [ht2 a b hw, ht1]
          exact F.inv.t2NeT1 a b a2 hw hva2
        · intro a b a2 b2 hw hwb heq
          rw [hwalk] at hw hwb
          rw [ht2 a b hw, ht2 a2 b2 hwb] at heq
          exact F.inv.t2Inj a b a2 b2 hw hwb heq
      · -- AbsInv
        refine ⟨?_, ?_⟩
        · intro a b
          rw [hwalk]
          constructor
          · intro hw
            rcases F.walkNew a b hw with hwm | ⟨rfl, rfl⟩
            · obtain ⟨e, he, h1, h2⟩ := (habs.walkTbl a b).mp hwm
              exact ⟨e, List.mem_cons_of_mem _ he, h1, h2⟩
            · exact ⟨(vpn, ppn), List.mem_cons_self _ _, rfl, rfl⟩
          · rintro ⟨e, he, h1, h2⟩
            rcases List.mem_cons.mp he with rfl | he2
            · rw [← h1, ← h2]
              exact F.newWalk
            · exact F.walkMono a b ((habs.walkTbl a b).mpr ⟨e, he2, h1, h2⟩)
        · intro e he
          rcases List.mem_cons.mp he with rfl | he2
          · rw [hnewleaf]
            exact ⟨pteValid_mkPte_or ppn flags, ptePpn_mkPte ppn _ hppn⟩
          · have hwm : walkOk m pt (idx0 e.1) (idx1 e.1) :=
              (habs.walkTbl _ _).mpr ⟨e, he2, rfl, rfl⟩
            have hw1 : walkOk m1 pt1 (idx0 e.1) (idx1 e.1) :=
              F.walkMono _ _ hwm
            have hne : ¬(idx0 e.1 = idx0 vpn ∧ idx1 e.1 = idx1 vpn ∧
                idx2 e.1 = idx2 vpn) := by
              rintro ⟨h1, h2, h3⟩
              have hval : pteValid (l2 m1 pt1 (idx0 vpn) (idx1 vpn)
                  (idx2 vpn)) = true := by
                rw [← h1, ← h2, ← h3, F.leafPres _ _ _ hwm]
                exact (habs.leafOk e he2).1
              have : l2 m1 pt1 (idx0 vpn) (idx1 vpn) (idx2 vpn) =
                  m1.ptes p2 (idx2 vpn) := by
                show m1.ptes (t2v m1 pt1 (idx0 vpn) (idx1 vpn)) _ = _
                rw [← F.p2Eq]
              rw [this] at hval
              exact hlv hval
            rw [hleaf _ _ _ hw1 hne, F.leafPres _ _ _ hwm]
            exact habs.leafOk e he2
      · -- tableMono
        intro p hp
        rcases hp with rfl | ⟨a, hva, rfl⟩ | ⟨a, b, hw, rfl⟩
        · rw [F.root]
          exact Or.inl (Or.inl rfl)
        · rw [hl0] at hva
          rw [ht1]
          rcases F.t1New a hva with ⟨hvm, heq⟩ | hnl
          · rw [heq]
            exact Or.inl (Or.inr (Or.inl ⟨a, hvm, rfl⟩))
          · exact Or.inr hnl
        · rw [hwalk] at hw
          rw [ht2 a b hw]
          rcases F.t2New a b hw with ⟨hwm, heq⟩ | hnl
          · rw [heq]
            exact Or.inl (Or.inr (Or.inr ⟨a, b, hwm, rfl⟩))
          · exact Or.inr hnl
      · -- extPtes
        intro p hp hnt i
        have hstep1 : m1.ptes p i = m.ptes p i := by
          refine F.extPtes p hp (fun hh => hnt (Or.inl hh)) ?_ i
          intro a hva hh
          exact hnt (Or.inr (Or.inl ⟨a, hva, hh⟩))
        have hne2 : p ≠ p2 := by
          by_cases hwm : walkOk m pt (idx0 vpn) (idx1 vpn)
          · intro hh
            apply hnt
            right
            right
            refine ⟨idx0 vpn, idx1 vpn, hwm, ?_⟩
            rw [hh, F.p2Eq, F.t2Mono _ _ hwm]
          · intro hh
            exact F.p2New hwm (hh ▸ hp)
        rw [hL]
        rw [if_neg (fun hh => hne2 hh.1), hstep1]
      · -- extBytes
        intro p hp i
        have : m2.bytes = m1.bytes := rfl
        rw [this]
        exact F.extBytes p hp i

/-- The machine/page-table relation common to every building step: invariants
hold afterwards, the root is fixed, the allocator evolves monotonically, new
table pages only replace dead ones, and pages outside the table structure
keep their contents. -/
structure BuildStep (m : Machine) (pt : PageTable) (m2 : Machine)
    (pt2 : PageTable) : Prop where
  inv : StructInv m2 pt2
  root : pt2.root_ppn = pt.root_ppn
  evol : Evolves m m2
  tableMono : ∀ p, tablePage m2 pt2 p → tablePage m pt p ∨ ¬ live m p
  extPtes : ∀ p, live m p → ¬ tablePage m pt p → ∀ i, m2.ptes p i = m.ptes p i
  extBytes : ∀ p, live m p → ∀ i, m2.bytes p i = m.bytes p i

theorem buildStep_refl {m : Machine} {pt : PageTable} (hs : StructInv m pt) :
    BuildStep m pt m pt :=
  ⟨hs, rfl, Evolves.refl m, fun _ h => Or.inl h, fun _ _ _ _ => rfl,
    fun _ _ _ => rfl⟩

theorem buildStep_trans {m m2 m3 : Machine} {pt pt2 pt3 : PageTable}
    (h1 : BuildStep m pt m2 pt2) (h2 : BuildStep m2 pt2 m3 pt3) :
    BuildStep m pt m3 pt3 := by
  refine ⟨h2.inv, h2.root.trans h1.root, h1.evol.trans h2.evol, ?_, ?_, ?_⟩
  · intro p hp
    rcases h2.tableMono p hp with hp2 | hnl2
    · rcases h1.tableMono p hp2 with hp1 | hnl1
      · exact Or.inl hp1
      · exact Or.inr hnl1
    · exact Or.inr (h1.evol.notLiveBack hnl2)
  · intro p hp hnt i
    have hlive2 : live m2 p := h1.evol.liveMono hp
    have hnt2 : ¬ tablePage m2 pt2 p := by
      intro ht2
      rcases h1.tableMono p ht2 with hp1 | hnl1
      · exact hnt hp1
      · exact hnl1 hp
    rw [h2.extPtes p hlive2 hnt2 i, h1.extPtes p hp hnt i]
  · intro p hp i
    rw [h2.extBytes p (h1.evol.liveMono hp) i, h1.extBytes p hp i]

theorem MapSpec.step {m m2 : Machine} {pt pt2 : PageTable}
    {vpn ppn : Nat} {tbl : List (Nat × Nat)}
    (h : MapSpec m pt vpn ppn tbl m2 pt2) : BuildStep m pt m2 pt2 :=
  ⟨h.inv, h.root, h.evol, h.tableMono, h.extPtes, h.extBytes⟩

theorem frame_alloc_step {m m1 : Machine} {f : Nat} {pt : PageTable}
    {tbl : List (Nat × Nat)} (hs : StructInv m pt) (habs : AbsInv m pt tbl)
    (hal : frame_alloc m = some (m1, f)) : BuildStep m pt m1 pt := by
  obtain ⟨hs1, _, hiff, hev⟩ := frame_alloc_pt hs habs hal
  obtain ⟨_, _, hnlivef, _, _, hother, hbother, _, _⟩ :=
    frame_alloc_spec hs.mok hal
  have hfne : ∀ q, live m q → q ≠ f := fun q hq hh => hnlivef (hh ▸ hq)
  exact ⟨hs1, rfl, hev, fun p hp => Or.inl ((hiff p).mp hp),
    fun p hp _ i => hother p (hfne p hp) i,
    fun p hp i => hbother p (hfne p hp) i⟩

theorem AbsInv_congr {m : Machine} {pt : PageTable}
    {tbl tbl2 : List (Nat × Nat)} (hmem : ∀ e, e ∈ tbl ↔ e ∈ tbl2)
    (h : AbsInv m pt tbl) : AbsInv m pt tbl2 := by
  refine ⟨?_, ?_⟩
  · intro a b
    rw [h.walkTbl a b]
    constructor
    · rintro ⟨e, he, h1, h2⟩
      exact ⟨e, (hmem e).mp he, h1, h2⟩
    · rintro ⟨e, he, h1, h2⟩
      exact ⟨e, (hmem e).mpr he, h1, h2⟩
  · intro e he
    exact h.leafOk e ((hmem e).mpr he)

theorem map_one_spec {m m2 : Machine} {pt pt2 : PageTable}
    {area area2 : MapArea} {vpn : Nat} {tbl : List (Nat × Nat)}
    (hs : StructInv m pt) (habs : AbsInv m pt tbl) (hvpn : vpn < 2 ^ 44)
    (h : MapArea.map_one m pt area vpn = some (m2, pt2, area2)) :
    ∃ fp, BuildStep m pt m2 pt2 ∧ AbsInv m2 pt2 ((vpn, fp) :: tbl) ∧
      ((area.map_type = MapType.identical ∧ area2 = area ∧ fp = vpn) ∨
       (area.map_type = MapType.framed ∧
         area2 = { area with
           data_frames := area.data_frames ++ [(vpn, fp)] } ∧
         ¬ live m fp ∧ live m2 fp ∧ ¬ tablePage m2 pt2 fp)) := by
  unfold MapArea.map_one at h
  cases hmt : area.map_type with
  | identical =>
    rw [hmt] at h
    have h1 : (match PageTable.map m pt vpn vpn area.map_perm with
        | none => none
        | some (mm, ptt) => some (mm, ptt, area)) = some (m2, pt2, area2) := h
    cases hpm : PageTable.map m pt vpn vpn area.map_perm with
    | none =>
      rw [hpm] at h1
      exact absurd h1 (by simp)
    | some r =>
      obtain ⟨ma, pta⟩ := r
      rw [hpm] at h1
      have h2 : some (ma, pta, area) = some (m2, pt2, area2) := h1
      simp only [Option.some.injEq, Prod.mk.injEq] at h2
      obtain ⟨rfl, rfl, rfl⟩ := h2
      have S := ptMap_spec hs habs hvpn hpm
      exact ⟨vpn, S.step, S.abs, Or.inl ⟨rfl, rfl, rfl⟩⟩
  | framed =>
    rw [hmt] at h
    have h1 : (match frame_alloc m with
        | none => none
        | some (mm, f) =>
          match PageTable.map mm pt vpn f area.map_perm with
          | none => none
          | some (mm2, ptt2) =>
            some (mm2, ptt2,
              { vpn_start := area.vpn_start, vpn_end := area.vpn_end,
                data_frames := area.data_frames ++ [(vpn, f)],
                map_type := MapType.framed,
                map_perm := area.map_perm })) =
        some (m2, pt2, area2) := h
    cases hal : frame_alloc m with
    | none =>
      rw [hal] at h1
      exact absurd h1 (by simp)
    | some r =>
      obtain ⟨m1, f⟩ := r
      rw [hal] at h1
      have h2 : (match PageTable.map m1 pt vpn f area.map_perm with
          | none => none
          | some (mm2, ptt2) =>
            some (mm2, ptt2,
              { vpn_start := area.vpn_start, vpn_end := area.vpn_end,
                data_frames := area.data_frames ++ [(vpn, f)],
                map_type := MapType.framed,
                map_perm := area.map_perm })) =
          some (m2, pt2, area2) := h1
      cases hpm : PageTable.map m1 pt vpn f area.map_perm with
      | none =>
        rw [hpm] at h2
        exact absurd h2 (by simp)
      | some r2 =>
        obtain ⟨mb, ptb⟩ := r2
        rw [hpm] at h2
        have h3 : some (mb, ptb,
            ({ vpn_start := area.vpn_start, vpn_end := area.vpn_end,
               data_frames := area.data_frames ++ [(vpn, f)],
               map_type := MapType.framed,
               map_perm := area.map_perm } : MapArea)) =
            some (m2, pt2, area2) := h2
        simp only [Option.some.injEq, Prod.mk.injEq] at h3
        obtain ⟨rfl, rfl, rfl⟩ := h3
        obtain ⟨hs1, habs1, hiff, hev1⟩ := frame_alloc_pt hs habs hal
        obtain ⟨_, hlivef1, hnlivef, h44f, _, _, _, _, _⟩ :=
          frame_alloc_spec hs.mok hal
        have S := ptMap_spec hs1 habs1 h44f hpm
        have hstep : BuildStep m pt mb ptb :=
          buildStep_trans (frame_alloc_step hs habs hal) S.step
        have hlivef2 : live mb f := S.evol.liveMono hlivef1
        have hntb : ¬ tablePage mb ptb f := by
          intro ht
          rcases S.tableMono f ht with ht1 | hnl1
          · exact hnlivef (tablePage_live hs ((hiff f).mp ht1))
          · exact hnl1 hlivef1
        refine ⟨f, hstep, S.abs, Or.inr ⟨rfl, ?_, hnlivef, hlivef2, hntb⟩⟩
        cases area
        simp only at hmt
        subst hmt
        rfl

theorem mapRange_spec (cnt : Nat) :
    ∀ {m m2 : Machine} {pt pt2 : PageTable} {area area2 : MapArea}
      {vpn : Nat} {tbl : List (Nat × Nat)},
      StructInv m pt → AbsInv m pt tbl → vpn + cnt ≤ 2 ^ 44 →
      MapArea.mapRange m pt area vpn cnt = some (m2, pt2, area2) →
      ∃ pairs : List (Nat × Nat),
        BuildStep m pt m2 pt2 ∧
        AbsInv m2 pt2 (pairs ++ tbl) ∧
        area2.vpn_start = area.vpn_start ∧
        area2.vpn_end = area.vpn_end ∧
        area2.map_type = area.map_type ∧
        area2.map_perm = area.map_perm ∧
        (area.map_type = MapType.framed →
          area2.data_frames = area.data_frames ++ pairs) ∧
        (area.map_type = MapType.identical → area2 = area) ∧
        (∀ v, vpn ≤ v → v < vpn + cnt → ∃ fp, (v, fp) ∈ pairs) ∧
        (∀ e ∈ pairs, vpn ≤ e.1 ∧ e.1 < vpn + cnt) ∧
        (area.map_type = MapType.framed →
          (∀ e ∈ pairs, ¬ live m e.2 ∧ live m2 e.2 ∧
            ¬ tablePage m2 pt2 e.2) ∧
          pairs.Pairwise (fun x y => x.2 ≠ y.2)) := by
  induction cnt with
  | zero =>
    intro m m2 pt pt2 area area2 vpn tbl hs habs hcnt h
    have h1 : some (m, pt, area) = some (m2, pt2, area2) := h
    simp only [Option.some.injEq, Prod.mk.injEq] at h1
    obtain ⟨rfl, rfl, rfl⟩ := h1
    refine ⟨[], buildStep_refl hs, by simpa using habs, rfl, rfl, rfl, rfl,
      ?_, fun _ => rfl, ?_, ?_, ?_⟩
    · intro _
      simp
    · intro v hv1 hv2
      omega
    · intro e he
      exact absurd he (List.not_mem_nil e)
    · intro _
      exact ⟨fun e he => absurd he (List.not_mem_nil e), List.Pairwise.nil⟩
  | succ cnt ih =>
    intro m m2 pt pt2 area area2 vpn tbl hs habs hcnt h
    have h1 : (match MapArea.map_one m pt area vpn with
        | none => none
        | some (m1, pt1, a1) =>
          MapArea.mapRange m1 pt1 a1 (vpn + 1) cnt) =
        some (m2, pt2, area2) := h
    cases hmo : MapArea.map_one m pt area vpn with
    | none =>
      rw [hmo] at h1
      exact absurd h1 (by simp)
    | some r =>
      obtain ⟨m1, pt1, a1⟩ := r
      rw [hmo] at h1
      have h2 : MapArea.mapRange m1 pt1 a1 (vpn + 1) cnt =
          some (m2, pt2, area2) := h1
      obtain ⟨fp, Mstep, Mabs, Mor⟩ :=
        map_one_spec hs habs (by omega) hmo
      obtain ⟨pairsT, Tstep, Tabs, hvs, hve, hmt, hmp, hdfF, hdfI, hcov,
          hbnd, hfresh⟩ := ih Mstep.inv Mabs (by omega) h2
      have habs2 : AbsInv m2 pt2 (((vpn, fp) :: pairsT) ++ tbl) := by
        refine AbsInv_congr ?_ Tabs
        intro e
        simp only [List.mem_append, List.mem_cons]
        tauto
      have hcov2 : ∀ v, vpn ≤ v → v < vpn + (cnt + 1) →
          ∃ fp2, (v, fp2) ∈ (vpn, fp) :: pairsT := by
        intro v hv1 hv2
        by_cases hveq : v = vpn
        · subst hveq
          exact ⟨fp, List.mem_cons_self _ _⟩
        · obtain ⟨fp2, hfp2⟩ := hcov v (by omega) (by omega)
          exact ⟨fp2, List.mem_cons_of_mem _ hfp2⟩
      have hbnd2 : ∀ e ∈ (vpn, fp) :: pairsT,
          vpn ≤ e.1 ∧ e.1 < vpn + (cnt + 1) := by
        intro e he
        rcases List.mem_cons.mp he with rfl | he2
        · exact ⟨Nat.le_refl _, by omega⟩
        · have := hbnd e he2
          omega
      rcases Mor with ⟨hmtI, ha1, hfpv⟩ | ⟨hmtF, ha1, hnl, hl1, hnt1⟩
      · -- identical
        subst ha1
        refine ⟨(vpn, fp) :: pairsT, buildStep_trans Mstep Tstep, habs2,
          hvs, hve, hmt, hmp, ?_, hdfI, hcov2, hbnd2, ?_⟩
        · intro hcontra
          rw [hmtI] at hcontra
          cases hcontra
        · intro hcontra
          rw [hmtI] at hcontra
          cases hcontra
      · -- framed
        subst ha1
        have hmtF2 : area2.map_type = MapType.framed := by
          rw [hmt]
          exact hmtF
        refine ⟨(vpn, fp) :: pairsT, buildStep_trans Mstep Tstep, habs2,
          by simpa using hvs, by simpa using hve,
          by rw [hmt], by simpa using hmp, ?_, ?_, hcov2,
          hbnd2, ?_⟩
        · intro _
          have hdf := hdfF (by simpa using hmtF)
          rw [hdf]
          simp
        · intro hcontra
          rw [hmtF] at hcontra
          cases hcontra
        · intro _
          have hfr := hfresh (by simpa using hmtF)
          constructor
          · intro e he
            rcases List.mem_cons.mp he with rfl | he2
            · refine ⟨hnl, Tstep.evol.liveMono hl1, ?_⟩
              intro ht
              rcases Tstep.tableMono _ ht with ht1 | hnl1
              · exact hnt1 ht1
              · exact hnl1 hl1
            · obtain ⟨hn1, hli, hnt⟩ := hfr.1 e he2
              exact ⟨Mstep.evol.notLiveBack hn1, hli, hnt⟩
          · refine List.Pairwise.cons ?_ hfr.2
            intro e he2 hh
            obtain ⟨hn1, _, _⟩ := hfr.1 e he2
            exact hn1 (hh ▸ hl1)

theorem writeBytesPage_ptes (m : Machine) (p : Nat) (src : List Nat) :
    (writeBytesPage m p src).ptes = m.ptes := rfl

theorem writeBytesPage_fa (m : Machine) (p : Nat) (src : List Nat) :
    (writeBytesPage m p src).fa = m.fa := rfl

theorem writeBytesPage_bytes_other (m : Machine) (p : Nat) (src : List Nat)
    {q : Nat} (h : q ≠ p) (i : Nat) :
    (writeBytesPage m p src).bytes q i = m.bytes q i := by
  unfold writeBytesPage
  simp [h]

theorem copyDataLoop_stable (fuel : Nat) :
    ∀ {m : Machine} {pt : PageTable} {data : List Nat} {vpn start : Nat}
      {m2 : Machine},
      copyDataLoop m pt data vpn start fuel = some m2 →
      m2.ptes = m.ptes ∧ m2.fa = m.fa := by
  induction fuel with
  | zero =>
    intro m pt data vpn start m2 h
    exact absurd h (by simp [copyDataLoop])
  | succ fuel ih =>
    intro m pt data vpn start m2 h
    unfold copyDataLoop at h
    cases hfp : find_pte m pt vpn with
    | none =>
      rw [hfp] at h
      exact absurd h (by simp)
    | some loc =>
      rw [hfp] at h
      have hred : (if data.length ≤ start + PAGE_SIZE then
          some (writeBytesPage m (ptePpn (m.ptes loc.1 loc.2))
            ((data.drop start).take PAGE_SIZE))
        else copyDataLoop (writeBytesPage m (ptePpn (m.ptes loc.1 loc.2))
            ((data.drop start).take PAGE_SIZE)) pt data (vpn + 1)
            (start + PAGE_SIZE) fuel) = some m2 := h
      by_cases hend : data.length ≤ start + PAGE_SIZE
      · rw [if_pos hend] at hred
        simp only [Option.some.injEq] at hred
        subst hred
        exact ⟨rfl, rfl⟩
      · rw [if_neg hend] at hred
        obtain ⟨hp, hf⟩ := ih hred
        exact ⟨hp, hf⟩

theorem copyDataLoop_done (fuel : Nat) :
    ∀ {m : Machine} {pt : PageTable} {data : List Nat} {vpn start : Nat}
      {m2 : Machine},
      data.length ≤ start →
      copyDataLoop m pt data vpn start fuel = some m2 →
      ∀ p i, m2.bytes p i = m.bytes p i := by
  cases fuel with
  | zero =>
    intro m pt data vpn start m2 _ h
    exact absurd h (by simp [copyDataLoop])
  | succ fuel =>
    intro m pt data vpn start m2 hle h
    unfold copyDataLoop at h
    cases hfp : find_pte m pt vpn with
    | none =>
      rw [hfp] at h
      exact absurd h (by simp)
    | some loc =>
      rw [hfp] at h
      have hred : (if data.length ≤ start + PAGE_SIZE then
          some (writeBytesPage m (ptePpn (m.ptes loc.1 loc.2))
            ((data.drop start).take PAGE_SIZE))
        else copyDataLoop (writeBytesPage m (ptePpn (m.ptes loc.1 loc.2))
            ((data.drop start).take PAGE_SIZE)) pt data (vpn + 1)
            (start + PAGE_SIZE) fuel) = some m2 := h
      rw [if_pos (by unfold PAGE_SIZE; omega)] at hred
      simp only [Option.some.injEq] at hred
      subst hred
      intro p i
      unfold writeBytesPage
      have hsrc : ((data.drop start).take PAGE_SIZE).length = 0 := by
        simp [Nat.sub_eq_zero_of_le hle]
      simp [hsrc]

theorem copyDataLoop_bytes (fuel : Nat) :
    ∀ {m : Machine} {pt : PageTable} {data : List Nat} {vpn start : Nat}
      {m2 : Machine} (k : Nat),
      start < data.length → data.length ≤ start + k * PAGE_SIZE →
      copyDataLoop m pt data vpn start fuel = some m2 →
      ∀ p, (∀ v loc, vpn ≤ v → v < vpn + k → find_pte m pt v = some loc →
        p ≠ ptePpn (m.ptes loc.1 loc.2)) →
      ∀ i, m2.bytes p i = m.bytes p i := by
  induction fuel with
  | zero =>
    intro m pt data vpn start m2 k _ _ h
    exact absurd h (by simp [copyDataLoop])
  | succ fuel ih =>
    intro m pt data vpn start m2 k hlt hcov h p hex i
    have hk : 1 ≤ k := by
      by_contra hk0
      have : k = 0 := by omega
      subst this
      simp at hcov
      omega
    unfold copyDataLoop at h
    cases hfp : find_pte m pt vpn with
    | none =>
      rw [hfp] at h
      exact absurd h (by simp)
    | some loc =>
      rw [hfp] at h
      have hne : p ≠ ptePpn (m.ptes loc.1 loc.2) :=
        hex vpn loc (Nat.le_refl _) (by omega) hfp
      have hred : (if data.length ≤ start + PAGE_SIZE then
          some (writeBytesPage m (ptePpn (m.ptes loc.1 loc.2))
            ((data.drop start).take PAGE_SIZE))
        else copyDataLoop (writeBytesPage m (ptePpn (m.ptes loc.1 loc.2))
            ((data.drop start).take PAGE_SIZE)) pt data (vpn + 1)
            (start + PAGE_SIZE) fuel) = some m2 := h
      by_cases hend : data.length ≤ start + PAGE_SIZE
      · rw [if_pos hend] at hred
        simp only [Option.some.injEq] at hred
        subst hred
        exact writeBytesPage_bytes_other _ _ _ hne i
      · rw [if_neg hend] at hred
        have hstep : (writeBytesPage m (ptePpn (m.ptes loc.1 loc.2))
            ((data.drop start).take PAGE_SIZE)).bytes p i = m.bytes p i :=
          writeBytesPage_bytes_other _ _ _ hne i
        rw [← hstep]
        refine ih (k - 1) (by omega) ?_ hred p ?_ i
        · have : (k - 1) * PAGE_SIZE + PAGE_SIZE = k * PAGE_SIZE := by
            have : k - 1 + 1 = k := by omega
            calc (k - 1) * PAGE_SIZE + PAGE_SIZE = (k - 1 + 1) * PAGE_SIZE := by
                  ring
              _ = k * PAGE_SIZE := by rw [this]
          omega
        · intro v loc2 hv1 hv2 hfp2
          have hfp3 : find_pte m pt v = some loc2 := hfp2
          have := hex v loc2 (by omega) (by omega) hfp3
          exact this

theorem walkOk_congr {m m2 : Machine} (hp : m2.ptes = m.ptes)
    {pt : PageTable} (a b : Nat) : walkOk m2 pt a b ↔ walkOk m pt a b := by
  unfold walkOk l1 t1v l0
  rw [hp]

theorem t1v_congr {m m2 : Machine} (hp : m2.ptes = m.ptes) {pt : PageTable}
    (a : Nat) : t1v m2 pt a = t1v m pt a := by
  unfold t1v l0
  rw [hp]

theorem t2v_congr {m m2 : Machine} (hp : m2.ptes = m.ptes) {pt : PageTable}
    (a b : Nat) : t2v m2 pt a b = t2v m pt a b := by
  unfold t2v l1 t1v l0
  rw [hp]

theorem l2_congr {m m2 : Machine} (hp : m2.ptes = m.ptes) {pt : PageTable}
    (a b c2 : Nat) : l2 m2 pt a b c2 = l2 m pt a b c2 := by
  unfold l2 t2v l1 t1v l0
  rw [hp]

theorem live_congr {m m2 : Machine} (hf : m2.fa = m.fa) (p : Nat) :
    live m2 p ↔ live m p := by
  unfold live
  rw [hf]

theorem l0_congr {m m2 : Machine} (hp : m2.ptes = m.ptes) {pt : PageTable}
    (a : Nat) : l0 m2 pt a = l0 m pt a := by
  unfold l0
  rw [hp]

theorem tablePage_congr {m m2 : Machine} (hp : m2.ptes = m.ptes)
    {pt : PageTable} (p : Nat) : tablePage m2 pt p ↔ tablePage m pt p := by
  constructor
  · rintro (h | ⟨a, hva, rfl⟩ | ⟨a, b, hw, rfl⟩)
    · exact Or.inl h
    · rw [l0_congr hp] at hva
      exact Or.inr (Or.inl ⟨a, hva, t1v_congr hp a⟩)
    · rw [walkOk_congr hp] at hw
      exact Or.inr (Or.inr ⟨a, b, hw, t2v_congr hp a b⟩)
  · rintro (h | ⟨a, hva, rfl⟩ | ⟨a, b, hw, rfl⟩)
    · exact Or.inl h
    · rw [← l0_congr hp] at hva
      exact Or.inr (Or.inl ⟨a, hva, (t1v_congr hp a).symm⟩)
    · rw [← walkOk_congr hp] at hw
      exact Or.inr (Or.inr ⟨a, b, hw, (t2v_congr hp a b).symm⟩)

theorem StructInv_congr {m m2 : Machine} (hp : m2.ptes = m.ptes)
    (hf : m2.fa = m.fa) {pt : PageTable} (h : StructInv m pt) :
    StructInv m2 pt := by
  have hl0 : ∀ a, l0 m2 pt a = l0 m pt a := by
    intro a
    unfold l0
    rw [hp]
  refine
    { mok := ?_
      rootLive := (live_congr hf _).mpr h.rootLive
      t1Live := ?_
      t1NeRoot := ?_
      t1Inj := ?_
      t2Live := ?_
      t2NeRoot := ?_
      t2NeT1 := ?_
      t2Inj := ?_ }
  · unfold MachOk
    rw [hf]
    exact h.mok
  · intro a hva
    rw [hl0] at hva
    rw [t1v_congr hp, live_congr hf]
    exact h.t1Live a hva
  · intro a hva
    rw [hl0] at hva
    rw [t1v_congr hp]
    exact h.t1NeRoot a hva
  · intro a a2 hva hva2 heq
    rw [hl0] at hva hva2
    rw [t1v_congr hp, t1v_congr hp] at heq
    exact h.t1Inj a a2 hva hva2 heq
  · intro a b hw
    rw [walkOk_congr hp] at hw
    rw [t2v_congr hp, live_congr hf]
    exact h.t2Live a b hw
  · intro a b hw
    rw [walkOk_congr hp] at hw
    rw [t2v_congr hp]
    exact h.t2NeRoot a b hw
  · intro a b a2 hw hva2
    rw [walkOk_congr hp] at hw
    rw [hl0] at hva2
    rw [t2v_congr hp, t1v_congr hp]
    exact h.t2NeT1 a b a2 hw hva2
  · intro a b a2 b2 hw hwb heq
    rw [walkOk_congr hp] at hw hwb
    rw [t2v_congr hp, t2v_congr hp] at heq
    exact h.t2Inj a b a2 b2 hw hwb heq

theorem AbsInv_machine_congr {m m2 : Machine} (hp : m2.ptes = m.ptes)
    {pt : PageTable} {tbl : List (Nat × Nat)} (h : AbsInv m pt tbl) :
    AbsInv m2 pt tbl := by
  refine ⟨?_, ?_⟩
  · intro a b
    rw [walkOk_congr hp]
    exact h.walkTbl a b
  · intro e he
    rw [l2_congr hp]
    exact h.leafOk e he

theorem abs_target {m : Machine} {pt : PageTable} {tbl : List (Nat × Nat)}
    (habs : AbsInv m pt tbl) {v fp : Nat} (hmem : (v, fp) ∈ tbl) :
    find_pte m pt v = some (t2v m pt (idx0 v) (idx1 v), idx2 v) ∧
    ptePpn (m.ptes (t2v m pt (idx0 v) (idx1 v)) (idx2 v)) = fp ∧
    pteValid (m.ptes (t2v m pt (idx0 v) (idx1 v)) (idx2 v)) = true := by
  have hw : walkOk m pt (idx0 v) (idx1 v) :=
    (habs.walkTbl _ _).mpr ⟨(v, fp), hmem, rfl, rfl⟩
  obtain ⟨h1, h2⟩ := habs.leafOk (v, fp) hmem
  exact ⟨find_pte_eq_some hw, h2, h1⟩

/-- The memory-set-level invariant carried through a construction: the page
table invariants, the abstraction `tbl`, and per-area facts: framed areas own
live, distinct, non-table frames recorded in `tbl` and keyed by their VPN
range, and every covered vpn has a `tbl` entry. -/
structure MSInv (m : Machine) (ms : MemorySet) (tbl : List (Nat × Nat)) :
    Prop where
  inv : StructInv m ms.page_table
  abs : AbsInv m ms.page_table tbl
  framedDf : ∀ area ∈ ms.areas, area.map_type = MapType.framed →
    (∀ v, area.vpn_start ≤ v → v < area.vpn_end →
      ∃ fp, (v, fp) ∈ area.data_frames) ∧
    (∀ e ∈ area.data_frames, e ∈ tbl ∧ live m e.2 ∧
      ¬ tablePage m ms.page_table e.2 ∧
      area.vpn_start ≤ e.1 ∧ e.1 < area.vpn_end) ∧
    area.data_frames.Pairwise (fun x y => x.2 ≠ y.2)
  coverTbl : ∀ area ∈ ms.areas, ∀ v, area.vpn_start ≤ v →
    v < area.vpn_end → ∃ fp, (v, fp) ∈ tbl

theorem Evolves.of_fa_eq {m m2 : Machine} (hf : m2.fa = m.fa) :
    Evolves m m2 :=
  ⟨by rw [hf], fun p hp => by rw [hf] at hp; exact hp⟩

theorem copy_data_framed {m : Machine} {pt : PageTable} {area : MapArea}
    {data : List Nat} (hmt : area.map_type = MapType.framed) :
    MapArea.copy_data m pt area data =
      copyDataLoop m pt data area.vpn_start 0 (data.length / PAGE_SIZE + 1)
    := by
  unfold MapArea.copy_data
  rw [hmt]

theorem copy_data_identical {m : Machine} {pt : PageTable} {area : MapArea}
    {data : List Nat} (hmt : area.map_type = MapType.identical) :
    MapArea.copy_data m pt area data = none := by
  unfold MapArea.copy_data
  rw [hmt]

theorem MSInv_push_assemble {m m1 : Machine} {ms : MemorySet}
    {pt1 : PageTable} {a1 : MapArea} {tbl pairs : List (Nat × Nat)}
    (hi : MSInv m ms tbl)
    (hbs : BuildStep m ms.page_table m1 pt1)
    (habs1 : AbsInv m1 pt1 (pairs ++ tbl))
    (hcovA : ∀ v, a1.vpn_start ≤ v → v < a1.vpn_end →
      ∃ fp, (v, fp) ∈ pairs)
    (hdfEq : a1.map_type = MapType.framed → a1.data_frames = pairs)
    (hbndA : ∀ e ∈ pairs, a1.vpn_start ≤ e.1 ∧ e.1 < a1.vpn_end)
    (hfr : a1.map_type = MapType.framed →
      (∀ e ∈ pairs, live m1 e.2 ∧ ¬ tablePage m1 pt1 e.2) ∧
      pairs.Pairwise (fun x y => x.2 ≠ y.2)) :
    MSInv m1 { page_table := pt1, areas := ms.areas ++ [a1] }
      (pairs ++ tbl) := by
  refine ⟨hbs.inv, habs1, ?_, ?_⟩
  · intro area' hmem hmt
    rcases List.mem_append.mp hmem with hold | hnew
    · obtain ⟨hcov', hdf', hpw'⟩ := hi.framedDf area' hold hmt
      refine ⟨hcov', ?_, hpw'⟩
      intro e he
      obtain ⟨htbl, hlive, hnt, hb1, hb2⟩ := hdf' e he
      refine ⟨List.mem_append_right _ htbl, hbs.evol.liveMono hlive, ?_,
        hb1, hb2⟩
      intro ht1
      rcases hbs.tableMono e.2 ht1 with ht0 | hnl
      · exact hnt ht0
      · exact hnl hlive
    · have ha1 : area' = a1 := by simpa using hnew
      subst ha1
      obtain ⟨hprops, hpw⟩ := hfr hmt
      rw [hdfEq hmt]
      refine ⟨hcovA, ?_, hpw⟩
      intro e he
      obtain ⟨hlive, hnt⟩ := hprops e he
      obtain ⟨hb1, hb2⟩ := hbndA e he
      exact ⟨List.mem_append_left _ he, hlive, hnt, hb1, hb2⟩
  · intro area' hmem v hv1 hv2
    rcases List.mem_append.mp hmem with hold | hnew
    · obtain ⟨fp, hfp⟩ := hi.coverTbl area' hold v hv1 hv2
      exact ⟨fp, List.mem_append_right _ hfp⟩
    · have ha1 : area' = a1 := by simpa using hnew
      subst ha1
      obtain ⟨fp, hfp⟩ := hcovA v hv1 hv2
      exact ⟨fp, List.mem_append_left _ hfp⟩

/-- The full specification of `MemorySet::push` for an area with an empty
`data_frames` list: it maps every page of the area's range into the page
table (allocating fresh frames if framed), copies the optional data into the
freshly mapped frames without touching any page that was live beforehand,
appends the area, and preserves the memory-set invariant with the new
vpn-to-ppn pairs prepended. -/
theorem push_spec {m m2 : Machine} {ms ms2 : MemorySet} {area : MapArea}
    {data : Option (List Nat)} {tbl : List (Nat × Nat)}
    (hi : MSInv m ms tbl)
    (hse : area.vpn_start ≤ area.vpn_end)
    (he44 : area.vpn_end ≤ 2 ^ 44)
    (hdf0 : area.data_frames = [])
    (hlen : ∀ d, data = some d →
      d.length ≤ (area.vpn_end - area.vpn_start) * PAGE_SIZE)
    (h : MemorySet.push m ms area data = some (m2, ms2)) :
    ∃ a2 pairs,
      MSInv m2 ms2 (pairs ++ tbl) ∧
      BuildStep m ms.page_table m2 ms2.page_table ∧
      ms2.areas = ms.areas ++ [a2] ∧
      a2.vpn_start = area.vpn_start ∧
      a2.vpn_end = area.vpn_end ∧
      a2.map_type = area.map_type ∧
      a2.map_perm = area.map_perm ∧
      (area.map_type = MapType.framed →
        a2.data_frames = pairs ∧ ∀ e ∈ pairs, ¬ live m e.2) ∧
      (∀ v, area.vpn_start ≤ v → v < area.vpn_end →
        ∃ fp, (v, fp) ∈ pairs) ∧
      (∀ e ∈ pairs, area.vpn_start ≤ e.1 ∧ e.1 < area.vpn_end) := by
  unfold MemorySet.push at h
  cases hmap : MapArea.map m ms.page_table area with
  | none =>
    rw [hmap] at h
    exact absurd h (by simp)
  | some tri =>
    obtain ⟨m1, pt1, a1⟩ := tri
    rw [hmap] at h
    have hmr : MapArea.mapRange m ms.page_table area area.vpn_start
        (area.vpn_end - area.vpn_start) = some (m1, pt1, a1) := hmap
    obtain ⟨pairs, hbs, habs1, hvs, hve, hmt, hmp, hdfF, hdfI, hcov,
        hbnd, hfresh⟩ :=
      mapRange_spec (area.vpn_end - area.vpn_start) hi.inv hi.abs
        (by omega) hmr
    have hcov' : ∀ v, area.vpn_start ≤ v → v < area.vpn_end →
        ∃ fp, (v, fp) ∈ pairs := by
      intro v hv1 hv2
      exact hcov v hv1 (by omega)
    have hbnd' : ∀ e ∈ pairs, area.vpn_start ≤ e.1 ∧ e.1 < area.vpn_end := by
      intro e he
      obtain ⟨hb1, hb2⟩ := hbnd e he
      exact ⟨hb1, by omega⟩
    have hcovA : ∀ v, a1.vpn_start ≤ v → v < a1.vpn_end →
        ∃ fp, (v, fp) ∈ pairs := by
      rw [hvs, hve]
      exact hcov'
    have hbndA : ∀ e ∈ pairs, a1.vpn_start ≤ e.1 ∧ e.1 < a1.vpn_end := by
      rw [hvs, hve]
      exact hbnd'
    have hdfEq : a1.map_type = MapType.framed → a1.data_frames = pairs := by
      intro hf
      rw [hdfF (hmt ▸ hf), hdf0]
      rfl
    cases data with
    | none =>
      have h2 : some
          (m1, ({ page_table := pt1, areas := ms.areas ++ [a1] } : MemorySet))
          = some (m2, ms2) := h
      simp only [Option.some.injEq, Prod.mk.injEq] at h2
      obtain ⟨rfl, rfl⟩ := h2
      refine ⟨a1, pairs, ?_, hbs, rfl, hvs, hve, hmt, hmp, ?_, hcov',
        hbnd'⟩
      · refine MSInv_push_assemble hi hbs habs1 hcovA hdfEq hbndA ?_
        intro hf
        obtain ⟨hpr, hpw⟩ := hfresh (hmt ▸ hf)
        exact ⟨fun e he => (hpr e he).2, hpw⟩
      · intro hf
        refine ⟨hdfEq (hmt ▸ hf), ?_⟩
        intro e he
        exact ((hfresh hf).1 e he).1
    | some d =>
      have h3 : (match MapArea.copy_data m1 pt1 a1 d with
          | none => none
          | some mc =>
            some (mc, ({ page_table := pt1, areas := ms.areas ++ [a1] } : MemorySet)))
          = some (m2, ms2) := h
      cases hcd : MapArea.copy_data m1 pt1 a1 d with
      | none =>
        rw [hcd] at h3
        exact absurd h3 (by simp)
      | some mc =>
        rw [hcd] at h3
        have h2 : some
            (mc,
              ({ page_table := pt1, areas := ms.areas ++ [a1] } : MemorySet))
            = some (m2, ms2) := h3
        simp only [Option.some.injEq, Prod.mk.injEq] at h2
        obtain ⟨rfl, rfl⟩ := h2
        cases hmt1 : a1.map_type with
        | identical =>
          rw [copy_data_identical hmt1] at hcd
          exact absurd hcd (by simp)
        | framed =>
          have hmtA : area.map_type = MapType.framed := hmt ▸ hmt1
          rw [copy_data_framed hmt1] at hcd
          obtain ⟨hpeq, hfeq⟩ := copyDataLoop_stable _ hcd
          have hfreshF := hfresh hmtA
          have hbytes : ∀ p, live m p → ∀ i, mc.bytes p i = m.bytes p i := by
            intro p hp i
            have hstep : mc.bytes p i = m1.bytes p i := by
              by_cases hd0 : d.length ≤ 0
              · exact copyDataLoop_done _ (by omega) hcd p i
              · refine copyDataLoop_bytes _ (area.vpn_end - area.vpn_start)
                  (by omega) ?_ hcd p ?_ i
                · have := hlen d rfl
                  omega
                · intro v loc hv1 hv2 hfp
                  rw [hvs] at hv1 hv2
                  obtain ⟨fp, hfpmem⟩ := hcov v hv1 hv2
                  obtain ⟨hfpv, hfppn, _⟩ :=
                    abs_target habs1 (List.mem_append_left tbl hfpmem)
                  rw [hfpv] at hfp
                  have hloc : loc = (t2v m1 pt1 (idx0 v) (idx1 v), idx2 v)
                    := by
                    simpa using hfp.symm
                  subst hloc
                  rw [hfppn]
                  intro hpe
                  exact ((hfreshF.1 (v, fp) hfpmem).1) (hpe ▸ hp)
            rw [hstep, hbs.extBytes p hp i]
          have hbsFull : BuildStep m ms.page_table mc pt1 := by
            refine ⟨StructInv_congr hpeq hfeq hbs.inv, hbs.root,
              hbs.evol.trans (Evolves.of_fa_eq hfeq), ?_, ?_, hbytes⟩
            · intro p hp
              exact hbs.tableMono p ((tablePage_congr hpeq p).mp hp)
            · intro p hp hnt i
              have : mc.ptes p i = m1.ptes p i := by rw [hpeq]
              rw [this, hbs.extPtes p hp hnt i]
          have habsC : AbsInv mc pt1 (pairs ++ tbl) :=
            AbsInv_machine_congr hpeq habs1
          refine ⟨a1, pairs, ?_, hbsFull, rfl, hvs, hve, hmt, hmp, ?_,
            hcov', hbnd'⟩
          · refine MSInv_push_assemble hi hbsFull habsC hcovA hdfEq hbndA ?_
            intro _
            refine ⟨?_, hfreshF.2⟩
            intro e he
            obtain ⟨_, hlv, hnt⟩ := hfreshF.1 e he
            refine ⟨(live_congr hfeq e.2).mpr hlv, ?_⟩
            intro ht
            exact hnt ((tablePage_congr hpeq e.2).mp ht)
          · intro _
            refine ⟨hdfEq hmt1, ?_⟩
            intro e he
            exact ((hfreshF.1 e he).1)

theorem MSInv_machine_congr {m m2 : Machine} (hp : m2.ptes = m.ptes)
    (hf : m2.fa = m.fa) {ms : MemorySet} {tbl : List (Nat × Nat)}
    (h : MSInv m ms tbl) : MSInv m2 ms tbl := by
  refine ⟨StructInv_congr hp hf h.inv, AbsInv_machine_congr hp h.abs,
    ?_, h.coverTbl⟩
  intro area hmem hmt
  obtain ⟨hcov, hdf, hpw⟩ := h.framedDf area hmem hmt
  refine ⟨hcov, ?_, hpw⟩
  intro e he
  obtain ⟨htbl, hlive, hnt, hb1, hb2⟩ := hdf e he
  refine ⟨htbl, (live_congr hf e.2).mpr hlive, ?_, hb1, hb2⟩
  intro ht
  exact hnt ((tablePage_congr hp e.2).mp ht)

/-- A read-only page-table walk is unchanged by any evolution that preserves
the contents of pages live at the original machine. -/
theorem translate_stable {m0 m : Machine} {pt : PageTable}
    (hs : StructInv m0 pt)
    (hp : ∀ p, live m0 p → ∀ i, m.ptes p i = m0.ptes p i) :
    ∀ vpn, PageTable.translate m pt vpn = PageTable.translate m0 pt vpn := by
  have hfp : ∀ vpn, find_pte m pt vpn = find_pte m0 pt vpn := by
    intro vpn
    unfold find_pte
    have hroot : ∀ i, m.ptes pt.root_ppn i = m0.ptes pt.root_ppn i :=
      hp pt.root_ppn hs.rootLive
    rw [hroot (idx0 vpn)]
    by_cases hv0 : pteValid (m0.ptes pt.root_ppn (idx0 vpn)) = true
    · rw [if_pos hv0]
      have hlive1 : live m0 (ptePpn (m0.ptes pt.root_ppn (idx0 vpn))) :=
        hs.t1Live (idx0 vpn) hv0
      have ht1 : ∀ i, m.ptes (ptePpn (m0.ptes pt.root_ppn (idx0 vpn))) i =
          m0.ptes (ptePpn (m0.ptes pt.root_ppn (idx0 vpn))) i :=
        hp _ hlive1
      rw [ht1 (idx1 vpn), if_pos hv0]
    · rw [if_neg hv0, if_neg hv0]
  intro vpn
  unfold PageTable.translate
  rw [hfp vpn]
  cases hf0 : find_pte m0 pt vpn with
  | none => rfl
  | some loc =>
    have hw : walkOk m0 pt (idx0 vpn) (idx1 vpn) := by
      by_contra hnw
      rw [find_pte_eq_none hnw] at hf0
      exact absurd hf0 (by simp)
    have hloc : loc = (t2v m0 pt (idx0 vpn) (idx1 vpn), idx2 vpn) := by
      rw [find_pte_eq_some hw] at hf0
      simpa using hf0.symm
    subst hloc
    have hlive2 : live m0 (t2v m0 pt (idx0 vpn) (idx1 vpn)) :=
      hs.t2Live _ _ hw
    simp only [Option.map_some']
    rw [hp _ hlive2]

/-- `MemorySet::new_bare` allocates one fresh zeroed page as the root of an
otherwise empty page table: the invariant holds with the empty abstraction,
nothing live beforehand is touched, and the only table page is the fresh
root. -/
theorem new_bare_spec {m m1 : Machine} {ms1 : MemorySet} (hm : MachOk m)
    (h : MemorySet.new_bare m = some (m1, ms1)) :
    MSInv m1 ms1 [] ∧ Evolves m m1 ∧ ms1.areas = [] ∧
    (∀ p, live m p → (∀ i, m1.ptes p i = m.ptes p i) ∧
      (∀ i, m1.bytes p i = m.bytes p i)) ∧
    (∀ p, tablePage m1 ms1.page_table p → ¬ live m p) := by
  unfold MemorySet.new_bare PageTable.new at h
  cases hal : frame_alloc m with
  | none =>
    rw [hal] at h
    exact absurd h (by simp)
  | some r =>
    obtain ⟨ma, f⟩ := r
    rw [hal] at h
    have h2 : some (ma,
        ({ page_table := { root_ppn := f, frames := [f] }, areas := [] }
          : MemorySet)) = some (m1, ms1) := h
    simp only [Option.some.injEq, Prod.mk.injEq] at h2
    obtain ⟨rfl, rfl⟩ := h2
    obtain ⟨hok1, hlivef, hnlivef, h44, hev, hother, hbother, hzero,
      hbzero⟩ := frame_alloc_spec hm hal
    have hfne : ∀ q, live m q → q ≠ f := fun q hq hh => hnlivef (hh ▸ hq)
    have hl0z : ∀ a, l0 ma
        ({ root_ppn := f, frames := [f] } : PageTable) a = 0 := by
      intro a
      unfold l0
      exact hzero a
    have hnv : ∀ a, ¬ pteValid (l0 ma
        ({ root_ppn := f, frames := [f] } : PageTable) a) = true := by
      intro a hv
      rw [hl0z a, pteValid_zero] at hv
      exact absurd hv (by simp)
    have hnw : ∀ a b, ¬ walkOk ma
        ({ root_ppn := f, frames := [f] } : PageTable) a b := by
      intro a b hw
      exact hnv a hw.1
    refine ⟨⟨?_, ?_, ?_, ?_⟩, hev, rfl, ?_, ?_⟩
    · exact
        { mok := hok1
          rootLive := hlivef
          t1Live := fun a hva => absurd hva (hnv a)
          t1NeRoot := fun a hva => absurd hva (hnv a)
          t1Inj := fun a a2 hva => absurd hva (hnv a)
          t2Live := fun a b hw => absurd hw (hnw a b)
          t2NeRoot := fun a b hw => absurd hw (hnw a b)
          t2NeT1 := fun a b a2 hw => absurd hw (hnw a b)
          t2Inj := fun a b a2 b2 hw => absurd hw (hnw a b) }
    · refine ⟨?_, ?_⟩
      · intro a b
        constructor
        · intro hw
          exact absurd hw (hnw a b)
        · rintro ⟨e, he, -⟩
          exact absurd he (List.not_mem_nil e)
      · intro e he
        exact absurd he (List.not_mem_nil e)
    · intro area hmem
      exact absurd hmem (List.not_mem_nil area)
    · intro area hmem
      exact absurd hmem (List.not_mem_nil area)
    · intro p hp
      exact ⟨fun i => hother p (hfne p hp) i, fun i => hbother p (hfne p hp) i⟩
    · intro p hp
      rcases hp with rfl | ⟨a, hva, rfl⟩ | ⟨a, b, hw, rfl⟩
      · exact hnlivef
      · exact absurd hva (hnv a)
      · exact absurd hw (hnw a b)

/-- `MemorySet::map_trampoline` records the trampoline mapping in the page
table without any area, preserving the memory-set invariant with the
trampoline pair prepended to the abstraction. -/
theorem map_trampoline_spec {m m2 : Machine} {ms ms2 : MemorySet}
    {strampoline : Nat} {tbl : List (Nat × Nat)}
    (hi : MSInv m ms tbl) (hst : strampoline < 2 ^ 44)
    (h : MemorySet.map_trampoline m ms strampoline = some (m2, ms2)) :
    MSInv m2 ms2 ((TRAMPOLINE_VPN, strampoline) :: tbl) ∧
    BuildStep m ms.page_table m2 ms2.page_table ∧
    ms2.areas = ms.areas := by
  unfold MemorySet.map_trampoline at h
  cases hpm : PageTable.map m ms.page_table TRAMPOLINE_VPN strampoline
      pteRX with
  | none =>
    rw [hpm] at h
    exact absurd h (by simp)
  | some r =>
    obtain ⟨m1, pt1⟩ := r
    rw [hpm] at h
    have h2 : some (m1, { ms with page_table := pt1 }) = some (m2, ms2) := h
    simp only [Option.some.injEq, Prod.mk.injEq] at h2
    obtain ⟨rfl, rfl⟩ := h2
    have F := ptMap_spec hi.inv hi.abs hst hpm
    have hbs : BuildStep m ms.page_table m1 pt1 := MapSpec.step F
    refine ⟨⟨F.inv, F.abs, ?_, ?_⟩, hbs, rfl⟩
    · intro area hmem hmt
      obtain ⟨hcov, hdf, hpw⟩ := hi.framedDf area hmem hmt
      refine ⟨hcov, ?_, hpw⟩
      intro e he
      obtain ⟨htbl, hlive, hnt, hb1, hb2⟩ := hdf e he
      refine ⟨List.mem_cons_of_mem _ htbl, hbs.evol.liveMono hlive, ?_,
        hb1, hb2⟩
      intro ht
      rcases hbs.tableMono e.2 ht with ht0 | hnl
      · exact hnt ht0
      · exact hnl hlive
    · intro area hmem v hv1 hv2
      obtain ⟨fp, hfp⟩ := hi.coverTbl area hmem v hv1 hv2
      exact ⟨fp, List.mem_cons_of_mem _ hfp⟩

theorem mapArea_new_eq (start_va end_va : Nat) (mt : MapType) (perm : Nat) :
    MapArea.new start_va end_va mt perm =
      if start_va / PAGE_SIZE ≤ (end_va + PAGE_SIZE - 1) / PAGE_SIZE then
        some { vpn_start := start_va / PAGE_SIZE, vpn_end := (end_va + PAGE_SIZE - 1) / PAGE_SIZE, data_frames := [], map_type := mt, map_perm := perm }
      else none := rfl

theorem buildFrom_spec (ops : List BuildOp) :
    ∀ {m : Machine} {ms : MemorySet} {tbl : List (Nat × Nat)}
      {m2 : Machine} {ms2 : MemorySet},
      MSInv m ms tbl →
      (∀ op ∈ ops, (op.end_va + PAGE_SIZE - 1) / PAGE_SIZE ≤ 2 ^ 44 ∧
        ∀ d, op.data = some d →
          d.length ≤ ((op.end_va + PAGE_SIZE - 1) / PAGE_SIZE -
            op.start_va / PAGE_SIZE) * PAGE_SIZE) →
      buildFrom m ms ops = some (m2, ms2) →
      ∃ tbl2, MSInv m2 ms2 tbl2 ∧ ∃ pre, tbl2 = pre ++ tbl := by
  induction ops with
  | nil =>
    intro m ms tbl m2 ms2 hi _ h
    have h1 : some (m, ms) = some (m2, ms2) := h
    simp only [Option.some.injEq, Prod.mk.injEq] at h1
    obtain ⟨rfl, rfl⟩ := h1
    exact ⟨tbl, hi, [], rfl⟩
  | cons op ops ih =>
    intro m ms tbl m2 ms2 hi hops h
    have h1 : (match buildPush m ms op with
        | none => none
        | some (m1, ms1) => buildFrom m1 ms1 ops) = some (m2, ms2) := h
    cases hbp : buildPush m ms op with
    | none =>
      rw [hbp] at h1
      exact absurd h1 (by simp)
    | some r =>
      obtain ⟨m1, ms1⟩ := r
      rw [hbp] at h1
      unfold buildPush at hbp
      cases hna : MapArea.new op.start_va op.end_va op.map_type
          op.map_perm with
      | none =>
        rw [hna] at hbp
        exact absurd hbp (by simp)
      | some area =>
        rw [hna] at hbp
        have hna2 := hna
        rw [mapArea_new_eq] at hna2
        by_cases hle : op.start_va / PAGE_SIZE ≤
            (op.end_va + PAGE_SIZE - 1) / PAGE_SIZE
        · rw [if_pos hle] at hna2
          simp only [Option.some.injEq] at hna2
          obtain ⟨hops1, hops2⟩ := hops op (List.mem_cons_self op ops)
          have hse : area.vpn_start ≤ area.vpn_end := by
            rw [← hna2]
            exact hle
          have he44a : area.vpn_end ≤ 2 ^ 44 := by
            rw [← hna2]
            exact hops1
          have hdfr : area.data_frames = [] := by
            rw [← hna2]
          have hlenr : ∀ d, op.data = some d →
              d.length ≤ (area.vpn_end - area.vpn_start) * PAGE_SIZE := by
            rw [← hna2]
            exact hops2
          obtain ⟨a2, pairs, hi1, _, _, _, _, _, _, _, _, _⟩ :=
            push_spec hi hse he44a hdfr hlenr hbp
          obtain ⟨tbl2, hi2, pre, hpre⟩ :=
            ih hi1 (fun o ho => hops o (List.mem_cons_of_mem op ho)) h1
          exact ⟨tbl2, hi2, pre ++ pairs, by rw [hpre, List.append_assoc]⟩
        · rw [if_neg hle] at hna2
          exact absurd hna2 (by simp)

def msNone : MemorySet :=
  { page_table := { root_ppn := 0, frames := [] }, areas := [] }

/-- A concrete machine with zeroed memory and a frame pool of pages
100 to 199, for evaluating the embedding on concrete builds. -/
def c4m0 : Machine :=
  { ptes := fun _ _ => 0, bytes := fun _ _ => 0,
    fa := StackFrameAllocator.init 100 200 }

def c4ops : List BuildOp :=
  [{ start_va := 0, end_va := 1, map_type := MapType.framed,
     map_perm := 2, data := none }]

def c4res : Machine × MemorySet :=
  (buildUser c4m0 7 c4ops).getD (c4m0, msNone)

def c4ctr : Machine × MemorySet :=
  (buildUser c4m0 7 []).getD (c4m0, msNone)

/-- C4, counterexample to the claimed equivalence: in the memory set built
by `new_bare` plus `map_trampoline` alone (the first steps of every
constructor), the trampoline page translates to `Some` although no
`MapArea` covers it, because `map_trampoline` installs its mapping directly
in the page table without recording an area. -/
theorem c4_trampoline_some_uncovered :
    buildUser c4m0 7 [] = some c4ctr ∧
    (MemorySet.translate c4ctr.1 c4ctr.2 TRAMPOLINE_VPN).isSome = true ∧
    ¬ MemorySet.covers c4ctr.2 TRAMPOLINE_VPN := by
  refine ⟨rfl, rfl, ?_⟩
  intro hcov
  obtain ⟨a, ha, -⟩ := hcov
  have hareas : c4ctr.2.areas = [] := rfl
  rw [hareas] at ha
  exact absurd ha (List.not_mem_nil a)

/-- C4 (amended): in every memory set the kernel constructs (`new_bare`,
then `map_trampoline`, then a sequence of area pushes — the shape of
`new_kernel`, `from_elf` and `from_existed_user`), `translate` returns
`Some` for every vpn covered by some area; the converse fails, since the
trampoline page always translates to `Some` without being covered by any
area. -/
theorem c4_translate_covered {m m2 : Machine} {ms2 : MemorySet}
    {strampoline : Nat} {ops : List BuildOp}
    (hm : MachOk m) (hst : strampoline < 2 ^ 44)
    (hops : ∀ op ∈ ops, (op.end_va + PAGE_SIZE - 1) / PAGE_SIZE ≤ 2 ^ 44 ∧
      ∀ d, op.data = some d →
        d.length ≤ ((op.end_va + PAGE_SIZE - 1) / PAGE_SIZE -
          op.start_va / PAGE_SIZE) * PAGE_SIZE)
    (h : buildUser m strampoline ops = some (m2, ms2)) :
    (∀ vpn, MemorySet.covers ms2 vpn →
      (MemorySet.translate m2 ms2 vpn).isSome = true) ∧
    (MemorySet.translate m2 ms2 TRAMPOLINE_VPN).isSome = true := by
  unfold buildUser at h
  cases hnb : MemorySet.new_bare m with
  | none =>
    rw [hnb] at h
    exact absurd h (by simp)
  | some r1 =>
    obtain ⟨m1, ms1⟩ := r1
    rw [hnb] at h
    obtain ⟨hi1, _, _, _, _⟩ := new_bare_spec hm hnb
    have h2 : (match MemorySet.map_trampoline m1 ms1 strampoline with
        | none => none
        | some (mt, mst) => buildFrom mt mst ops) = some (m2, ms2) := h
    cases hmt : MemorySet.map_trampoline m1 ms1 strampoline with
    | none =>
      rw [hmt] at h2
      exact absurd h2 (by simp)
    | some r2 =>
      obtain ⟨mt, mst⟩ := r2
      rw [hmt] at h2
      obtain ⟨hi2, _, _⟩ := map_trampoline_spec hi1 hst hmt
      obtain ⟨tbl2, hif, pre, hpre⟩ := buildFrom_spec ops hi2 hops h2
      have htr : (TRAMPOLINE_VPN, strampoline) ∈ tbl2 := by
        rw [hpre]
        exact List.mem_append_right pre (List.mem_cons_self _ _)
      constructor
      · intro vpn hcov
        obtain ⟨area, hmem, hv1, hv2⟩ := hcov
        obtain ⟨fp, hfp⟩ := hif.coverTbl area hmem vpn hv1 hv2
        obtain ⟨hfind, -, -⟩ := abs_target hif.abs hfp
        unfold MemorySet.translate PageTable.translate
        rw [hfind]
        rfl
      · obtain ⟨hfind, -, -⟩ := abs_target hif.abs htr
        unfold MemorySet.translate PageTable.translate
        rw [hfind]
        rfl

theorem c4_translate_covered_witness :
    (MemorySet.translate c4res.1 c4res.2 0).isSome = true ∧
    (MemorySet.translate c4res.1 c4res.2 TRAMPOLINE_VPN).isSome = true := by
  have hm : MachOk c4m0 :=
    ⟨List.nodup_nil, fun p hp => absurd hp (List.not_mem_nil p),
      by decide, by decide⟩
  have hops : ∀ op ∈ c4ops,
      (op.end_va + PAGE_SIZE - 1) / PAGE_SIZE ≤ 2 ^ 44 ∧
      ∀ d, op.data = some d →
        d.length ≤ ((op.end_va + PAGE_SIZE - 1) / PAGE_SIZE -
          op.start_va / PAGE_SIZE) * PAGE_SIZE := by
    intro op hop
    simp only [c4ops, List.mem_singleton] at hop
    subst hop
    refine ⟨by norm_num [PAGE_SIZE], ?_⟩
    intro d hd
    exact Option.noConfusion hd
  have H := c4_translate_covered hm (by norm_num) hops
    (show buildUser c4m0 7 c4ops = some (c4res.1, c4res.2) from rfl)
  refine ⟨H.1 0 ?_, H.2⟩
  refine ⟨{ vpn_start := 0, vpn_end := 1, data_frames := [(0, 103)], map_type := MapType.framed, map_perm := 2 }, ?_, ?_, ?_⟩
  · decide
  · decide
  · decide

theorem copyPage_ptes (m : Machine) (s d : Nat) :
    (copyPage m s d).ptes = m.ptes := rfl

theorem copyPage_fa (m : Machine) (s d : Nat) :
    (copyPage m s d).fa = m.fa := rfl

theorem copyPage_bytes_other (m : Machine) (s d : Nat) {p : Nat}
    (hne : p ≠ d) : ∀ i, (copyPage m s d).bytes p i = m.bytes p i := by
  intro i
  show (if p = d ∧ i < PAGE_SIZE then m.bytes s i else m.bytes p i) =
    m.bytes p i
  rw [if_neg (fun hh : p = d ∧ i < PAGE_SIZE => hne hh.1)]

theorem copyPage_bytes_dst (m : Machine) (s d : Nat) {i : Nat}
    (hi : i < PAGE_SIZE) : (copyPage m s d).bytes d i = m.bytes s i := by
  show (if d = d ∧ i < PAGE_SIZE then m.bytes s i else m.bytes d i) =
    m.bytes s i
  rw [if_pos ⟨rfl, hi⟩]

theorem copyRange_spec (cnt : Nat) :
    ∀ {m m2 : Machine} {msP msC : MemorySet} {vpn : Nat},
      (∀ v w, vpn ≤ v → v < vpn + cnt → vpn ≤ w → w < vpn + cnt → v ≠ w →
        ∀ eD eD2, MemorySet.translate m msC v = some eD →
          MemorySet.translate m msC w = some eD2 →
          ptePpn eD ≠ ptePpn eD2) →
      (∀ v w, vpn ≤ v → v < vpn + cnt → vpn ≤ w → w < vpn + cnt →
        ∀ eS eD, MemorySet.translate m msP v = some eS →
          MemorySet.translate m msC w = some eD →
          ptePpn eS ≠ ptePpn eD) →
      copyRange m msP msC vpn cnt = some m2 →
      m2.ptes = m.ptes ∧ m2.fa = m.fa ∧
      (∀ p, (∀ v, vpn ≤ v → v < vpn + cnt →
          ∀ eD, MemorySet.translate m msC v = some eD → p ≠ ptePpn eD) →
        ∀ i, m2.bytes p i = m.bytes p i) ∧
      (∀ v, vpn ≤ v → v < vpn + cnt →
        ∀ eS eD, MemorySet.translate m msP v = some eS →
          MemorySet.translate m msC v = some eD →
          ∀ i, i < PAGE_SIZE →
            m2.bytes (ptePpn eD) i = m.bytes (ptePpn eS) i) := by
  induction cnt with
  | zero =>
    intro m m2 msP msC vpn _ _ h
    have h1 : some m = some m2 := h
    simp only [Option.some.injEq] at h1
    subst h1
    refine ⟨rfl, rfl, fun p _ i => rfl, ?_⟩
    intro v hv1 hv2
    omega
  | succ cnt ih =>
    intro m m2 msP msC vpn hdd hsd h
    unfold copyRange at h
    cases htS : MemorySet.translate m msP vpn with
    | none =>
      rw [htS] at h
      exact absurd h (by simp)
    | some esrc =>
      rw [htS] at h
      have h2 : (match MemorySet.translate m msC vpn with
          | none => none
          | some edst => copyRange
              (copyPage m (ptePpn esrc) (ptePpn edst)) msP msC
              (vpn + 1) cnt) = some m2 := h
      cases htD : MemorySet.translate m msC vpn with
      | none =>
        rw [htD] at h2
        exact absurd h2 (by simp)
      | some edst =>
        rw [htD] at h2
        have hrec : copyRange (copyPage m (ptePpn esrc) (ptePpn edst))
            msP msC (vpn + 1) cnt = some m2 := h2
        have hdd1 : ∀ v w, vpn + 1 ≤ v → v < vpn + 1 + cnt →
            vpn + 1 ≤ w → w < vpn + 1 + cnt → v ≠ w →
            ∀ eD eD2, MemorySet.translate
                (copyPage m (ptePpn esrc) (ptePpn edst)) msC v = some eD →
              MemorySet.translate
                (copyPage m (ptePpn esrc) (ptePpn edst)) msC w = some eD2 →
              ptePpn eD ≠ ptePpn eD2 := by
          intro v w hv1 hv2 hw1 hw2 hne eD eD2 hD hD2
          have hD' : MemorySet.translate m msC v = some eD := hD
          have hD2' : MemorySet.translate m msC w = some eD2 := hD2
          exact hdd v w (by omega) (by omega) (by omega) (by omega) hne
            eD eD2 hD' hD2'
        have hsd1 : ∀ v w, vpn + 1 ≤ v → v < vpn + 1 + cnt →
            vpn + 1 ≤ w → w < vpn + 1 + cnt →
            ∀ eS eD, MemorySet.translate
                (copyPage m (ptePpn esrc) (ptePpn edst)) msP v = some eS →
              MemorySet.translate
                (copyPage m (ptePpn esrc) (ptePpn edst)) msC w = some eD →
              ptePpn eS ≠ ptePpn eD := by
          intro v w hv1 hv2 hw1 hw2 eS eD hS hD
          have hS' : MemorySet.translate m msP v = some eS := hS
          have hD' : MemorySet.translate m msC w = some eD := hD
          exact hsd v w (by omega) (by omega) (by omega) (by omega)
            eS eD hS' hD'
        obtain ⟨hps, hfs, hother, hcopy⟩ := ih hdd1 hsd1 hrec
        refine ⟨hps.trans (copyPage_ptes m _ _),
          hfs.trans (copyPage_fa m _ _), ?_, ?_⟩
        · intro p hex i
          have hne : p ≠ ptePpn edst :=
            hex vpn (Nat.le_refl _) (by omega) edst htD
          have h3 : m2.bytes p i =
              (copyPage m (ptePpn esrc) (ptePpn edst)).bytes p i := by
            refine hother p ?_ i
            intro v hv1 hv2 eD hD
            have hD' : MemorySet.translate m msC v = some eD := hD
            exact hex v (by omega) (by omega) eD hD'
          rw [h3, copyPage_bytes_other m _ _ hne i]
        · intro v hv1 hv2 eS eD hS hD i hi
          by_cases hveq : v = vpn
          · subst hveq
            rw [htS] at hS
            rw [htD] at hD
            simp only [Option.some.injEq] at hS hD
            rw [← hS, ← hD]
            have h3 : m2.bytes (ptePpn edst) i =
                (copyPage m (ptePpn esrc) (ptePpn edst)).bytes
                  (ptePpn edst) i := by
              refine hother (ptePpn edst) ?_ i
              intro w hw1 hw2 eD2 hD2
              have hD2' : MemorySet.translate m msC w = some eD2 := hD2
              exact hdd v w (Nat.le_refl _) (by omega) (by omega)
                (by omega) (by omega) edst eD2 htD hD2'
            rw [h3, copyPage_bytes_dst m _ _ hi]
          · have hS' : MemorySet.translate
                (copyPage m (ptePpn esrc) (ptePpn edst)) msP v = some eS := hS
            have hD' : MemorySet.translate
                (copyPage m (ptePpn esrc) (ptePpn edst)) msC v = some eD := hD
            have h3 := hcopy v (by omega) (by omega) eS eD hS' hD' i hi
            rw [h3]
            have hne : ptePpn eS ≠ ptePpn edst :=
              hsd v vpn (by omega) (by omega) (Nat.le_refl _) (by omega)
                eS edst hS htD
            rw [copyPage_bytes_other m _ _ hne i]

theorem ms_translate_of_mem {m : Machine} {ms : MemorySet}
    {tbl : List (Nat × Nat)} (habs : AbsInv m ms.page_table tbl)
    {v fp : Nat} (hmem : (v, fp) ∈ tbl) :
    ∃ e, MemorySet.translate m ms v = some e ∧ ptePpn e = fp := by
  obtain ⟨hfind, hppn, -⟩ := abs_target habs hmem
  refine ⟨m.ptes (t2v m ms.page_table (idx0 v) (idx1 v)) (idx2 v), ?_, hppn⟩
  unfold MemorySet.translate PageTable.translate
  rw [hfind]
  rfl

/-- The area loop of `from_existed_user`: pushing a clone of each parent
area with fresh frames and copying the parent's bytes preserves, for every
page live before the child build started, both page-table entries and
bytes; keeps every child table page and child data frame off the
pre-existing pages; and leaves each child data frame holding the bytes the
parent's backing frame held at the start. -/
theorem feuAreas_spec (areas : List MapArea) :
    ∀ {m0 m : Machine} {msP msC : MemorySet}
      {tblP tblC : List (Nat × Nat)} {m2 : Machine} {msC2 : MemorySet},
      MSInv m0 msP tblP →
      (∀ a ∈ msP.areas, a.map_type = MapType.framed) →
      (∀ a ∈ areas, a ∈ msP.areas) →
      (∀ a ∈ areas, a.vpn_start ≤ a.vpn_end ∧ a.vpn_end ≤ 2 ^ 44) →
      MSInv m msC tblC →
      (∀ a ∈ msC.areas, a.map_type = MapType.framed) →
      Evolves m0 m →
      (∀ p, live m0 p → (∀ i, m.ptes p i = m0.ptes p i) ∧
        (∀ i, m.bytes p i = m0.bytes p i)) →
      (∀ p, tablePage m msC.page_table p → ¬ live m0 p) →
      (∀ a ∈ msC.areas, ∀ e ∈ a.data_frames, ¬ live m0 e.2) →
      (∀ a ∈ msC.areas, ∀ e ∈ a.data_frames, ∀ i, i < PAGE_SIZE →
        ∃ eP, MemorySet.translate m0 msP e.1 = some eP ∧
          m.bytes e.2 i = m0.bytes (ptePpn eP) i) →
      feuAreas m msP msC areas = some (m2, msC2) →
      ∃ tblC2,
        MSInv m2 msC2 tblC2 ∧
        (∀ a ∈ msC2.areas, a.map_type = MapType.framed) ∧
        Evolves m0 m2 ∧
        (∀ p, live m0 p → (∀ i, m2.ptes p i = m0.ptes p i) ∧
          (∀ i, m2.bytes p i = m0.bytes p i)) ∧
        (∀ p, tablePage m2 msC2.page_table p → ¬ live m0 p) ∧
        (∀ a ∈ msC2.areas, ∀ e ∈ a.data_frames, ¬ live m0 e.2) ∧
        (∀ a ∈ msC2.areas, ∀ e ∈ a.data_frames, ∀ i, i < PAGE_SIZE →
          ∃ eP, MemorySet.translate m0 msP e.1 = some eP ∧
            m2.bytes e.2 i = m0.bytes (ptePpn eP) i) ∧
        (∃ newAs, msC2.areas = msC.areas ++ newAs ∧
          ∀ a ∈ areas, ∃ aC ∈ newAs,
            aC.vpn_start = a.vpn_start ∧ aC.vpn_end = a.vpn_end) := by
  induction areas with
  | nil =>
    intro m0 m msP msC tblP tblC m2 msC2 HP hPfr hsub hbnds hInv hCfr hEv
      hPres hTn hDfn hCopied h
    have h1 : some (m, msC) = some (m2, msC2) := h
    simp only [Option.some.injEq, Prod.mk.injEq] at h1
    obtain ⟨rfl, rfl⟩ := h1
    refine ⟨tblC, hInv, hCfr, hEv, hPres, hTn, hDfn, hCopied,
      [], by simp, ?_⟩
    intro a ha
    exact absurd ha (List.not_mem_nil a)
  | cons a rest ih =>
    intro m0 m msP msC tblP tblC m2 msC2 HP hPfr hsub hbnds hInv hCfr hEv
      hPres hTn hDfn hCopied h
    have haP : a ∈ msP.areas := hsub a (List.mem_cons_self a rest)
    have haF : a.map_type = MapType.framed := hPfr a haP
    obtain ⟨hseA, h44A⟩ := hbnds a (List.mem_cons_self a rest)
    have h1 : (match MemorySet.push m msC (MapArea.from_another a) none with
        | none => none
        | some (m1, ms1) =>
          match copyRange m1 msP ms1 a.vpn_start
              (a.vpn_end - a.vpn_start) with
          | none => none
          | some mcp => feuAreas mcp msP ms1 rest) = some (m2, msC2) := h
    cases hpush : MemorySet.push m msC (MapArea.from_another a) none with
    | none =>
      rw [hpush] at h1
      exact absurd h1 (by simp)
    | some r1 =>
      obtain ⟨m1, ms1⟩ := r1
      rw [hpush] at h1
      have h2 : (match copyRange m1 msP ms1 a.vpn_start
            (a.vpn_end - a.vpn_start) with
          | none => none
          | some mcp => feuAreas mcp msP ms1 rest) = some (m2, msC2) := h1
      have hseA3 : (MapArea.from_another a).vpn_start ≤
          (MapArea.from_another a).vpn_end := hseA
      have h44A3 : (MapArea.from_another a).vpn_end ≤ 2 ^ 44 := h44A
      have hdfA0 : (MapArea.from_another a).data_frames = [] := rfl
      have hlenA : ∀ d, (none : Option (List Nat)) = some d →
          d.length ≤ ((MapArea.from_another a).vpn_end -
            (MapArea.from_another a).vpn_start) * PAGE_SIZE :=
        fun d hd => Option.noConfusion hd
      obtain ⟨a2, pairs, hi1, hbs1, hareas1, hvsA, hveA, hmtA, _, hfrA,
        hcovA, hbndA⟩ :=
        push_spec hInv hseA3 h44A3 hdfA0 hlenA hpush
      have hvsA2 : a2.vpn_start = a.vpn_start := hvsA
      have hveA2 : a2.vpn_end = a.vpn_end := hveA
      have hplus : (MapArea.from_another a).map_type = MapType.framed := haF
      have hmtA2 : a2.map_type = MapType.framed := hmtA.trans hplus
      obtain ⟨hdfA, hfreshA⟩ := hfrA hplus
      have hcovA2 : ∀ v, a.vpn_start ≤ v → v < a.vpn_end →
          ∃ fp, (v, fp) ∈ pairs := hcovA
      have hbndA2 : ∀ e ∈ pairs, a.vpn_start ≤ e.1 ∧ e.1 < a.vpn_end := hbndA
      have ha2mem : a2 ∈ ms1.areas := by
        rw [hareas1]
        exact List.mem_append_right _ (List.mem_singleton.mpr rfl)
      have hpw : pairs.Pairwise (fun x y => x.2 ≠ y.2) := by
        have := (hi1.framedDf a2 ha2mem hmtA2).2.2
        rwa [hdfA] at this
      have hChT : ∀ v fp, (v, fp) ∈ pairs →
          ∃ e, MemorySet.translate m1 ms1 v = some e ∧ ptePpn e = fp := by
        intro v fp hfp
        exact ms_translate_of_mem hi1.abs (List.mem_append_left _ hfp)
      have hCfr1 : ∀ x ∈ ms1.areas, x.map_type = MapType.framed := by
        intro x hx
        rw [hareas1] at hx
        rcases List.mem_append.mp hx with hx | hx
        · exact hCfr x hx
        · rw [List.mem_singleton.mp hx]
          exact hmtA2
      have hEv1 : Evolves m0 m1 := hEv.trans hbs1.evol
      have hNTC : ∀ p, live m0 p → ¬ tablePage m msC.page_table p :=
        fun p hp ht => hTn p ht hp
      have hPres1 : ∀ p, live m0 p → (∀ i, m1.ptes p i = m0.ptes p i) ∧
          (∀ i, m1.bytes p i = m0.bytes p i) := by
        intro p hp
        have hlm : live m p := hEv.liveMono hp
        constructor
        · intro i
          rw [hbs1.extPtes p hlm (hNTC p hp) i, (hPres p hp).1 i]
        · intro i
          rw [hbs1.extBytes p hlm i, (hPres p hp).2 i]
      have hTn1 : ∀ p, tablePage m1 ms1.page_table p → ¬ live m0 p := by
        intro p ht
        rcases hbs1.tableMono p ht with h0 | hnl
        · exact hTn p h0
        · exact fun hl => hnl (hEv.liveMono hl)
      have hDfn1 : ∀ x ∈ ms1.areas, ∀ e ∈ x.data_frames, ¬ live m0 e.2 := by
        intro x hx e he
        rw [hareas1] at hx
        rcases List.mem_append.mp hx with hx | hx
        · exact hDfn x hx e he
        · rw [List.mem_singleton.mp hx] at he
          rw [hdfA] at he
          exact fun hl => hfreshA e he (hEv.liveMono hl)
      have hCopiedOld1 : ∀ x ∈ msC.areas, ∀ e ∈ x.data_frames,
          ∀ i, i < PAGE_SIZE →
          ∃ eP, MemorySet.translate m0 msP e.1 = some eP ∧
            m1.bytes e.2 i = m0.bytes (ptePpn eP) i := by
        intro x hx e he i hi
        obtain ⟨eP, hPt, hbeq⟩ := hCopied x hx e he i hi
        refine ⟨eP, hPt, ?_⟩
        have hlv : live m e.2 :=
          ((hInv.framedDf x hx (hCfr x hx)).2.1 e he).2.1
        rw [hbs1.extBytes e.2 hlv i, hbeq]
      have hParT : ∀ v, a.vpn_start ≤ v → v < a.vpn_end →
          ∃ fpP eP, (v, fpP) ∈ a.data_frames ∧ live m0 fpP ∧
            MemorySet.translate m0 msP v = some eP ∧ ptePpn eP = fpP := by
        intro v hv1 hv2
        obtain ⟨hcovP, hdfP, -⟩ := HP.framedDf a haP haF
        obtain ⟨fpP, hfpP⟩ := hcovP v hv1 hv2
        obtain ⟨htblP, hliveP, -, -, -⟩ := hdfP (v, fpP) hfpP
        obtain ⟨eP, hPt, hppn⟩ := ms_translate_of_mem HP.abs htblP
        exact ⟨fpP, eP, hfpP, hliveP, hPt, hppn⟩
      have hStab1 : ∀ v, MemorySet.translate m1 msP v =
          MemorySet.translate m0 msP v := by
        intro v
        exact translate_stable HP.inv (fun p hp i => (hPres1 p hp).1 i) v
      have hdd : ∀ v w, a.vpn_start ≤ v →
          v < a.vpn_start + (a.vpn_end - a.vpn_start) → a.vpn_start ≤ w →
          w < a.vpn_start + (a.vpn_end - a.vpn_start) → v ≠ w →
          ∀ eD eD2, MemorySet.translate m1 ms1 v = some eD →
            MemorySet.translate m1 ms1 w = some eD2 →
            ptePpn eD ≠ ptePpn eD2 := by
        intro v w hv1 hv2 hw1 hw2 hvw eD eD2 hD hD2
        obtain ⟨fpv, hfpv⟩ := hcovA2 v hv1 (by omega)
        obtain ⟨fpw, hfpw⟩ := hcovA2 w hw1 (by omega)
        obtain ⟨ev, hev, hppv⟩ := hChT v fpv hfpv
        obtain ⟨ew, hew, hppw⟩ := hChT w fpw hfpw
        rw [hev] at hD
        rw [hew] at hD2
        simp only [Option.some.injEq] at hD hD2
        have hnePair : ((v, fpv) : Nat × Nat) ≠ (w, fpw) := by
          intro hq
          exact hvw (congrArg Prod.fst hq)
        have hne2 :=
          List.Pairwise.forall (fun x y h => h.symm) hpw hfpv hfpw hnePair
        rw [← hD, ← hD2, hppv, hppw]
        exact hne2
      have hsd : ∀ v w, a.vpn_start ≤ v →
          v < a.vpn_start + (a.vpn_end - a.vpn_start) → a.vpn_start ≤ w →
          w < a.vpn_start + (a.vpn_end - a.vpn_start) →
          ∀ eS eD, MemorySet.translate m1 msP v = some eS →
            MemorySet.translate m1 ms1 w = some eD →
            ptePpn eS ≠ ptePpn eD := by
        intro v w hv1 hv2 hw1 hw2 eS eD hS hD
        obtain ⟨fpP, eP, hfpP, hlivefpP, hPt, hppnP⟩ :=
          hParT v hv1 (by omega)
        have hSt : MemorySet.translate m1 msP v = some eP := by
          rw [hStab1]
          exact hPt
        rw [hSt] at hS
        simp only [Option.some.injEq] at hS
        obtain ⟨fpw, hfpw⟩ := hcovA2 w hw1 (by omega)
        obtain ⟨ew, hew, hppw⟩ := hChT w fpw hfpw
        rw [hew] at hD
        simp only [Option.some.injEq] at hD
        rw [← hS, ← hD, hppnP, hppw]
        intro hq
        apply hfreshA (w, fpw) hfpw
        rw [← hq]
        exact hEv.liveMono hlivefpP
      cases hcr : copyRange m1 msP ms1 a.vpn_start
          (a.vpn_end - a.vpn_start) with
      | none =>
        rw [hcr] at h2
        exact absurd h2 (by simp)
      | some mcp =>
        rw [hcr] at h2
        have h3 : feuAreas mcp msP ms1 rest = some (m2, msC2) := h2
        obtain ⟨hpscr, hfscr, hothercr, hcopycr⟩ :=
          copyRange_spec (a.vpn_end - a.vpn_start) hdd hsd hcr
        have hi_cp : MSInv mcp ms1 (pairs ++ tblC) :=
          MSInv_machine_congr hpscr hfscr hi1
        have hEvcp : Evolves m0 mcp := hEv1.trans (Evolves.of_fa_eq hfscr)
        have hPrescp : ∀ p, live m0 p → (∀ i, mcp.ptes p i = m0.ptes p i) ∧
            (∀ i, mcp.bytes p i = m0.bytes p i) := by
          intro p hp
          constructor
          · intro i
            have hq : mcp.ptes p i = m1.ptes p i := by rw [hpscr]
            rw [hq]
            exact (hPres1 p hp).1 i
          · intro i
            have hstep : mcp.bytes p i = m1.bytes p i := by
              refine hothercr p ?_ i
              intro v hv1 hv2 eD hD
              obtain ⟨fpv, hfpv⟩ := hcovA2 v hv1 (by omega)
              obtain ⟨ev, hev, hppv⟩ := hChT v fpv hfpv
              rw [hev] at hD
              simp only [Option.some.injEq] at hD
              intro hpe
              apply hfreshA (v, fpv) hfpv
              have hpf : p = fpv := by rw [hpe, ← hD, hppv]
              rw [← hpf]
              exact hEv.liveMono hp
            rw [hstep]
            exact (hPres1 p hp).2 i
        have hTncp : ∀ p, tablePage mcp ms1.page_table p → ¬ live m0 p := by
          intro p ht
          exact hTn1 p ((tablePage_congr hpscr p).mp ht)
        have hCopiedcp : ∀ x ∈ ms1.areas, ∀ e ∈ x.data_frames,
            ∀ i, i < PAGE_SIZE →
            ∃ eP, MemorySet.translate m0 msP e.1 = some eP ∧
              mcp.bytes e.2 i = m0.bytes (ptePpn eP) i := by
          intro x hx e he i hi
          rw [hareas1] at hx
          rcases List.mem_append.mp hx with hold | hx2
          · obtain ⟨eP, hPt, hbeq⟩ := hCopiedOld1 x hold e he i hi
            refine ⟨eP, hPt, ?_⟩
            have hlv : live m e.2 :=
              ((hInv.framedDf x hold (hCfr x hold)).2.1 e he).2.1
            have hstep : mcp.bytes e.2 i = m1.bytes e.2 i := by
              refine hothercr e.2 ?_ i
              intro v hv1 hv2 eD hD
              obtain ⟨fpv, hfpv⟩ := hcovA2 v hv1 (by omega)
              obtain ⟨ev, hev, hppv⟩ := hChT v fpv hfpv
              rw [hev] at hD
              simp only [Option.some.injEq] at hD
              intro hpe
              apply hfreshA (v, fpv) hfpv
              have hpf : e.2 = fpv := by rw [hpe, ← hD, hppv]
              rw [← hpf]
              exact hlv
            rw [hstep, hbeq]
          · rw [List.mem_singleton.mp hx2] at he
            rw [hdfA] at he
            obtain ⟨hb1, hb2⟩ := hbndA2 e he
            obtain ⟨fpP, eP, hfpP, hlivefpP, hPt, hppnP⟩ :=
              hParT e.1 hb1 hb2
            have hmemT : (e.1, e.2) ∈ pairs ++ tblC :=
              List.mem_append_left _ he
            obtain ⟨eC, hCt, hppnC⟩ := ms_translate_of_mem hi1.abs hmemT
            have hSt : MemorySet.translate m1 msP e.1 = some eP := by
              rw [hStab1]
              exact hPt
            have hcopy := hcopycr e.1 hb1 (by omega) eP eC hSt hCt i hi
            refine ⟨eP, hPt, ?_⟩
            rw [hppnP]
            have h5 : mcp.bytes e.2 i = m1.bytes fpP i := by
              rw [← hppnC, ← hppnP]
              exact hcopy
            rw [h5]
            exact (hPres1 fpP hlivefpP).2 i
        obtain ⟨tblC2, hif, hCfrF, hEvF, hPresF, hTnF, hDfnF, hCopiedF,
          newAs, hnewAs, hclone⟩ :=
          ih HP hPfr (fun x hx => hsub x (List.mem_cons_of_mem a hx))
            (fun x hx => hbnds x (List.mem_cons_of_mem a hx))
            hi_cp hCfr1 hEvcp hPrescp hTncp hDfn1 hCopiedcp h3
        refine ⟨tblC2, hif, hCfrF, hEvF, hPresF, hTnF, hDfnF, hCopiedF,
          [a2] ++ newAs, ?_, ?_⟩
        · rw [hnewAs, hareas1, List.append_assoc]
        · intro x hx
          rcases List.mem_cons.mp hx with hxa | hx2
          · subst hxa
            exact ⟨a2, List.mem_append_left _ (List.mem_singleton.mpr rfl),
              hvsA2, hveA2⟩
          · obtain ⟨aC, hmemC, hc1, hc2⟩ := hclone x hx2
            exact ⟨aC, List.mem_append_right _ hmemC, hc1, hc2⟩

/-- C5: `MemorySet::from_existed_user(parent)` deep-copies the parent
address space: for every vpn covered by a parent area, child and parent both
translate it, the child's backing frame holds the same bytes as the
parent's, the two frames are distinct; every page live before the clone
(parent table pages and data frames included) keeps its page-table entries
and bytes; and a user store through the child at a covered vpn leaves every
such pre-existing page untouched. -/
theorem c5_from_existed_user {m0 m2 : Machine} {msP msC2 : MemorySet}
    {tblP : List (Nat × Nat)} {strampoline : Nat}
    (HP : MSInv m0 msP tblP)
    (hPfr : ∀ a ∈ msP.areas, a.map_type = MapType.framed)
    (hbnds : ∀ a ∈ msP.areas, a.vpn_start ≤ a.vpn_end ∧
      a.vpn_end ≤ 2 ^ 44)
    (hst : strampoline < 2 ^ 44)
    (h : MemorySet.from_existed_user m0 strampoline msP = some (m2, msC2)) :
    (∀ a ∈ msP.areas, ∀ v, a.vpn_start ≤ v → v < a.vpn_end →
      ∃ eC eP,
        MemorySet.translate m2 msC2 v = some eC ∧
        MemorySet.translate m0 msP v = some eP ∧
        (∀ i, i < PAGE_SIZE →
          m2.bytes (ptePpn eC) i = m2.bytes (ptePpn eP) i) ∧
        ptePpn eC ≠ ptePpn eP) ∧
    (∀ p, live m0 p → (∀ i, m2.ptes p i = m0.ptes p i) ∧
      (∀ i, m2.bytes p i = m0.bytes p i)) ∧
    (∀ a ∈ msP.areas, ∀ v, a.vpn_start ≤ v → v < a.vpn_end →
      ∀ off b m3, userStoreByte m2 msC2 v off b = some m3 →
      ∀ p, live m0 p → ∀ i, m3.bytes p i = m2.bytes p i) := by
  unfold MemorySet.from_existed_user at h
  cases hnb : MemorySet.new_bare m0 with
  | none =>
    rw [hnb] at h
    exact absurd h (by simp)
  | some r1 =>
    obtain ⟨m1, ms1⟩ := r1
    rw [hnb] at h
    obtain ⟨hi1, hEvNB, hasNB, hPresNB, hTnNB⟩ :=
      new_bare_spec HP.inv.mok hnb
    have h2 : (match MemorySet.map_trampoline m1 ms1 strampoline with
        | none => none
        | some (mt, mst) => feuAreas mt msP mst msP.areas)
        = some (m2, msC2) := h
    cases hmt : MemorySet.map_trampoline m1 ms1 strampoline with
    | none =>
      rw [hmt] at h2
      exact absurd h2 (by simp)
    | some r2 =>
      obtain ⟨mt, mst⟩ := r2
      rw [hmt] at h2
      have h3 : feuAreas mt msP mst msP.areas = some (m2, msC2) := h2
      obtain ⟨hi2, hbsT, hasT⟩ := map_trampoline_spec hi1 hst hmt
      have hasT0 : mst.areas = [] := by rw [hasT, hasNB]
      have hEv2 : Evolves m0 mt := hEvNB.trans hbsT.evol
      have hPres2 : ∀ p, live m0 p → (∀ i, mt.ptes p i = m0.ptes p i) ∧
          (∀ i, mt.bytes p i = m0.bytes p i) := by
        intro p hp
        have hlm : live m1 p := hEvNB.liveMono hp
        have hnt : ¬ tablePage m1 ms1.page_table p :=
          fun ht => hTnNB p ht hp
        constructor
        · intro i
          rw [hbsT.extPtes p hlm hnt i, (hPresNB p hp).1 i]
        · intro i
          rw [hbsT.extBytes p hlm i, (hPresNB p hp).2 i]
      have hTn2 : ∀ p, tablePage mt mst.page_table p → ¬ live m0 p := by
        intro p ht
        rcases hbsT.tableMono p ht with h0 | hnl
        · exact hTnNB p h0
        · exact fun hl => hnl (hEvNB.liveMono hl)
      have hCfr2 : ∀ x ∈ mst.areas, x.map_type = MapType.framed := by
        intro x hx
        rw [hasT0] at hx
        exact absurd hx (List.not_mem_nil x)
      have hDfn2 : ∀ x ∈ mst.areas, ∀ e ∈ x.data_frames,
          ¬ live m0 e.2 := by
        intro x hx
        rw [hasT0] at hx
        exact absurd hx (List.not_mem_nil x)
      have hCopied2 : ∀ x ∈ mst.areas, ∀ e ∈ x.data_frames,
          ∀ i, i < PAGE_SIZE →
          ∃ eP, MemorySet.translate m0 msP e.1 = some eP ∧
            mt.bytes e.2 i = m0.bytes (ptePpn eP) i := by
        intro x hx
        rw [hasT0] at hx
        exact absurd hx (List.not_mem_nil x)
      obtain ⟨tblC2, hif, hCfrF, hEvF, hPresF, hTnF, hDfnF, hCopiedF,
        newAs, hnewAs, hclone⟩ :=
        feuAreas_spec msP.areas HP hPfr (fun x hx => hx) hbnds hi2 hCfr2
          hEv2 hPres2 hTn2 hDfn2 hCopied2 h3
      have hnewAs0 : msC2.areas = newAs := by
        rw [hnewAs, hasT0]
        rfl
      refine ⟨?_, hPresF, ?_⟩
      · intro a ha v hv1 hv2
        obtain ⟨aC, hmemN, hc1, hc2⟩ := hclone a ha
        have hmemC : aC ∈ msC2.areas := by
          rw [hnewAs0]
          exact hmemN
        obtain ⟨hcovC, hdfC, -⟩ :=
          hif.framedDf aC hmemC (hCfrF aC hmemC)
        obtain ⟨fp, hfp⟩ := hcovC v (by rw [hc1]; exact hv1)
          (by rw [hc2]; exact hv2)
        obtain ⟨hfpTbl, -, -, -, -⟩ := hdfC (v, fp) hfp
        obtain ⟨eC, hCt, hppC⟩ := ms_translate_of_mem hif.abs hfpTbl
        obtain ⟨hcovP, hdfP, -⟩ := HP.framedDf a ha (hPfr a ha)
        obtain ⟨fpP, hfpP⟩ := hcovP v hv1 hv2
        obtain ⟨hfpPTbl, hlivP, -, -, -⟩ := hdfP (v, fpP) hfpP
        obtain ⟨eP, hPt, hppP⟩ := ms_translate_of_mem HP.abs hfpPTbl
        refine ⟨eC, eP, hCt, hPt, ?_, ?_⟩
        · intro i hi
          obtain ⟨eP2, hPt2, hbeq⟩ := hCopiedF aC hmemC (v, fp) hfp i hi
          have hPt2b : MemorySet.translate m0 msP v = some eP2 := hPt2
          rw [hPt] at hPt2b
          simp only [Option.some.injEq] at hPt2b
          rw [hppC, hppP]
          have hb2 : m2.bytes fp i = m0.bytes (ptePpn eP2) i := hbeq
          rw [hb2, ← hPt2b, hppP]
          exact ((hPresF fpP hlivP).2 i).symm
        · rw [hppC, hppP]
          intro hq
          have hnl : ¬ live m0 fp := hDfnF aC hmemC (v, fp) hfp
          rw [hq] at hnl
          exact hnl hlivP
      · intro a ha v hv1 hv2 off b m3 hstore p hp i
        obtain ⟨aC, hmemN, hc1, hc2⟩ := hclone a ha
        have hmemC : aC ∈ msC2.areas := by
          rw [hnewAs0]
          exact hmemN
        obtain ⟨hcovC, hdfC, -⟩ :=
          hif.framedDf aC hmemC (hCfrF aC hmemC)
        obtain ⟨fp, hfp⟩ := hcovC v (by rw [hc1]; exact hv1)
          (by rw [hc2]; exact hv2)
        obtain ⟨hfpTbl, -, -, -, -⟩ := hdfC (v, fp) hfp
        obtain ⟨eC, hCt, hppC⟩ := ms_translate_of_mem hif.abs hfpTbl
        unfold userStoreByte at hstore
        rw [hCt] at hstore
        have hst2 : some ({ m2 with bytes := fun q j => if q = ptePpn eC ∧ j = off then b else m2.bytes q j } : Machine) = some m3 := hstore
        simp only [Option.some.injEq] at hst2
        rw [← hst2]
        show (if p = ptePpn eC ∧ i = off then b else m2.bytes p i) =
          m2.bytes p i
        rw [if_neg]
        intro hh
        have hnl : ¬ live m0 fp := hDfnF aC hmemC (v, fp) hfp
        apply hnl
        rw [← hppC, ← hh.1]
        exact hp

theorem buildUser_spec {m m2 : Machine} {ms2 : MemorySet}
    {strampoline : Nat} {ops : List BuildOp}
    (hm : MachOk m) (hst : strampoline < 2 ^ 44)
    (hops : ∀ op ∈ ops, (op.end_va + PAGE_SIZE - 1) / PAGE_SIZE ≤ 2 ^ 44 ∧
      ∀ d, op.data = some d →
        d.length ≤ ((op.end_va + PAGE_SIZE - 1) / PAGE_SIZE -
          op.start_va / PAGE_SIZE) * PAGE_SIZE)
    (h : buildUser m strampoline ops = some (m2, ms2)) :
    ∃ tbl2, MSInv m2 ms2 tbl2 := by
  unfold buildUser at h
  cases hnb : MemorySet.new_bare m with
  | none =>
    rw [hnb] at h
    exact absurd h (by simp)
  | some r1 =>
    obtain ⟨m1, ms1⟩ := r1
    rw [hnb] at h
    obtain ⟨hi1, _, _, _, _⟩ := new_bare_spec hm hnb
    have h2 : (match MemorySet.map_trampoline m1 ms1 strampoline with
        | none => none
        | some (mt, mst) => buildFrom mt mst ops) = some (m2, ms2) := h
    cases hmt : MemorySet.map_trampoline m1 ms1 strampoline with
    | none =>
      rw [hmt] at h2
      exact absurd h2 (by simp)
    | some r2 =>
      obtain ⟨mt, mst⟩ := r2
      rw [hmt] at h2
      obtain ⟨hi2, _, _⟩ := map_trampoline_spec hi1 hst hmt
      obtain ⟨tbl2, hif, -⟩ := buildFrom_spec ops hi2 hops h2
      exact ⟨tbl2, hif⟩

def c5m0 : Machine :=
  { ptes := fun _ _ => 0, bytes := fun _ _ => 0,
    fa := StackFrameAllocator.init 100 200 }

def c5ops : List BuildOp :=
  [{ start_va := 0, end_va := 1, map_type := MapType.framed,
     map_perm := 2, data := some [7, 8] }]

/-- A concrete parent user space: one framed page at vpn 0 holding bytes
7 and 8. -/
def c5par : Machine × MemorySet :=
  (buildUser c5m0 7 c5ops).getD (c5m0, msNone)

/-- The concrete child produced by `from_existed_user` on `c5par`. -/
def c5res : Machine × MemorySet :=
  (MemorySet.from_existed_user c5par.1 7 c5par.2).getD (c5m0, msNone)

theorem c5_from_existed_user_witness :
    ∃ eC eP,
      MemorySet.translate c5res.1 c5res.2 0 = some eC ∧
      MemorySet.translate c5par.1 c5par.2 0 = some eP ∧
      (∀ i, i < PAGE_SIZE →
        c5res.1.bytes (ptePpn eC) i = c5res.1.bytes (ptePpn eP) i) ∧
      ptePpn eC ≠ ptePpn eP := by
  have hm : MachOk c5m0 :=
    ⟨List.nodup_nil, fun p hp => absurd hp (List.not_mem_nil p),
      by decide, by decide⟩
  have hops : ∀ op ∈ c5ops,
      (op.end_va + PAGE_SIZE - 1) / PAGE_SIZE ≤ 2 ^ 44 ∧
      ∀ d, op.data = some d →
        d.length ≤ ((op.end_va + PAGE_SIZE - 1) / PAGE_SIZE -
          op.start_va / PAGE_SIZE) * PAGE_SIZE := by
    intro op hop
    simp only [c5ops, List.mem_singleton] at hop
    subst hop
    refine ⟨by norm_num [PAGE_SIZE], ?_⟩
    intro d hd
    have hd2 : d = [7, 8] := by
      have hd3 : some [7, 8] = some d := hd
      simpa using hd3.symm
    subst hd2
    norm_num [PAGE_SIZE]
  obtain ⟨tblP, HP⟩ := buildUser_spec hm (by norm_num) hops
    (show buildUser c5m0 7 c5ops = some (c5par.1, c5par.2) from rfl)
  have H := c5_from_existed_user HP (by decide) (by decide) (by norm_num)
    (show MemorySet.from_existed_user c5par.1 7 c5par.2
      = some (c5res.1, c5res.2) from rfl)
  exact H.1
    { vpn_start := 0, vpn_end := 1, data_frames := [(0, 103)], map_type := MapType.framed, map_perm := 2 }
    (by decide) 0 (Nat.le_refl 0) (by decide)

end RCore
